import Mathlib

/-!
# Verification of the OpenPaw memory subsystem (`src/memory/memory-manager.ts`)

This file gives a shallow embedding of the persistent memory subsystem of the
OpenPaw repository and settles the frozen claims about it.

JavaScript strings are modelled as `List Char` (`Str`).  The on-disk files
(`MEMORY.md` and the daily logs) are modelled as `Str` values; the parser
`parseMemoryMd`, the serializer `serializeEntry`, and every store operation
(`save`, `upsertLongTerm`, `appendDailyLog`, `forget`, `flushSession`,
`addToShortTerm`) are translated from the TypeScript source.  The SQLite FTS5
table is modelled as a list of rows; the two statements the code issues against
it (`DELETE ... WHERE id = ?` followed by `INSERT`) become list operations.
Nondeterministic inputs of the code (`new Date().toISOString()`, `today()`,
`uuid()`) become explicit parameters of the operations.

The file is organized as definitions first (the embedding), then theorems.
-/

set_option maxHeartbeats 1000000
set_option maxRecDepth 100000

abbrev Str := List Char

def str (s : String) : Str := s.toList

/-- The white-space set of JavaScript's `String.prototype.trim` (ASCII white
space, line terminators and the Unicode space characters). -/
def isJsWs (c : Char) : Bool :=
  c == ' ' || c == '\t' || c == '\n' || c == '\r' || c == '\x0b' || c == '\x0c' ||
  c.toNat == 0xa0 || c.toNat == 0x1680 ||
  (0x2000 ≤ c.toNat && c.toNat ≤ 0x200a) ||
  c.toNat == 0x2028 || c.toNat == 0x2029 || c.toNat == 0x202f ||
  c.toNat == 0x205f || c.toNat == 0x3000 || c.toNat == 0xfeff

def leftTrim (s : Str) : Str := s.dropWhile isJsWs

def rightTrim (s : Str) : Str := (s.reverse.dropWhile isJsWs).reverse

/-- JavaScript `s.trim()`. -/
def jsTrim (s : Str) : Str := rightTrim (leftTrim s)

/-- A string is *trim-stable* when `trim` leaves it unchanged. -/
def trimStable (s : Str) : Bool := jsTrim s == s

def splitOnSep {α : Type} [DecidableEq α] (sep : α) : List α → List (List α)
  | [] => [[]]
  | x :: xs =>
    if x = sep then [] :: splitOnSep sep xs
    else
      match splitOnSep sep xs with
      | [] => [[x]]
      | g :: gs => (x :: g) :: gs

structure MemoryEntry where
  id : Str
  type : Str
  content : Str
  tags : List Str
  createdAt : Str
  updatedAt : Str
  source : Str
deriving DecidableEq, Repr

/-- Line terminators, the characters the regex metacharacter `.` does not
match in JavaScript. -/
def isLineTerm (c : Char) : Bool :=
  c == '\n' || c == '\r' || c.toNat == 0x2028 || c.toNat == 0x2029

/-- Characters matched by `[a-z_]` under the `i` flag. -/
def isKeyChar (c : Char) : Bool :=
  (decide ('a' ≤ c) && decide (c ≤ 'z')) ||
  (decide ('A' ≤ c) && decide (c ≤ 'Z')) || c == '_'

/-- The test `/^[a-z_]+: .+$/i.test(line)`: a non-empty run of key characters,
the literal `": "`, then at least one character, with `.` refusing line
terminators and the match anchored at both ends.  (A successful match's key is
necessarily the maximal run of key characters, because the character after any
shorter candidate key would be a key character rather than `:`.) -/
def isMetaLine (l : Str) : Bool :=
  let k := l.takeWhile isKeyChar
  let rest := l.drop (k.length + 2)
  (!k.isEmpty) && ((l.drop k.length).take 2 == str ": ") &&
  (!rest.isEmpty) && rest.all (fun c => !isLineTerm c)

/-- `line.split(": ")` destructured as `[k, ...rest]` with the remainder
re-joined by `rest.join(": ")`: equivalently, split the line at the first
occurrence of `": "`. -/
def splitFirstColonSp : Str → Option (Str × Str)
  | [] => none
  | c :: rest =>
    if c = ':' ∧ rest.head? = some ' ' then some ([], rest.tail)
    else
      match splitFirstColonSp rest with
      | some (a, b) => some (c :: a, b)
      | none => none

/-- `meta[k.trim()] = rest.join(": ").trim()` for one line.  When the line has
no `": "` at all, JS yields `k = line` and an empty remainder. -/
def metaKV (l : Str) : Str × Str :=
  match splitFirstColonSp l with
  | some (k, v) => (jsTrim k, jsTrim v)
  | none => (jsTrim l, [])

/-- `line.startsWith("<!--") && line.endsWith("-->")`. -/
def isCommentLine (l : Str) : Bool :=
  (str "<!--").isPrefixOf l && (str "-->").isSuffixOf l

/-- The per-line loop of `parseMemoryMd` over one block: accumulates the
`meta` record (most recent assignment first, matching JS object overwrite on
lookup) and the content lines. -/
def blockLoop : List Str → List (Str × Str) → List Str → Bool →
    List (Str × Str) × List Str
  | [], meta, contentLines, _ => (meta, contentLines)
  | line :: rest, meta, contentLines, inContent =>
    if inContent then blockLoop rest meta (contentLines ++ [line]) true
    else if isCommentLine line then blockLoop rest meta contentLines false
    else if isMetaLine line then
      blockLoop rest (metaKV line :: meta) contentLines false
    else blockLoop rest meta (contentLines ++ [line]) true

def metaGet (meta : List (Str × Str)) (k : Str) : Option Str :=
  (meta.find? (fun p => p.1 == k)).map (·.2)

def dashLine : Str := str "---"

/-- The tail of one iteration of the `for (const block of blocks)` body of
`parseMemoryMd`: the malformed-block check and the entry assembly with
defaults.  `pnow` is the value `new Date().toISOString()` takes at parse time
(used for defaulted timestamps).  The `continue` case is the `none` result. -/
def parseBlockFrom (pnow : Str) (meta : List (Str × Str))
    (contentLines : List Str) : Option MemoryEntry :=
  if (metaGet meta (str "id")).getD [] = [] then none
  else if jsTrim contentLines.flatten = [] then none
  else some {
    id := (metaGet meta (str "id")).getD []
    type := (metaGet meta (str "type")).getD (str "fact")
    content := jsTrim (List.intercalate ['\n'] contentLines)
    tags := match metaGet meta (str "tags") with
      | none => []
      | some v => if v = [] then [] else (splitOnSep ',' v).map jsTrim
    createdAt := (metaGet meta (str "createdAt")).getD pnow
    updatedAt := (metaGet meta (str "updatedAt")).getD pnow
    source := (metaGet meta (str "source")).getD (str "agent") }

/-- One iteration of the `for (const block of blocks)` body of `parseMemoryMd`:
split the block into lines, run the line loop, then check and assemble.  The
`try`/`catch` of the source cannot fire (nothing in the loop body throws). -/
def parseBlock (pnow : Str) (block : Str) : Option MemoryEntry :=
  parseBlockFrom pnow (blockLoop (splitOnSep '\n' block) [] [] false).1
    (blockLoop (splitOnSep '\n' block) [] [] false).2

/-- `raw.split(/^---$/m)` composed with the per-piece `.trim()` (see the
comment above `splitOnSep`). -/
def splitTrimBlocks (raw : Str) : List Str :=
  ((splitOnSep dashLine (splitOnSep '\n' raw)).map (List.intercalate ['\n'])).map jsTrim

/-- `parseMemoryMd` from the source: split into blocks, trim each, drop empty
pieces (`filter(Boolean)`), then parse each block, skipping malformed ones. -/
def parseMemoryMd (pnow : Str) (raw : Str) : List MemoryEntry :=
  ((splitTrimBlocks raw).filter (fun b => !b.isEmpty)).filterMap (parseBlock pnow)

/-- `serializeEntry` from the source. -/
def serializeEntry (e : MemoryEntry) : Str :=
  List.intercalate ['\n']
    [str "id: " ++ e.id,
     str "type: " ++ e.type,
     str "tags: " ++ List.intercalate (str ", ") e.tags,
     str "createdAt: " ++ e.createdAt,
     str "updatedAt: " ++ e.updatedAt,
     str "source: " ++ e.source,
     [],
     e.content,
     [],
     dashLine]

/-- The `MEMORY.md` header written by `upsertLongTerm` and `forget`. -/
def headerStr (now : Str) : Str :=
  str "# OpenPaw Long-Term Memory\n\nLast updated: " ++ now ++ str "\n\n---\n"

/-- The initial `MEMORY.md` created by `init()` when the file is absent. -/
def initialMemoryMd (created : Str) : Str :=
  str "# OpenPaw Long-Term Memory\n\nCreated: " ++ created ++ str "\n\n---\n"

def noLineTermS (s : Str) : Bool := s.all (fun c => !isLineTerm c)

/-- A metadata value that round-trips through its `key: value` line: non-empty
(the regex requires `.+`), free of line terminators, and stable under the
`.trim()` the parser applies to values. -/
def wfValue (s : Str) : Bool := !s.isEmpty && noLineTermS s && trimStable s

/-- A tag that survives the comma-join/split round trip. -/
def wfTag (t : Str) : Bool := wfValue t && t.all (fun c => !(c == ','))

def wfTags (ts : List Str) : Bool := !ts.isEmpty && ts.all wfTag

/-- Content that survives a serialize/parse round trip: not blank, and without
any line consisting exactly of `---` (which the block splitter would treat as a
terminator). -/
def wfContent (c : Str) : Bool :=
  !(jsTrim c).isEmpty && (splitOnSep '\n' c).all (fun l => !(l == dashLine))

/-- Well-formed entry, except that the content need not be trim-stable (the
parser returns it trimmed). -/
def wfEntryCore (e : MemoryEntry) : Bool :=
  wfValue e.id && wfValue e.type && wfTags e.tags && wfValue e.createdAt &&
  wfValue e.updatedAt && wfValue e.source && wfContent e.content

/-- Well-formed entry as stored by the manager (`save` trims content before
writing, so persisted entries have trim-stable content). -/
def wfEntry (e : MemoryEntry) : Bool := wfEntryCore e && trimStable e.content

/-- The lines of `serializeEntry e` before the closing `---` terminator. -/
def blockLines (e : MemoryEntry) : List Str :=
  [str "id: " ++ e.id,
   str "type: " ++ e.type,
   str "tags: " ++ List.intercalate (str ", ") e.tags,
   str "createdAt: " ++ e.createdAt,
   str "updatedAt: " ++ e.updatedAt,
   str "source: " ++ e.source,
   []] ++ splitOnSep '\n' e.content ++ [[]]

/-- The six `key: value` lines of a serialized entry. -/
def metaLines (e : MemoryEntry) : List Str :=
  [str "id: " ++ e.id, str "type: " ++ e.type,
   str "tags: " ++ List.intercalate (str ", ") e.tags,
   str "createdAt: " ++ e.createdAt, str "updatedAt: " ++ e.updatedAt,
   str "source: " ++ e.source]

/-- What the per-block `.trim()` leaves of a serialized entry, as lines. -/
def cleanLines (e : MemoryEntry) : List Str :=
  metaLines e ++ [[]] ++ splitOnSep '\n' (rightTrim e.content)

/-- `MEMORY.md` as rewritten by `upsertLongTerm` / `forget`: header plus the
serialized entries joined by `"\n"`. -/
def memoryMdStr (now : Str) (es : List MemoryEntry) : Str :=
  headerStr now ++ List.intercalate ['\n'] (es.map serializeEntry)

/-- A daily log file: the result of successive `fs.appendFile` calls, each
writing `serializeEntry(entry) + "\n"`. -/
def dailyStr (es : List MemoryEntry) : Str :=
  (es.map (fun e => serializeEntry e ++ ['\n'])).flatten

/-- One row of the `memory_fts` table. -/
structure FtsRow where
  id : Str
  type : Str
  content : Str
  tags : Str
  source : Str
  createdAt : Str
  updatedAt : Str
deriving DecidableEq, Repr

/-- The row inserted for an entry (`tags` joined by a single space, exactly as
in both `save` and `rebuildIndex`). -/
def rowOf (e : MemoryEntry) : FtsRow :=
  { id := e.id, type := e.type, content := e.content,
    tags := List.intercalate [' '] e.tags, source := e.source,
    createdAt := e.createdAt, updatedAt := e.updatedAt }

/-- Runtime configuration: `MAX_SHORT_TERM` and `MAX_FACTS` are
`parseInt(process.env... ?? default)` with defaults 20 and 200. -/
structure Config where
  maxShortTerm : Nat
  maxFacts : Nat
deriving Repr

def defaultConfig : Config := { maxShortTerm := 20, maxFacts := 200 }

structure ShortTermMessage where
  role : Str
  content : Str
  timestamp : Int
deriving DecidableEq, Repr

/-- The state of a `MemoryManager` together with the files it owns.
`memoryMd` is the content of `MEMORY.md`; `daily` maps a day's file-name stem
(`YYYY-MM-DD`) to that file's content, in creation order (the order `readdir`
is modelled to return — the claims below are insensitive to this order);
`index` is the `memory_fts` table in insertion order; `shortTerm` is the
in-process window. -/
structure MMState where
  memoryMd : Str
  daily : List (Str × Str)
  index : List FtsRow
  shortTerm : List ShortTermMessage
deriving Repr

/-- `readAllEntries`: parse `MEMORY.md` (a missing file reads as empty), then
every daily file.  Every daily file name ends in `.md`, so the `.md` filter of
the source keeps them all.  `pnow` is the parse-time `new Date()` used for
defaulted timestamps of malformed blocks. -/
def readAllEntries (pnow : Str) (st : MMState) : List MemoryEntry :=
  parseMemoryMd pnow st.memoryMd ++
    (st.daily.map (fun p => parseMemoryMd pnow p.2)).flatten

/-- `getEntry`: linear scan of `readAllEntries`. -/
def getEntry (pnow : Str) (st : MMState) (id : Str) : Option MemoryEntry :=
  (readAllEntries pnow st).find? (fun e => e.id == id)

/-- JavaScript `arr.slice(-k)` for a non-negative `k`: the last `k` elements,
except that `k = 0` gives `slice(-0) = slice(0)`, the whole array. -/
def jsSliceNeg {α : Type} (k : Nat) (l : List α) : List α :=
  if k = 0 then l else l.drop (l.length - k)

/-- The in-place replace-or-push of `upsertLongTerm`
(`findIndex` + assignment, or `push`). -/
def upsertList (entries : List MemoryEntry) (entry : MemoryEntry) :
    List MemoryEntry :=
  match entries.findIdx? (fun e => e.id == entry.id) with
  | some i => entries.set i entry
  | none => entries ++ [entry]

/-- `upsertLongTerm`: read and parse `MEMORY.md`, replace the first entry with
a matching id in place (`findIndex` + assignment) or push, sort ascending by
`updatedAt` (`localeCompare` modelled as code-point order; `Array.sort` is a
stable sort, modelled by a stable insertion sort), `slice(-MAX_FACTS)`, and rewrite the
file with a fresh `Last updated:` header. -/
def updRel (x y : MemoryEntry) : Prop := x.updatedAt ≤ y.updatedAt

instance updRel_dec : DecidableRel updRel := fun x y =>
  inferInstanceAs (Decidable (x.updatedAt ≤ y.updatedAt))

/-- The long-term list `upsertLongTerm` persists: replace-or-push, sort by
`updatedAt` (stable, `localeCompare` read as code-point order), keep the last
`MAX_FACTS`. -/
def newLTof (cfg : Config) (entries : List MemoryEntry)
    (entry : MemoryEntry) : List MemoryEntry :=
  jsSliceNeg cfg.maxFacts ((upsertList entries entry).insertionSort updRel)

def upsertLongTerm (cfg : Config) (now : Str) (st : MMState)
    (entry : MemoryEntry) : MMState :=
  { st with memoryMd :=
      memoryMdStr now (newLTof cfg (parseMemoryMd now st.memoryMd) entry) }

/-- `appendDailyLog`: append the serialized block plus `"\n"` to today's file,
creating the file when absent. -/
def appendDailyLog (todayS : Str) (st : MMState) (entry : MemoryEntry) :
    MMState :=
  let blk := serializeEntry entry ++ ['\n']
  let d := if st.daily.any (fun p => p.1 == todayS)
    then st.daily.map (fun p => if p.1 == todayS then (p.1, p.2 ++ blk) else p)
    else st.daily ++ [(todayS, blk)]
  { st with daily := d }

/-- The index update at the end of `save`:
`DELETE FROM memory_fts WHERE id = ?` followed by an `INSERT`. -/
def indexUpsert (st : MMState) (entry : MemoryEntry) : MMState :=
  { st with index := st.index.filter (fun r => !(r.id == entry.id)) ++ [rowOf entry] }

/-- Arguments of one `save` call.  `content` and the `options` fields mirror
the source; `genId` is the value `uuid()` would produce if called, `now` the
value of `new Date().toISOString()` during this call (the source reads the
clock again for the header and for parse defaults within the same call; one
parameter stands for all reads inside a single operation), `today` the value
of `today()`. -/
structure SaveArgs where
  content : Str
  id? : Option Str
  type? : Option Str
  tags? : Option (List Str)
  source? : Option Str
  genId : Str
  now : Str
  today : Str
deriving Repr

def SaveArgs.rid (a : SaveArgs) : Str := a.id?.getD a.genId

def SaveArgs.rtype (a : SaveArgs) : Str := a.type?.getD (str "fact")

def SaveArgs.rtags (a : SaveArgs) : List Str := a.tags?.getD []

def SaveArgs.rsource (a : SaveArgs) : Str := a.source?.getD (str "agent")

/-- `save` from the source: resolve `existing` (only when `options.id` is
truthy), build the entry (`content.trim()`, `createdAt` preserved from the
existing entry), route to the daily log or the long-term upsert, then update
the index.  Returns the entry together with the new state. -/
def saveExisting (st : MMState) (a : SaveArgs) : Option MemoryEntry :=
  match a.id? with
  | some i => if i ≠ [] then getEntry a.now st i else none
  | none => none

/-- The entry object `save` constructs: `content.trim()`, `createdAt`
preserved from the existing entry when `options.id` named one. -/
def saveEntry (st : MMState) (a : SaveArgs) : MemoryEntry :=
  { id := a.rid
    type := a.rtype
    content := jsTrim a.content
    tags := a.rtags
    source := a.rsource
    createdAt := ((saveExisting st a).map (fun e => e.createdAt)).getD a.now
    updatedAt := a.now }

def save (cfg : Config) (st : MMState) (a : SaveArgs) : MemoryEntry × MMState :=
  let entry := saveEntry st a
  let st2 := if entry.type = str "log" then appendDailyLog a.today st entry
             else upsertLongTerm cfg a.now st entry
  (entry, indexUpsert st2 entry)

/-- `forget` from the source: parse `MEMORY.md`, filter out the id; when
nothing was removed return `false` without touching anything, else rewrite the
file and delete the id's rows from the index.  (After `init()` the file always
exists, so the missing-file early return cannot fire.) -/
def forget (st : MMState) (id now : Str) : Bool × MMState :=
  let entries := parseMemoryMd now st.memoryMd
  let filtered := entries.filter (fun e => !(e.id == id))
  if filtered.length = entries.length then (false, st)
  else
    (true,
     { st with
        memoryMd := memoryMdStr now filtered
        index := st.index.filter (fun r => !(r.id == id)) })

/-- `addToShortTerm`: push to the tail, then `shift()` once when the length
exceeds `MAX_SHORT_TERM`. -/
def addToShortTerm (cfg : Config) (w : List ShortTermMessage)
    (m : ShortTermMessage) : List ShortTermMessage :=
  let w2 := w ++ [m]
  if cfg.maxShortTerm < w2.length then w2.tail else w2

def clearShortTerm (st : MMState) : MMState := { st with shortTerm := [] }

/-- The summary text `flushSession` synthesizes when no summary argument is
supplied (`??`, so an empty string argument is *not* replaced). -/
def synthSummary (w : List ShortTermMessage) : Str :=
  if 0 < w.length then
    str "Session ended with " ++ str (toString w.length) ++
      str " turns. Last user message: \"" ++
      ((((w.filter (fun m => m.role == str "user")).getLast?).map
          (fun m => m.content.take 200)).getD (str "N/A")) ++ str "\""
  else str "Empty session."

/-- `flushSession` from the source: save the summary as a `log` entry tagged
`["session-summary", today()]` with source `system`, then clear the window. -/
def flushArgs (st : MMState) (agentSummary : Option Str)
    (genId now todayS : Str) : SaveArgs :=
  { content := agentSummary.getD (synthSummary st.shortTerm), id? := none,
    type? := some (str "log"),
    tags? := some [str "session-summary", todayS],
    source? := some (str "system"),
    genId := genId, now := now, today := todayS }

def flushSession (cfg : Config) (st : MMState) (agentSummary : Option Str)
    (genId now todayS : Str) : MMState :=
  clearShortTerm (save cfg st (flushArgs st agentSummary genId now todayS)).2

/-- `rebuildIndex`: `DELETE FROM memory_fts`, then insert one row per entry of
`readAllEntries()`. -/
def rebuildIndex (pnow : Str) (st : MMState) : MMState :=
  { st with index := (readAllEntries pnow st).map rowOf }

/-- The state after `init()` on an empty storage directory: `MEMORY.md`
created with the `Created:` header, empty daily directory, empty FTS table,
then `rebuildIndex()`. -/
def initState0 (created : Str) : MMState :=
  { memoryMd := initialMemoryMd created, daily := [], index := [],
    shortTerm := [] }

def initState (created pnow : Str) : MMState :=
  rebuildIndex pnow (initState0 created)

/-- One driver-visible operation, carrying the clock/uuid reads it performs. -/
inductive Op where
  | opSave (a : SaveArgs)
  | opForget (id now : Str)
  | opFlush (agentSummary : Option Str) (genId now today : Str)
  | opAddShort (m : ShortTermMessage)
deriving Repr

def step (cfg : Config) (st : MMState) : Op → MMState
  | .opSave a => (save cfg st a).2
  | .opForget id now => (forget st id now).2
  | .opFlush s g n t => flushSession cfg st s g n t
  | .opAddShort m => { st with shortTerm := addToShortTerm cfg st.shortTerm m }

def runOps (cfg : Config) (st : MMState) (ops : List Op) : MMState :=
  ops.foldl (step cfg) st

def ltIds (pnow : Str) (st : MMState) : List Str :=
  (parseMemoryMd pnow st.memoryMd).map (fun e => e.id)

def dailyIds (pnow : Str) (st : MMState) : List Str :=
  ((st.daily.map (fun p => parseMemoryMd pnow p.2)).flatten).map (fun e => e.id)

def allIds (pnow : Str) (st : MMState) : List Str :=
  (readAllEntries pnow st).map (fun e => e.id)

/-- Conditions under which one `save` call keeps every persisted block
well-formed and the store's ids distinct: well-formed values for every
serialized field, and an id that is fresh where the code would otherwise
duplicate records (log saves append unconditionally; non-log saves upsert only
the long-term partition, so their id must not live in a daily log). -/
def safeSave (st : MMState) (a : SaveArgs) : Bool :=
  wfValue a.rid && wfValue a.rtype && wfTags a.rtags && wfValue a.rsource &&
  wfValue a.now && wfValue a.today && wfContent (jsTrim a.content) &&
  (if a.rtype == str "log"
   then !(allIds a.now st).contains a.rid
   else !(dailyIds a.now st).contains a.rid)

/-- `safeSave`, plus: the save does not overflow the long-term partition, so
`slice(-MAX_FACTS)` drops nothing. -/
def safeSaveStrong (cfg : Config) (st : MMState) (a : SaveArgs) : Bool :=
  safeSave st a &&
  (a.rtype == str "log" ||
   (ltIds a.now st).contains a.rid ||
   decide ((ltIds a.now st).length + 1 ≤ cfg.maxFacts) || cfg.maxFacts == 0)

/-- Safety of one `flushSession` call: well-formed clock/uuid values, a
comma-free date (it becomes a tag), a summary whose trimmed text is a
well-formed content block, and a fresh generated id. -/
def safeFlush (st : MMState) (agentSummary : Option Str)
    (genId now todayS : Str) : Bool :=
  wfValue genId && wfValue now && wfValue todayS &&
  todayS.all (fun c => !(c == ',')) &&
  wfContent (jsTrim (agentSummary.getD (synthSummary st.shortTerm))) &&
  !(allIds now st).contains genId

def safeOp (st : MMState) : Op → Bool
  | .opSave a => safeSave st a
  | .opForget _ now => wfValue now
  | .opFlush s g n t => safeFlush st s g n t
  | .opAddShort _ => true

def safeOpStrong (cfg : Config) (st : MMState) : Op → Bool
  | .opSave a => safeSaveStrong cfg st a
  | .opForget _ now => wfValue now
  | .opFlush s g n t => safeFlush st s g n t
  | .opAddShort _ => true

def safeTrace (cfg : Config) (st : MMState) : List Op → Bool
  | [] => true
  | op :: ops => safeOp st op && safeTrace cfg (step cfg st op) ops

def safeTraceStrong (cfg : Config) (st : MMState) : List Op → Bool
  | [] => true
  | op :: ops => safeOpStrong cfg st op && safeTraceStrong cfg (step cfg st op) ops

/-- One search hit.  `score` is `Math.abs(bm25(...))` on the FTS path and the
literal `1` on the fallback path; only the latter is reasoned about here, so a
natural number suffices. -/
structure SearchResult where
  entry : MemoryEntry
  score : Nat
  snippet : Str
deriving DecidableEq, Repr

/-- The entry reconstructed from an FTS row
(`tags: r.tags ? r.tags.split(" ") : []`). -/
def entryOfRow (r : FtsRow) : MemoryEntry :=
  { id := r.id, type := r.type, content := r.content,
    tags := if r.tags = [] then [] else splitOnSep ' ' r.tags,
    createdAt := r.createdAt, updatedAt := r.updatedAt, source := r.source }

/-- ASCII lower-casing, the case folding SQLite's default `LIKE` performs. -/
def lowerA (c : Char) : Char :=
  if 'A' ≤ c ∧ c ≤ 'Z' then Char.ofNat (c.toNat + 32) else c

/-- SQLite `LIKE` with default settings: `%` matches any sequence (expressed
as a choice over how many characters it consumes, which keeps the recursion
structural on the pattern), `_` matches any single character, and plain
characters match ASCII-case-insensitively. -/
def likeMatch : Str → Str → Bool
  | [], s => s.isEmpty
  | '%' :: p, s => (List.range (s.length + 1)).any (fun n => likeMatch p (s.drop n))
  | '_' :: p, s =>
    match s with
    | [] => false
    | _ :: s2 => likeMatch p s2
  | c :: p, s =>
    match s with
    | [] => false
    | d :: s2 => (lowerA c == lowerA d) && likeMatch p s2

/-- The `catch` branch of `search`: rows of `memory_fts` whose `content` or
`tags` column matches `LIKE '%query%'`, limited, each with score 1 and a
120-character content snippet. -/
def searchFallback (table : List FtsRow) (query : Str) (limit : Nat) :
    List SearchResult :=
  ((table.filter (fun r =>
      likeMatch ('%' :: (query ++ ['%'])) r.content ||
      likeMatch ('%' :: (query ++ ['%'])) r.tags)).take limit).map
    (fun r => { entry := entryOfRow r, score := 1, snippet := r.content.take 120 })

/-- `search(query, limit)` from the source.  The FTS `MATCH` query runs inside
SQLite, which is outside this repository; its outcome is abstracted as
`ftsResult` — `.error` when SQLite rejects the query's syntax, which is
exactly when the `catch` block runs the fallback. -/
def search (ftsResult : Except Unit (List SearchResult)) (table : List FtsRow)
    (query : Str) (limit : Nat) : List SearchResult :=
  if jsTrim query = [] then []
  else
    match ftsResult with
    | .ok rs => rs
    | .error _ => searchFallback table query limit

/-- Case-insensitive-substring membership: `q` occurs in `s` up to ASCII case.
This is the behavior the specification ascribes to the fallback. -/
def isSubstr (q : Str) (s : Str) : Bool :=
  q.isPrefixOf s ||
    (match s with
     | [] => false
     | _ :: s2 => isSubstr q s2)

def containsCI (q s : Str) : Bool := isSubstr (q.map lowerA) (s.map lowerA)

/-- What claim C6 states the fallback returns: the rows whose content or tags
contain the query as a case-insensitive substring. -/
def substrFallback (table : List FtsRow) (query : Str) (limit : Nat) :
    List SearchResult :=
  ((table.filter (fun r =>
      containsCI query r.content || containsCI query r.tags)).take limit).map
    (fun r => { entry := entryOfRow r, score := 1, snippet := r.content.take 120 })

/-- Proof-layer helper: the tail of `parseMemoryMd` applied to a list of line
groups (`parseMemoryMd pnow raw` is `parseGroups pnow` of the dash-split of the
lines of `raw`; see `parseMemoryMd_eq_parseGroups`). -/
def parseGroups (pnow : Str) (gs : List (List Str)) : List MemoryEntry :=
  (((gs.map (List.intercalate ['\n'])).map jsTrim).filter
    (fun b => !b.isEmpty)).filterMap (parseBlock pnow)

/-- Representation predicate tying a state to a semantic store: `es` is the
long-term partition, `dls` the per-day log lists.  It says every persisted
entry is well-formed, `MEMORY.md` is a header plus the serialization of `es`
(or still the pristine `init()` file and `es = []`), every daily file is the
concatenation of serialized blocks, and ids are pairwise distinct across the
whole store. -/
def RepOk (st : MMState) (es : List MemoryEntry)
    (dls : List (Str × List MemoryEntry)) : Prop :=
  (∀ e ∈ es, wfEntry e = true) ∧
  (∀ p ∈ dls, ∀ e ∈ p.2, wfEntry e = true) ∧
  (∃ hts, wfValue hts = true ∧
     (st.memoryMd = memoryMdStr hts es ∨
      (st.memoryMd = initialMemoryMd hts ∧ es = []))) ∧
  st.daily = dls.map (fun p => (p.1, dailyStr p.2)) ∧
  ((es ++ (dls.map (fun p => p.2)).flatten).map (fun e => e.id)).Nodup ∧
  (dls.map (fun p => p.1)).Nodup

/-- The FTS table agrees (as a multiset of rows) with the store contents. -/
def IdxOk (st : MMState) (es : List MemoryEntry)
    (dls : List (Str × List MemoryEntry)) : Prop :=
  st.index.Perm ((es ++ (dls.map (fun p => p.2)).flatten).map rowOf)

/-- The long-term partition fits under `MAX_FACTS` (vacuous when the
configured bound is `0`, where `slice(-0)` keeps everything). -/
def LenOk (cfg : Config) (es : List MemoryEntry) : Prop :=
  cfg.maxFacts = 0 ∨ es.length ≤ cfg.maxFacts

/-- Effect of `appendDailyLog` on the per-day semantic lists: append the
entry to today\'s list, creating it when absent. -/
def dlsAfterLog (dls : List (Str × List MemoryEntry)) (todayS : Str)
    (e : MemoryEntry) : List (Str × List MemoryEntry) :=
  if dls.any (fun p => p.1 == todayS)
  then dls.map (fun p => if p.1 == todayS then (p.1, p.2 ++ [e]) else p)
  else dls ++ [(todayS, [e])]

/-- Concrete persisted entry used to exercise `forget` on a store that
holds it. -/
def c9E : MemoryEntry :=
  { id := str "a", type := str "fact", content := str "c",
    tags := [str "t"], source := str "s", createdAt := str "T",
    updatedAt := str "T" }

/-- Concrete state whose `MEMORY.md` serializes exactly `[c9E]`. -/
def c9St : MMState :=
  { memoryMd := memoryMdStr (str "T") [c9E], daily := [],
    index := [rowOf c9E], shortTerm := [] }

/-- The entry `save` constructs when no `options.id` is supplied: ids come
from `uuid()` and both timestamps from the current clock read. -/
def freshEntry (a : SaveArgs) : MemoryEntry :=
  { id := a.genId
    type := a.rtype
    content := jsTrim a.content
    tags := a.rtags
    source := a.rsource
    createdAt := a.now
    updatedAt := a.now }

/-- Concrete first save call used to instantiate the double-save analysis:
an explicit id, a well-formed tag list and clock value `A`. -/
def c5A1 : SaveArgs :=
  { content := str "c", id? := some (str "x"),
    type? := some (str "fact"), tags? := some [str "t"], source? := none,
    genId := str "g", now := str "A", today := str "d" }

/-- Concrete second save call: same id and content, later clock value `B`. -/
def c5A2 : SaveArgs :=
  { content := str "c", id? := some (str "x"),
    type? := some (str "fact"), tags? := some [str "t"], source? := none,
    genId := str "h", now := str "B", today := str "d" }

/-- Variant of `c5A1` with the tag default (no tags), exercising the empty
`tags:` line corruption. -/
def c5B1 : SaveArgs :=
  { content := str "c", id? := some (str "x"),
    type? := some (str "fact"), tags? := none, source? := none,
    genId := str "g", now := str "A", today := str "d" }

/-- Variant of `c5A2` with the tag default (no tags). -/
def c5B2 : SaveArgs :=
  { content := str "c", id? := some (str "x"),
    type? := some (str "fact"), tags? := none, source? := none,
    genId := str "h", now := str "B", today := str "d" }

/-- Save calls as the capacity claim makes them: no explicit id (a fresh
`uuid()`), a non-log kind, and well-formed field values. -/
def factArgs (a : SaveArgs) : Bool :=
  (a.id? == none) && !(a.rtype == str "log") && wfValue a.genId &&
  wfValue a.rtype && wfTags a.rtags && wfValue a.rsource &&
  wfValue a.now && wfContent (jsTrim a.content)

/-- Configuration with a tiny `MAX_FACTS` bound, exercising the capacity
trim at small scale. -/
def c4Cfg : Config := { maxShortTerm := 20, maxFacts := 1 }

/-- First capacity-test save: fresh id `g1`, clock `A`. -/
def c4B1 : SaveArgs :=
  { content := str "c1", id? := none, type? := some (str "fact"),
    tags? := some [str "t"], source? := none, genId := str "g1",
    now := str "A", today := str "d" }

/-- Second capacity-test save: fresh id `g2`, later clock `B`. -/
def c4B2 : SaveArgs :=
  { content := str "c2", id? := none, type? := some (str "fact"),
    tags? := some [str "t"], source? := none, genId := str "g2",
    now := str "B", today := str "d" }

/-! ## Theorems -/

theorem leftTrim_nil : leftTrim [] = [] := rfl

theorem rightTrim_nil : rightTrim [] = [] := rfl

theorem jsTrim_nil : jsTrim [] = [] := rfl

theorem leftTrim_cons_ws {c : Char} (h : isJsWs c = true) (s : Str) :
    leftTrim (c :: s) = leftTrim s := by
  simp [leftTrim, List.dropWhile_cons, h]

theorem leftTrim_cons_neg {c : Char} (h : isJsWs c = false) (s : Str) :
    leftTrim (c :: s) = c :: s := by
  simp [leftTrim, List.dropWhile_cons, h]

theorem leftTrim_ws_append {w s : Str} (h : ∀ c ∈ w, isJsWs c = true) :
    leftTrim (w ++ s) = leftTrim s := by
  induction w with
  | nil => simp
  | cons c w ih =>
    have hc : isJsWs c = true := h c (by simp)
    simp only [List.cons_append, leftTrim_cons_ws hc]
    exact ih (fun x hx => h x (by simp [hx]))

theorem rightTrim_append_ws {s w : Str} (h : ∀ c ∈ w, isJsWs c = true) :
    rightTrim (s ++ w) = rightTrim s := by
  unfold rightTrim
  rw [List.reverse_append]
  have hws : List.dropWhile isJsWs (w.reverse ++ s.reverse)
      = List.dropWhile isJsWs s.reverse :=
    leftTrim_ws_append (fun c hc => h c (List.mem_reverse.mp hc))
  rw [hws]

theorem rightTrim_append_of_ne {a b : Str} (h : rightTrim b ≠ []) :
    rightTrim (a ++ b) = a ++ rightTrim b := by
  unfold rightTrim at *
  rw [List.reverse_append, List.dropWhile_append]
  have hne : (List.dropWhile isJsWs b.reverse).isEmpty = false := by
    cases hd : List.dropWhile isJsWs b.reverse with
    | nil => exact absurd (by rw [hd]; rfl) h
    | cons x t => rfl
  rw [hne]
  simp

theorem rightTrim_concat_neg {s : Str} {c : Char} (h : isJsWs c = false) :
    rightTrim (s ++ [c]) = s ++ [c] := by
  unfold rightTrim
  rw [List.reverse_append]
  simp only [List.reverse_cons, List.reverse_nil, List.nil_append, List.singleton_append,
    List.dropWhile_cons, h]
  simp

theorem jsTrim_ws_append {w s : Str} (h : ∀ c ∈ w, isJsWs c = true) :
    jsTrim (w ++ s) = jsTrim s := by
  unfold jsTrim
  rw [leftTrim_ws_append h]

theorem jsTrim_cons_ws {c : Char} (h : isJsWs c = true) (s : Str) :
    jsTrim (c :: s) = jsTrim s := by
  have := jsTrim_ws_append (w := [c]) (s := s) (by simpa using h)
  simpa using this

theorem jsTrim_append_ws {s w : Str} (h : ∀ c ∈ w, isJsWs c = true) :
    jsTrim (s ++ w) = jsTrim s := by
  unfold jsTrim
  have : ∀ t : Str, rightTrim (t ++ w) = rightTrim t := fun t => rightTrim_append_ws h
  rcases hs : leftTrim s with _ | ⟨c, t⟩
  · rw [show leftTrim (s ++ w) = leftTrim w from ?_]
    · cases hw : leftTrim w with
      | nil => simp [hw]
      | cons d u =>
        exfalso
        have hd : d ∈ w := by
          have : leftTrim w <:+ w := List.dropWhile_suffix isJsWs
          exact this.subset (by rw [hw]; simp)
        have : isJsWs d = false := by
          have := List.head?_dropWhile_not isJsWs w
          rw [show List.dropWhile isJsWs w = d :: u from hw] at this
          simpa using this
        rw [h d hd] at this
        exact Bool.false_ne_true this.symm
    · unfold leftTrim at hs ⊢
      rw [List.dropWhile_append, hs]
      simp
  · have hsub : leftTrim (s ++ w) = leftTrim s ++ w := by
      unfold leftTrim at hs ⊢
      rw [List.dropWhile_append, hs]
      simp
    rw [hsub, hs, this]

theorem jsTrim_append_of_last_neg {s : Str} {c : Char} (hc : isJsWs c = false)
    {a : Str} (ha : leftTrim a = a) (hhead : a ≠ []) :
    jsTrim (a ++ s ++ [c]) = a ++ s ++ [c] := by
  unfold jsTrim
  rw [show leftTrim (a ++ s ++ [c]) = a ++ s ++ [c] from ?_]
  · exact rightTrim_concat_neg hc
  · unfold leftTrim at ha ⊢
    rw [List.append_assoc, List.dropWhile_append, ha]
    cases a with
    | nil => exact absurd rfl hhead
    | cons x t => simp

theorem splitOnSep_ne_nil {α : Type} [DecidableEq α] (sep : α) (l : List α) :
    splitOnSep sep l ≠ [] := by
  cases l with
  | nil => simp [splitOnSep]
  | cons x xs =>
    by_cases h : x = sep
    · simp [splitOnSep, h]
    · simp only [splitOnSep, if_neg h]
      cases splitOnSep sep xs with
      | nil => simp
      | cons g gs => simp

theorem splitOnSep_of_not_mem {α : Type} [DecidableEq α] {sep : α} {l : List α}
    (h : sep ∉ l) : splitOnSep sep l = [l] := by
  induction l with
  | nil => rfl
  | cons x xs ih =>
    have hx : x ≠ sep := fun he => h (by simp [he])
    have hxs : sep ∉ xs := fun hm => h (by simp [hm])
    simp only [splitOnSep, if_neg hx, ih hxs]

theorem splitOnSep_append_sep {α : Type} [DecidableEq α] (sep : α) (a b : List α) :
    splitOnSep sep (a ++ sep :: b) = splitOnSep sep a ++ splitOnSep sep b := by
  induction a with
  | nil => simp [splitOnSep]
  | cons x xs ih =>
    rw [List.cons_append]
    by_cases h : x = sep
    · simp only [splitOnSep, if_pos h]
      rw [ih]
      simp
    · simp only [splitOnSep, if_neg h]
      rw [ih]
      cases hs : splitOnSep sep xs with
      | nil => exact absurd hs (splitOnSep_ne_nil sep xs)
      | cons g gs => simp

theorem intercalate_splitOnSep {α : Type} [DecidableEq α] (sep : α) (l : List α) :
    List.intercalate [sep] (splitOnSep sep l) = l := by
  induction l with
  | nil => simp [splitOnSep, List.intercalate]
  | cons x xs ih =>
    by_cases h : x = sep
    · subst h
      simp only [splitOnSep, if_pos rfl]
      cases hs : splitOnSep x xs with
      | nil => exact absurd hs (splitOnSep_ne_nil x xs)
      | cons g gs =>
        rw [hs] at ih
        simp only [List.intercalate] at ih ⊢
        simp only [List.intersperse, List.flatten] at ih ⊢
        simpa using ih
    · simp only [splitOnSep, if_neg h]
      cases hs : splitOnSep sep xs with
      | nil => exact absurd hs (splitOnSep_ne_nil sep xs)
      | cons g gs =>
        rw [hs] at ih
        cases gs with
        | nil => simpa [List.intercalate] using ih
        | cons g2 gs2 =>
          simp only [List.intercalate, List.intersperse] at ih ⊢
          simpa using ih

theorem splitOnSep_intercalate {α : Type} [DecidableEq α] (sep : α) (gs : List (List α))
    (hne : gs ≠ []) (h : ∀ g ∈ gs, sep ∉ g) :
    splitOnSep sep (List.intercalate [sep] gs) = gs := by
  induction gs with
  | nil => exact absurd rfl hne
  | cons g gs ih =>
    cases gs with
    | nil =>
      simp only [List.intercalate, List.intersperse, List.flatten, List.append_nil]
      exact splitOnSep_of_not_mem (h g (by simp))
    | cons g2 gs2 =>
      have hstep : List.intercalate [sep] (g :: g2 :: gs2)
          = g ++ sep :: List.intercalate [sep] (g2 :: gs2) := by
        simp [List.intercalate, List.intersperse]
      rw [hstep, splitOnSep_append_sep, splitOnSep_of_not_mem (h g (by simp))]
      rw [ih (by simp) (fun x hx => h x (by simp [hx]))]
      simp

theorem mem_splitOnSep_not_mem {α : Type} [DecidableEq α] {sep : α} {l : List α}
    {g : List α} (hg : g ∈ splitOnSep sep l) : sep ∉ g := by
  induction l generalizing g with
  | nil =>
    simp only [splitOnSep, List.mem_singleton] at hg
    subst hg; simp
  | cons x xs ih =>
    by_cases h : x = sep
    · simp only [splitOnSep, if_pos h, List.mem_cons] at hg
      rcases hg with hg | hg
      · subst hg; simp
      · exact ih hg
    · simp only [splitOnSep, if_neg h] at hg
      cases hs : splitOnSep sep xs with
      | nil => exact absurd hs (splitOnSep_ne_nil sep xs)
      | cons g0 gs0 =>
        rw [hs] at hg
        simp only [List.mem_cons] at hg
        rcases hg with hg | hg
        · subst hg
          intro hm
          rcases List.mem_cons.mp hm with he | hm2
          · exact h he.symm
          · exact ih (g := g0) (by rw [hs]; simp) hm2
        · exact ih (by rw [hs]; simp [hg])

theorem dropWhile_dropWhile (p : Char → Bool) (l : Str) :
    List.dropWhile p (List.dropWhile p l) = List.dropWhile p l := by
  induction l with
  | nil => rfl
  | cons c t ih =>
    rw [List.dropWhile_cons]
    by_cases h : p c = true
    · simp [h, ih]
    · have h2 : p c = false := by simpa using h
      simp [h2, List.dropWhile_cons]

theorem leftTrim_eq_nil_iff {s : Str} :
    leftTrim s = [] ↔ ∀ c ∈ s, isJsWs c = true := by
  unfold leftTrim
  exact List.dropWhile_eq_nil_iff

theorem rightTrim_eq_nil_iff {s : Str} :
    rightTrim s = [] ↔ ∀ c ∈ s, isJsWs c = true := by
  unfold rightTrim
  rw [List.reverse_eq_nil_iff, List.dropWhile_eq_nil_iff]
  constructor
  · intro h c hc
    exact h c (List.mem_reverse.mpr hc)
  · intro h c hc
    exact h c (List.mem_reverse.mp hc)

theorem jsTrim_eq_nil_iff {s : Str} :
    jsTrim s = [] ↔ ∀ c ∈ s, isJsWs c = true := by
  constructor
  · intro h
    by_contra hns
    push_neg at hns
    obtain ⟨c, hc, hcw⟩ := hns
    have hcw2 : isJsWs c = false := by simpa using hcw
    have hmem : c ∈ leftTrim s := by
      have hsplit := List.takeWhile_append_dropWhile (p := isJsWs) (l := s)
      rw [← hsplit] at hc
      rcases List.mem_append.mp hc with h1 | h2
      · have := List.mem_takeWhile_imp h1
        rw [hcw2] at this
        exact absurd this (by simp)
      · exact h2
    have : rightTrim (leftTrim s) ≠ [] := by
      rw [Ne, rightTrim_eq_nil_iff]
      intro hall
      rw [hall c hmem] at hcw2
      exact absurd hcw2 (by simp)
    exact this h
  · intro h
    have : leftTrim s = [] := leftTrim_eq_nil_iff.mpr h
    unfold jsTrim
    rw [this]
    rfl

theorem rightTrim_cons_of_ne {c : Char} {s : Str} (h : rightTrim s ≠ []) :
    rightTrim (c :: s) = c :: rightTrim s := by
  have he : (c :: s) = [c] ++ s := rfl
  rw [he, rightTrim_append_of_ne h]
  rfl

theorem rightTrim_cons_neg {c : Char} (h : isJsWs c = false) (s : Str) :
    rightTrim (c :: s) = c :: rightTrim s := by
  by_cases hs : rightTrim s = []
  · have hall : ∀ x ∈ s, isJsWs x = true := rightTrim_eq_nil_iff.mp hs
    rw [hs]
    have h1 : rightTrim ([c] ++ s) = rightTrim [c] := rightTrim_append_ws hall
    have h2 : rightTrim [c] = [c] := by
      unfold rightTrim
      simp [List.dropWhile_cons, h]
    rw [show (c :: s) = [c] ++ s from rfl, h1, h2]
  · exact rightTrim_cons_of_ne hs

theorem leftTrim_rightTrim_comm (s : Str) :
    leftTrim (rightTrim s) = rightTrim (leftTrim s) := by
  induction s with
  | nil => rfl
  | cons c s ih =>
    by_cases hc : isJsWs c = true
    · by_cases hs : rightTrim s = []
      · have hall := rightTrim_eq_nil_iff.mp hs
        have hcs : rightTrim (c :: s) = [] := by
          rw [rightTrim_eq_nil_iff]
          intro x hx
          rcases List.mem_cons.mp hx with h1 | h2
          · rw [h1]; exact hc
          · exact hall x h2
        rw [hcs, leftTrim_cons_ws hc, ← ih, hs]
      · rw [rightTrim_cons_of_ne hs, leftTrim_cons_ws hc s, leftTrim_cons_ws hc, ih]
    · have hc2 : isJsWs c = false := by simpa using hc
      rw [rightTrim_cons_neg hc2 s, leftTrim_cons_neg hc2 (rightTrim s),
        leftTrim_cons_neg hc2 s, rightTrim_cons_neg hc2 s]

theorem rightTrim_idem (s : Str) : rightTrim (rightTrim s) = rightTrim s := by
  unfold rightTrim
  rw [List.reverse_reverse, dropWhile_dropWhile]

theorem leftTrim_idem (s : Str) : leftTrim (leftTrim s) = leftTrim s := by
  unfold leftTrim
  exact dropWhile_dropWhile isJsWs s

theorem jsTrim_rightTrim (s : Str) : jsTrim (rightTrim s) = jsTrim s := by
  unfold jsTrim
  rw [leftTrim_rightTrim_comm, rightTrim_idem]

theorem jsTrim_idem (s : Str) : jsTrim (jsTrim s) = jsTrim s := by
  unfold jsTrim
  rw [leftTrim_rightTrim_comm, rightTrim_idem, leftTrim_idem]

theorem leftTrim_length_le (s : Str) : (leftTrim s).length ≤ s.length :=
  (List.dropWhile_sublist isJsWs).length_le

theorem rightTrim_length_le (s : Str) : (rightTrim s).length ≤ s.length := by
  unfold rightTrim
  rw [List.length_reverse]
  calc (s.reverse.dropWhile isJsWs).length ≤ s.reverse.length :=
        (List.dropWhile_sublist isJsWs).length_le
    _ = s.length := List.length_reverse s

theorem jsTrim_length_le (s : Str) : (jsTrim s).length ≤ s.length :=
  le_trans (rightTrim_length_le (leftTrim s)) (leftTrim_length_le s)

theorem trimStable_head {c : Char} {t : Str} (h : jsTrim (c :: t) = c :: t) :
    isJsWs c = false := by
  by_contra hb
  have hc : isJsWs c = true := by simpa using hb
  rw [jsTrim_cons_ws hc t] at h
  have := congrArg List.length h
  have hlen := jsTrim_length_le t
  simp only [List.length_cons] at this
  omega

theorem trimStable_last {s : Str} {c : Char} (h : jsTrim (s ++ [c]) = s ++ [c]) :
    isJsWs c = false := by
  by_contra hb
  have hc : isJsWs c = true := by simpa using hb
  rw [jsTrim_append_ws (by intro x hx; simp at hx; rw [hx]; exact hc)] at h
  have := congrArg List.length h
  have hlen := jsTrim_length_le s
  simp only [List.length_append, List.length_cons, List.length_nil] at this
  omega

theorem trimStable_iff {s : Str} : trimStable s = true ↔ jsTrim s = s := by
  simp [trimStable]

theorem wfValue_spec {s : Str} (h : wfValue s = true) :
    s ≠ [] ∧ noLineTermS s = true ∧ jsTrim s = s := by
  have h2 := h
  simp only [wfValue, Bool.and_eq_true, trimStable, beq_iff_eq] at h2
  refine ⟨?_, h2.1.2, h2.2⟩
  intro he
  rw [he] at h2
  simp at h2

theorem takeWhile_all_append {p : Char → Bool} {k : Str} (hk : ∀ c ∈ k, p c = true)
    {x : Char} (hx : p x = false) (r : Str) :
    (k ++ x :: r).takeWhile p = k := by
  induction k with
  | nil => simp [List.takeWhile_cons, hx]
  | cons c t ih =>
    rw [List.cons_append, List.takeWhile_cons, hk c (by simp)]
    simp only [if_true]
    rw [ih (fun y hy => hk y (by simp [hy]))]

theorem isMetaLine_keyval {k v : Str} (hk1 : k ≠ [])
    (hk2 : ∀ c ∈ k, isKeyChar c = true)
    (hv1 : v ≠ []) (hv2 : noLineTermS v = true) :
    isMetaLine (k ++ ':' :: ' ' :: v) = true := by
  have hcolon : isKeyChar ':' = false := by decide
  have htw : (k ++ ':' :: ' ' :: v).takeWhile isKeyChar = k :=
    takeWhile_all_append hk2 hcolon _
  have hdrop : (k ++ ':' :: ' ' :: v).drop k.length = ':' :: ' ' :: v :=
    List.drop_left k _
  have hdrop2 : (k ++ ':' :: ' ' :: v).drop (k.length + 2) = v := by
    rw [← List.drop_drop, hdrop]
    rfl
  simp only [isMetaLine, htw, hdrop, hdrop2]
  rw [show (str ": ") = [':', ' '] from rfl]
  simp only [List.take_succ_cons, List.take_zero, beq_self_eq_true, Bool.and_true,
    Bool.true_and, List.take]
  have h1 : (!k.isEmpty) = true := by
    cases k with
    | nil => exact absurd rfl hk1
    | cons a b => rfl
  have h2 : (!v.isEmpty) = true := by
    cases v with
    | nil => exact absurd rfl hv1
    | cons a b => rfl
  have hv3 : v.all (fun c => !isLineTerm c) = true := hv2
  simp [h1, h2, hv3]

theorem splitFirstColonSp_keyval {k : Str} (hk : ':' ∉ k) (v : Str) :
    splitFirstColonSp (k ++ ':' :: ' ' :: v) = some (k, v) := by
  induction k with
  | nil =>
    simp [splitFirstColonSp]
  | cons c t ih =>
    have hc : ¬(c = ':' ∧ (t ++ ':' :: ' ' :: v).head? = some ' ') := by
      intro hand
      exact hk (by simp [hand.1])
    rw [List.cons_append]
    simp only [splitFirstColonSp, if_neg hc]
    rw [ih (fun hm => hk (by simp [hm]))]

theorem metaKV_keyval {k v : Str} (hk : ':' ∉ k) :
    metaKV (k ++ ':' :: ' ' :: v) = (jsTrim k, jsTrim v) := by
  unfold metaKV
  rw [splitFirstColonSp_keyval hk]

theorem isCommentLine_cons_ne {c : Char} (h : c ≠ '<') (t : Str) :
    isCommentLine (c :: t) = false := by
  have h1 : (str "<!--").isPrefixOf (c :: t) = false := by
    rw [show str "<!--" = '<' :: str "!--" from rfl]
    simp [List.isPrefixOf]
    intro he
    exact absurd he.symm h
  simp [isCommentLine, h1]

theorem isMetaLine_nil : isMetaLine [] = false := by decide

theorem isCommentLine_nil : isCommentLine [] = false := by decide

theorem cons_ne_dashLine {c : Char} {t : Str} (h : c ≠ '-') : c :: t ≠ dashLine := by
  intro he
  rw [show dashLine = '-' :: str "--" from rfl] at he
  simp at he
  exact h he.1

theorem nl_not_mem_of_noLineTerm {s : Str} (h : noLineTermS s = true) : '\n' ∉ s := by
  intro hm
  have := (List.all_eq_true.mp h) '\n' hm
  simp [isLineTerm] at this

theorem intercalate_cons₂ {α : Type} (s : List α) (a : List α) (b : List (List α))
    (hb : b ≠ []) : List.intercalate s (a :: b) = a ++ s ++ List.intercalate s b := by
  cases b with
  | nil => exact absurd rfl hb
  | cons x t => simp [List.intercalate, List.intersperse]

theorem splitOnSep_intercalate_flatMap {α : Type} [DecidableEq α] (sep : α)
    (parts : List (List α)) (h : parts ≠ []) :
    splitOnSep sep (List.intercalate [sep] parts) = parts.flatMap (splitOnSep sep) := by
  induction parts with
  | nil => exact absurd rfl h
  | cons a b ih =>
    cases b with
    | nil => simp [List.intercalate]
    | cons x t =>
      rw [intercalate_cons₂ _ _ _ (by simp), List.append_assoc,
        show ([sep] ++ List.intercalate [sep] (x :: t))
          = sep :: List.intercalate [sep] (x :: t) from rfl,
        splitOnSep_append_sep, ih (by simp)]
      simp [List.flatMap_cons]

theorem leftTrim_eq_self_of_trimStable {s : Str} (h : jsTrim s = s) :
    leftTrim s = s := by
  have h1 : (jsTrim s).length ≤ (leftTrim s).length := rightTrim_length_le (leftTrim s)
  have h2 : (leftTrim s).length ≤ s.length := leftTrim_length_le s
  have h3 : (jsTrim s).length = s.length := by rw [h]
  have hlen : (leftTrim s).length = s.length := by omega
  exact (List.dropWhile_sublist isJsWs).eq_of_length hlen

theorem rightTrim_eq_self_of_trimStable {s : Str} (h : jsTrim s = s) :
    rightTrim s = s := by
  have h1 := leftTrim_eq_self_of_trimStable h
  unfold jsTrim at h
  rw [h1] at h
  exact h

theorem map_jsTrim_splitOnSep_cons_ws {c : Char} (hws : isJsWs c = true)
    (hc : ¬(c = ',')) (l : Str) :
    (splitOnSep ',' (c :: l)).map jsTrim = (splitOnSep ',' l).map jsTrim := by
  simp only [splitOnSep, if_neg hc]
  cases hs : splitOnSep ',' l with
  | nil => exact absurd hs (splitOnSep_ne_nil ',' l)
  | cons g gs => simp [jsTrim_cons_ws hws]

theorem splitOnSep_comma_intercalate (ts : List Str) (hne : ts ≠ [])
    (hcf : ∀ t ∈ ts, ',' ∉ t) :
    (splitOnSep ',' (List.intercalate (str ", ") ts)).map jsTrim = ts.map jsTrim := by
  induction ts with
  | nil => exact absurd rfl hne
  | cons t rest ih =>
    cases rest with
    | nil =>
      rw [show List.intercalate (str ", ") [t] = t by simp [List.intercalate]]
      rw [splitOnSep_of_not_mem (hcf t (by simp))]
    | cons u rest2 =>
      rw [intercalate_cons₂ _ _ _ (by simp)]
      have hshape : t ++ str ", " ++ List.intercalate (str ", ") (u :: rest2)
          = t ++ ',' :: ' ' :: List.intercalate (str ", ") (u :: rest2) := by
        rw [show str ", " = [',', ' '] from rfl]
        simp
      rw [hshape, splitOnSep_append_sep, splitOnSep_of_not_mem (hcf t (by simp)),
        List.map_append,
        map_jsTrim_splitOnSep_cons_ws (by decide) (by decide),
        ih (by simp) (fun x hx => hcf x (by simp [hx]))]
      simp

theorem wfTags_spec {ts : List Str} (h : wfTags ts = true) :
    ts ≠ [] ∧ ∀ t ∈ ts, (t ≠ [] ∧ noLineTermS t = true ∧ jsTrim t = t ∧ ',' ∉ t) := by
  simp only [wfTags, Bool.and_eq_true, List.all_eq_true] at h
  constructor
  · intro he
    rw [he] at h
    simpa using h.1
  · intro t ht
    have := h.2 t ht
    simp only [wfTag, Bool.and_eq_true, List.all_eq_true] at this
    obtain ⟨hv, hcomma⟩ := this
    obtain ⟨h1, h2, h3⟩ := wfValue_spec hv
    refine ⟨h1, h2, h3, ?_⟩
    intro hm
    have := hcomma ',' hm
    simp at this

theorem tagsJoin_wf {ts : List Str} (h : wfTags ts = true) :
    List.intercalate (str ", ") ts ≠ [] ∧
    noLineTermS (List.intercalate (str ", ") ts) = true ∧
    jsTrim (List.intercalate (str ", ") ts) = List.intercalate (str ", ") ts := by
  obtain ⟨hne, hall⟩ := wfTags_spec h
  clear h
  induction ts with
  | nil => exact absurd rfl hne
  | cons t rest ih =>
    obtain ⟨ht1, ht2, ht3, _⟩ := hall t (by simp)
    cases rest with
    | nil =>
      rw [show List.intercalate (str ", ") [t] = t by simp [List.intercalate]]
      exact ⟨ht1, ht2, ht3⟩
    | cons u rest2 =>
      obtain ⟨hj1, hj2, hj3⟩ := ih (by simp) (fun x hx => hall x (by simp [hx]))
      rw [intercalate_cons₂ _ _ _ (by simp)]
      set J := List.intercalate (str ", ") (u :: rest2) with hJ
      have hshape : t ++ str ", " ++ J = t ++ (str ", " ++ J) := by
        rw [List.append_assoc]
      refine ⟨?_, ?_, ?_⟩
      · intro he
        rw [hshape] at he
        cases t with
        | nil => exact ht1 rfl
        | cons c t2 => simp at he
      · rw [hshape]
        rw [show noLineTermS (t ++ (str ", " ++ J)) = (noLineTermS t && noLineTermS (str ", " ++ J)) from by
          simp [noLineTermS]]
        rw [show noLineTermS (str ", " ++ J) = (noLineTermS (str ", ") && noLineTermS J) from by
          simp [noLineTermS]]
        rw [ht2, hj2]
        decide
      · have hrJ : rightTrim J = J := rightTrim_eq_self_of_trimStable hj3
      -- the join left-trims to itself because t starts with a non-white char,
      -- and right-trims to itself because J does
        have hlt : leftTrim (t ++ (str ", " ++ J)) = t ++ (str ", " ++ J) := by
          cases t with
          | nil => exact absurd rfl ht1
          | cons c t2 =>
            have hc : isJsWs c = false := trimStable_head ht3
            rw [List.cons_append]
            exact leftTrim_cons_neg hc _
        have hrt : rightTrim (t ++ (str ", " ++ J)) = t ++ (str ", " ++ J) := by
          have h1 : rightTrim ((t ++ [',', ' ']) ++ J) = (t ++ [',', ' ']) ++ rightTrim J :=
            rightTrim_append_of_ne (by rw [hrJ]; exact hj1)
          rw [hrJ] at h1
          have h2 : (t ++ [',', ' ']) ++ J = t ++ (str ", " ++ J) := by
            rw [show str ", " = [',', ' '] from rfl]
            simp
          rw [h2] at h1
          exact h1
        rw [hshape]
        unfold jsTrim
        rw [hlt, hrt]

theorem tags_round_trip {ts : List Str} (h : wfTags ts = true) :
    (splitOnSep ',' (List.intercalate (str ", ") ts)).map jsTrim = ts := by
  obtain ⟨hne, hall⟩ := wfTags_spec h
  rw [splitOnSep_comma_intercalate ts hne (fun t ht => (hall t ht).2.2.2)]
  have hts : ∀ t ∈ ts, jsTrim t = t := fun t ht => (hall t ht).2.2.1
  calc ts.map jsTrim = ts.map id := List.map_congr_left hts
    _ = ts := List.map_id ts

theorem nl_not_mem_keyline {k : Str} (hk : '\n' ∉ k) {v : Str}
    (hv : noLineTermS v = true) : '\n' ∉ k ++ v := by
  intro hm
  rcases List.mem_append.mp hm with h | h
  · exact hk h
  · exact nl_not_mem_of_noLineTerm hv h

theorem wfEntryCore_spec {e : MemoryEntry} (h : wfEntryCore e = true) :
    wfValue e.id = true ∧ wfValue e.type = true ∧ wfTags e.tags = true ∧
    wfValue e.createdAt = true ∧ wfValue e.updatedAt = true ∧
    wfValue e.source = true ∧ wfContent e.content = true := by
  simp only [wfEntryCore, Bool.and_eq_true] at h
  tauto

theorem serializeEntry_lines (e : MemoryEntry) (hWF : wfEntryCore e = true) :
    splitOnSep '\n' (serializeEntry e) = blockLines e ++ [dashLine] := by
  obtain ⟨hid, hty, htg, hca, hua, hsrc, hct⟩ := wfEntryCore_spec hWF
  obtain ⟨_, hjlt, _⟩ := tagsJoin_wf htg
  unfold serializeEntry
  rw [splitOnSep_intercalate_flatMap '\n' _ (by simp)]
  have hsplit1 : splitOnSep '\n' (str "id: " ++ e.id) = [str "id: " ++ e.id] :=
    splitOnSep_of_not_mem (nl_not_mem_keyline (by decide) (wfValue_spec hid).2.1)
  have hsplit2 : splitOnSep '\n' (str "type: " ++ e.type) = [str "type: " ++ e.type] :=
    splitOnSep_of_not_mem (nl_not_mem_keyline (by decide) (wfValue_spec hty).2.1)
  have hsplit3 : splitOnSep '\n' (str "tags: " ++ List.intercalate (str ", ") e.tags)
      = [str "tags: " ++ List.intercalate (str ", ") e.tags] :=
    splitOnSep_of_not_mem (nl_not_mem_keyline (by decide) hjlt)
  have hsplit4 : splitOnSep '\n' (str "createdAt: " ++ e.createdAt)
      = [str "createdAt: " ++ e.createdAt] :=
    splitOnSep_of_not_mem (nl_not_mem_keyline (by decide) (wfValue_spec hca).2.1)
  have hsplit5 : splitOnSep '\n' (str "updatedAt: " ++ e.updatedAt)
      = [str "updatedAt: " ++ e.updatedAt] :=
    splitOnSep_of_not_mem (nl_not_mem_keyline (by decide) (wfValue_spec hua).2.1)
  have hsplit6 : splitOnSep '\n' (str "source: " ++ e.source)
      = [str "source: " ++ e.source] :=
    splitOnSep_of_not_mem (nl_not_mem_keyline (by decide) (wfValue_spec hsrc).2.1)
  have hsplit7 : splitOnSep '\n' (dashLine : Str) = [dashLine] :=
    splitOnSep_of_not_mem (by decide)
  have hsplit8 : splitOnSep '\n' ([] : Str) = [[]] := rfl
  simp only [List.flatMap_cons, List.flatMap_nil, hsplit1, hsplit2, hsplit3, hsplit4,
    hsplit5, hsplit6, hsplit7, hsplit8, List.append_nil]
  simp [blockLines]

theorem intercalate_append_ne {α : Type} (s : List α) (xs ys : List (List α))
    (hx : xs ≠ []) (hy : ys ≠ []) :
    List.intercalate s (xs ++ ys)
      = List.intercalate s xs ++ s ++ List.intercalate s ys := by
  induction xs with
  | nil => exact absurd rfl hx
  | cons a xs ih =>
    cases xs with
    | nil =>
      rw [List.singleton_append, intercalate_cons₂ s a ys hy]
      simp [List.intercalate]
    | cons b xs2 =>
      rw [List.cons_append, intercalate_cons₂ s a ((b :: xs2) ++ ys) (by simp),
        ih (by simp), intercalate_cons₂ s a (b :: xs2) (by simp)]
      simp

theorem intercalate_trailing_nil {α : Type} (s : List α) (xs : List (List α))
    (hx : xs ≠ []) :
    List.intercalate s (xs ++ [[]]) = List.intercalate s xs ++ s := by
  rw [intercalate_append_ne s xs [[]] hx (by simp)]
  simp [List.intercalate]

theorem rightTrim_ne_nil_of_jsTrim {c : Str} (h : jsTrim c ≠ []) :
    rightTrim c ≠ [] := by
  intro hr
  exact h (jsTrim_eq_nil_iff.mpr (rightTrim_eq_nil_iff.mp hr))

theorem leftTrim_append_stable {a : Str} (ha : leftTrim a = a) (hne : a ≠ [])
    (b : Str) : leftTrim (a ++ b) = a ++ b := by
  cases a with
  | nil => exact absurd rfl hne
  | cons c t =>
    have hc : isJsWs c = false := by
      by_contra hb
      have hc2 : isJsWs c = true := by simpa using hb
      rw [leftTrim_cons_ws hc2] at ha
      have := congrArg List.length ha
      have hlen := leftTrim_length_le t
      simp only [List.length_cons] at this
      omega
    rw [List.cons_append]
    exact leftTrim_cons_neg hc _

theorem blockLines_eq (e : MemoryEntry) :
    blockLines e = metaLines e ++ [[]] ++ splitOnSep '\n' e.content ++ [[]] := by
  simp [blockLines, metaLines]

theorem intercalate_meta_content (e : MemoryEntry) (c : Str) :
    List.intercalate ['\n'] (metaLines e ++ [[]] ++ splitOnSep '\n' c)
      = List.intercalate ['\n'] (metaLines e) ++ '\n' :: '\n' :: c := by
  rw [List.append_assoc,
    intercalate_append_ne _ _ _ (by simp [metaLines]) (by simp),
    List.singleton_append,
    intercalate_cons₂ _ _ _ (splitOnSep_ne_nil '\n' c), intercalate_splitOnSep]
  simp

theorem metaJoin_head (e : MemoryEntry) :
    ∃ t : Str, List.intercalate ['\n'] (metaLines e) = str "id: " ++ t := by
  simp only [metaLines]
  rw [intercalate_cons₂ _ _ _ (by simp)]
  exact ⟨e.id ++ '\n' :: List.intercalate ['\n']
    [str "type: " ++ e.type, str "tags: " ++ List.intercalate (str ", ") e.tags,
     str "createdAt: " ++ e.createdAt, str "updatedAt: " ++ e.updatedAt,
     str "source: " ++ e.source], by simp⟩

theorem blockJoin_trim (e : MemoryEntry) (hWF : wfEntryCore e = true) :
    jsTrim (List.intercalate ['\n'] (blockLines e))
      = List.intercalate ['\n'] (cleanLines e) := by
  obtain ⟨_, _, _, _, _, _, hct⟩ := wfEntryCore_spec hWF
  have hctne : jsTrim e.content ≠ [] := by
    simp only [wfContent, Bool.and_eq_true] at hct
    have := hct.1
    intro he
    rw [he] at this
    simp at this
  have hrc : rightTrim e.content ≠ [] := rightTrim_ne_nil_of_jsTrim hctne
  rw [blockLines_eq,
    show metaLines e ++ [[]] ++ splitOnSep '\n' e.content ++ [[]]
      = (metaLines e ++ [[]] ++ splitOnSep '\n' e.content) ++ [[]] from by simp,
    intercalate_trailing_nil _ _ (by simp [metaLines]),
    jsTrim_append_ws (by decide),
    intercalate_meta_content, cleanLines, intercalate_meta_content]
  obtain ⟨mt, hmt⟩ := metaJoin_head e
  rw [hmt]
  unfold jsTrim
  rw [show str "id: " ++ mt ++ '\n' :: '\n' :: e.content
      = str "id: " ++ (mt ++ '\n' :: '\n' :: e.content) from by simp,
    leftTrim_append_stable (a := str "id: ") (by decide) (by decide),
    show str "id: " ++ (mt ++ '\n' :: '\n' :: e.content)
      = (str "id: " ++ mt ++ ['\n', '\n']) ++ e.content from by simp,
    rightTrim_append_of_ne hrc]
  simp

theorem blockLoop_inContent (lines : List Str) (meta : List (Str × Str))
    (acc : List Str) : blockLoop lines meta acc true = (meta, acc ++ lines) := by
  induction lines generalizing acc with
  | nil => simp [blockLoop]
  | cons l rest ih => simp [blockLoop, ih]

theorem blockLoop_meta_step {l : Str} (h1 : isCommentLine l = false)
    (h2 : isMetaLine l = true) (rest : List Str) (meta : List (Str × Str))
    (acc : List Str) :
    blockLoop (l :: rest) meta acc false
      = blockLoop rest (metaKV l :: meta) acc false := by
  simp [blockLoop, h1, h2]

theorem blockLoop_flip_step {l : Str} (h1 : isCommentLine l = false)
    (h2 : isMetaLine l = false) (rest : List Str) (meta : List (Str × Str))
    (acc : List Str) :
    blockLoop (l :: rest) meta acc false = blockLoop rest meta (acc ++ [l]) true := by
  simp [blockLoop, h1, h2]

theorem blockLoop_keyval_step {k v : Str} (hk1 : k ≠ [])
    (hk2 : ∀ c ∈ k, isKeyChar c = true) (hkt : jsTrim k = k) (hkc : ':' ∉ k)
    (hkhd : k.head? ≠ some '<') (hv : v ≠ []) (hv2 : noLineTermS v = true)
    (hv3 : jsTrim v = v) (rest : List Str) (meta : List (Str × Str))
    (acc : List Str) :
    blockLoop ((k ++ ':' :: ' ' :: v) :: rest) meta acc false
      = blockLoop rest ((k, v) :: meta) acc false := by
  have hcmt : isCommentLine (k ++ ':' :: ' ' :: v) = false := by
    cases k with
    | nil => exact absurd rfl hk1
    | cons c t =>
      rw [List.cons_append]
      refine isCommentLine_cons_ne (fun he => hkhd ?_) _
      rw [he]
      rfl
  have hml := isMetaLine_keyval hk1 hk2 hv hv2
  have hkv : metaKV (k ++ ':' :: ' ' :: v) = (k, v) := by
    rw [metaKV_keyval hkc, hkt, hv3]
  rw [blockLoop_meta_step hcmt hml, hkv]

theorem blockLoop_cleanLines (e : MemoryEntry) (hWF : wfEntryCore e = true) :
    blockLoop (cleanLines e) [] [] false
      = ([(str "source", e.source), (str "updatedAt", e.updatedAt),
          (str "createdAt", e.createdAt),
          (str "tags", List.intercalate (str ", ") e.tags),
          (str "type", e.type), (str "id", e.id)],
         [] :: splitOnSep '\n' (rightTrim e.content)) := by
  obtain ⟨hid, hty, htg, hca, hua, hsrc, hct⟩ := wfEntryCore_spec hWF
  obtain ⟨hj1, hj2, hj3⟩ := tagsJoin_wf htg
  obtain ⟨hid1, hid2, hid3⟩ := wfValue_spec hid
  obtain ⟨hty1, hty2, hty3⟩ := wfValue_spec hty
  obtain ⟨hca1, hca2, hca3⟩ := wfValue_spec hca
  obtain ⟨hua1, hua2, hua3⟩ := wfValue_spec hua
  obtain ⟨hsrc1, hsrc2, hsrc3⟩ := wfValue_spec hsrc
  unfold cleanLines metaLines
  rw [show str "id: " ++ e.id = str "id" ++ ':' :: ' ' :: e.id from rfl,
    show str "type: " ++ e.type = str "type" ++ ':' :: ' ' :: e.type from rfl,
    show str "tags: " ++ List.intercalate (str ", ") e.tags
      = str "tags" ++ ':' :: ' ' :: List.intercalate (str ", ") e.tags from rfl,
    show str "createdAt: " ++ e.createdAt
      = str "createdAt" ++ ':' :: ' ' :: e.createdAt from rfl,
    show str "updatedAt: " ++ e.updatedAt
      = str "updatedAt" ++ ':' :: ' ' :: e.updatedAt from rfl,
    show str "source: " ++ e.source = str "source" ++ ':' :: ' ' :: e.source from rfl]
  simp only [List.cons_append, List.nil_append, List.singleton_append,
    List.append_assoc]
  rw [blockLoop_keyval_step (by decide) (by decide) (by decide) (by decide)
      (by decide) hid1 hid2 hid3,
    blockLoop_keyval_step (by decide) (by decide) (by decide) (by decide)
      (by decide) hty1 hty2 hty3,
    blockLoop_keyval_step (by decide) (by decide) (by decide) (by decide)
      (by decide) hj1 hj2 hj3,
    blockLoop_keyval_step (by decide) (by decide) (by decide) (by decide)
      (by decide) hca1 hca2 hca3,
    blockLoop_keyval_step (by decide) (by decide) (by decide) (by decide)
      (by decide) hua1 hua2 hua3,
    blockLoop_keyval_step (by decide) (by decide) (by decide) (by decide)
      (by decide) hsrc1 hsrc2 hsrc3,
    blockLoop_flip_step (by decide) (by decide),
    blockLoop_inContent]
  simp

theorem flatten_splitOnSep {α : Type} [DecidableEq α] (sep : α) (l : List α) :
    (splitOnSep sep l).flatten = l.filter (fun x => !(x == sep)) := by
  induction l with
  | nil => simp [splitOnSep]
  | cons x xs ih =>
    by_cases h : x = sep
    · subst h
      simp only [splitOnSep, if_pos rfl, List.flatten_cons, List.nil_append, ih]
      simp [List.filter]
      exact ih
    · simp only [splitOnSep, if_neg h]
      cases hs : splitOnSep sep xs with
      | nil => exact absurd hs (splitOnSep_ne_nil sep xs)
      | cons g gs =>
        rw [hs] at ih
        have hx : (!(x == sep)) = true := by simp [h]
        simp only [List.flatten_cons, List.cons_append, List.filter_cons, hx]
        rw [← ih]
        simp

theorem rightTrim_decomp (c : Str) :
    ∃ w, c = rightTrim c ++ w ∧ ∀ x ∈ w, isJsWs x = true := by
  refine ⟨(c.reverse.takeWhile isJsWs).reverse, ?_, ?_⟩
  · unfold rightTrim
    conv_lhs => rw [← List.reverse_reverse c,
      ← List.takeWhile_append_dropWhile (p := isJsWs) (l := c.reverse)]
    rw [List.reverse_append]
  · intro x hx
    exact List.mem_takeWhile_imp (List.mem_reverse.mp hx)

theorem contentLines_recover (c : Str) :
    jsTrim (List.intercalate ['\n'] (([] : Str) :: splitOnSep '\n' (rightTrim c)))
      = jsTrim c := by
  rw [intercalate_cons₂ _ _ _ (splitOnSep_ne_nil '\n' _), intercalate_splitOnSep]
  simp only [List.nil_append]
  rw [show (['\n'] ++ rightTrim c) = '\n' :: rightTrim c from rfl,
    jsTrim_cons_ws (by decide), jsTrim_rightTrim]

theorem contentFlatten_ne {c : Str} (h : jsTrim c ≠ []) :
    jsTrim ((([] : Str) :: splitOnSep '\n' (rightTrim c)).flatten) ≠ [] := by
  obtain ⟨d, hd, hdw⟩ : ∃ d ∈ c, isJsWs d = false := by
    by_contra hall
    push_neg at hall
    refine h (jsTrim_eq_nil_iff.mpr (fun x hx => ?_))
    have := hall x hx
    simpa using this
  obtain ⟨w, hw, hww⟩ := rightTrim_decomp c
  have hdr : d ∈ rightTrim c := by
    rw [hw] at hd
    rcases List.mem_append.mp hd with h1 | h2
    · exact h1
    · rw [hww d h2] at hdw
      exact absurd hdw (by simp)
  have hdnl : (!(d == '\n')) = true := by
    have hne : d ≠ '\n' := by
      intro he
      rw [he] at hdw
      exact absurd hdw (by decide)
    simp [hne]
  have hdf : d ∈ ((([] : Str) :: splitOnSep '\n' (rightTrim c)).flatten) := by
    simp only [List.flatten_cons, List.nil_append, flatten_splitOnSep]
    exact List.mem_filter.mpr ⟨hdr, hdnl⟩
  intro hnil
  have := jsTrim_eq_nil_iff.mp hnil d hdf
  rw [this] at hdw
  exact absurd hdw (by simp)

theorem parseBlockFrom_six (pnow vsrc vupd vcre vtags vtyp vid : Str)
    (cls : List Str) (hvid : vid ≠ []) (hcl : jsTrim cls.flatten ≠ [])
    (hvtags : vtags ≠ []) :
    parseBlockFrom pnow [(str "source", vsrc), (str "updatedAt", vupd),
      (str "createdAt", vcre), (str "tags", vtags), (str "type", vtyp),
      (str "id", vid)] cls
      = some { id := vid, type := vtyp,
               content := jsTrim (List.intercalate ['\n'] cls),
               tags := (splitOnSep ',' vtags).map jsTrim,
               createdAt := vcre, updatedAt := vupd, source := vsrc } := by
  have h1 : metaGet [(str "source", vsrc), (str "updatedAt", vupd),
      (str "createdAt", vcre), (str "tags", vtags), (str "type", vtyp),
      (str "id", vid)] (str "id") = some vid := rfl
  have h2 : metaGet [(str "source", vsrc), (str "updatedAt", vupd),
      (str "createdAt", vcre), (str "tags", vtags), (str "type", vtyp),
      (str "id", vid)] (str "type") = some vtyp := rfl
  have h3 : metaGet [(str "source", vsrc), (str "updatedAt", vupd),
      (str "createdAt", vcre), (str "tags", vtags), (str "type", vtyp),
      (str "id", vid)] (str "tags") = some vtags := rfl
  have h4 : metaGet [(str "source", vsrc), (str "updatedAt", vupd),
      (str "createdAt", vcre), (str "tags", vtags), (str "type", vtyp),
      (str "id", vid)] (str "createdAt") = some vcre := rfl
  have h5 : metaGet [(str "source", vsrc), (str "updatedAt", vupd),
      (str "createdAt", vcre), (str "tags", vtags), (str "type", vtyp),
      (str "id", vid)] (str "updatedAt") = some vupd := rfl
  have h6 : metaGet [(str "source", vsrc), (str "updatedAt", vupd),
      (str "createdAt", vcre), (str "tags", vtags), (str "type", vtyp),
      (str "id", vid)] (str "source") = some vsrc := rfl
  unfold parseBlockFrom
  rw [h1, h2, h3, h4, h5, h6]
  simp only [Option.getD_some, if_neg hvid, if_neg hcl, if_neg hvtags]

theorem parseBlock_round (pnow : Str) (e : MemoryEntry)
    (hWF : wfEntryCore e = true) :
    parseBlock pnow (jsTrim (List.intercalate ['\n'] (blockLines e)))
      = some { e with content := jsTrim e.content } := by
  obtain ⟨hid, hty, htg, hca, hua, hsrc, hct⟩ := wfEntryCore_spec hWF
  obtain ⟨hj1, hj2, hj3⟩ := tagsJoin_wf htg
  have hctne : jsTrim e.content ≠ [] := by
    simp only [wfContent, Bool.and_eq_true] at hct
    have h1 := hct.1
    intro he
    rw [he] at h1
    simp at h1
  have hclean : splitOnSep '\n' (List.intercalate ['\n'] (cleanLines e))
      = cleanLines e := by
    apply splitOnSep_intercalate
    · simp [cleanLines, metaLines]
    · intro g hg
      unfold cleanLines at hg
      rcases List.mem_append.mp hg with hg1 | hg2
      · rcases List.mem_append.mp hg1 with hgm | hgn
        · simp only [metaLines, List.mem_cons, List.not_mem_nil, or_false] at hgm
          rcases hgm with h | h | h | h | h | h
          · subst h
            exact nl_not_mem_keyline (by decide) (wfValue_spec hid).2.1
          · subst h
            exact nl_not_mem_keyline (by decide) (wfValue_spec hty).2.1
          · subst h
            exact nl_not_mem_keyline (by decide) hj2
          · subst h
            exact nl_not_mem_keyline (by decide) (wfValue_spec hca).2.1
          · subst h
            exact nl_not_mem_keyline (by decide) (wfValue_spec hua).2.1
          · subst h
            exact nl_not_mem_keyline (by decide) (wfValue_spec hsrc).2.1
        · simp only [List.mem_singleton] at hgn
          subst hgn
          simp
      · exact mem_splitOnSep_not_mem hg2
  rw [blockJoin_trim e hWF]
  unfold parseBlock
  rw [hclean, blockLoop_cleanLines e hWF]
  simp only []
  rw [parseBlockFrom_six pnow _ _ _ _ _ _ _ (wfValue_spec hid).1
    (contentFlatten_ne hctne) hj1]
  rw [contentLines_recover, tags_round_trip htg]

/-! ### Parsing whole files -/

theorem flatMap_congr_mem {α β : Type} {l : List α} {f g : α → List β}
    (h : ∀ x ∈ l, f x = g x) : l.flatMap f = l.flatMap g := by
  induction l with
  | nil => rfl
  | cons x xs ih =>
    rw [List.flatMap_cons, List.flatMap_cons, h x (by simp),
      ih (fun y hy => h y (by simp [hy]))]

theorem splitOnSep_cons_sep {α : Type} [DecidableEq α] (sep : α) (l : List α) :
    splitOnSep sep (sep :: l) = [] :: splitOnSep sep l := by
  simp [splitOnSep]

theorem parseMemoryMd_eq_parseGroups (pnow raw : Str) :
    parseMemoryMd pnow raw
      = parseGroups pnow (splitOnSep dashLine (splitOnSep '\n' raw)) := rfl

theorem parseGroups_nil (pnow : Str) : parseGroups pnow [] = [] := rfl

theorem parseGroups_cons_entry {pnow : Str} {g : List Str} {e : MemoryEntry}
    (h1 : jsTrim (List.intercalate ['\n'] g) ≠ [])
    (h2 : parseBlock pnow (jsTrim (List.intercalate ['\n'] g)) = some e)
    (gs : List (List Str)) :
    parseGroups pnow (g :: gs) = e :: parseGroups pnow gs := by
  unfold parseGroups
  rw [List.map_cons, List.map_cons, List.filter_cons,
    if_pos (by simpa using h1), List.filterMap_cons, h2]

theorem parseGroups_cons_skip {pnow : Str} {g : List Str}
    (h2 : parseBlock pnow (jsTrim (List.intercalate ['\n'] g)) = none)
    (gs : List (List Str)) :
    parseGroups pnow (g :: gs) = parseGroups pnow gs := by
  unfold parseGroups
  rw [List.map_cons, List.map_cons, List.filter_cons]
  by_cases h : jsTrim (List.intercalate ['\n'] g) = []
  · rw [if_neg (by simpa using h)]
  · rw [if_pos (by simpa using h), List.filterMap_cons, h2]

theorem parseGroups_cons_empty {pnow : Str} {g : List Str}
    (h1 : jsTrim (List.intercalate ['\n'] g) = []) (gs : List (List Str)) :
    parseGroups pnow (g :: gs) = parseGroups pnow gs := by
  unfold parseGroups
  rw [List.map_cons, List.map_cons, List.filter_cons, if_neg (by simpa using h1)]

theorem wfEntry_core {e : MemoryEntry} (h : wfEntry e = true) :
    wfEntryCore e = true ∧ jsTrim e.content = e.content := by
  simp only [wfEntry, Bool.and_eq_true, trimStable, beq_iff_eq] at h
  exact h

theorem parseBlock_round_stable (pnow : Str) {e : MemoryEntry}
    (hWF : wfEntry e = true) :
    parseBlock pnow (jsTrim (List.intercalate ['\n'] (blockLines e))) = some e := by
  obtain ⟨hc, ht⟩ := wfEntry_core hWF
  rw [parseBlock_round pnow e hc, ht]

theorem blockJoin_ne_nil {e : MemoryEntry} (hWF : wfEntryCore e = true) :
    jsTrim (List.intercalate ['\n'] (blockLines e)) ≠ [] := by
  rw [blockJoin_trim e hWF]
  unfold cleanLines
  rw [intercalate_meta_content]
  obtain ⟨t, ht⟩ := metaJoin_head e
  rw [ht]
  simp [str]

theorem dash_not_mem_blockLines {e : MemoryEntry} (hWF : wfEntryCore e = true) :
    dashLine ∉ blockLines e := by
  obtain ⟨hid, hty, htg, hca, hua, hsrc, hct⟩ := wfEntryCore_spec hWF
  intro hm
  unfold blockLines at hm
  rcases List.mem_append.mp hm with h1 | h2
  · rcases List.mem_append.mp h1 with h3 | h4
    · simp only [List.mem_cons, List.not_mem_nil, or_false] at h3
      rcases h3 with h | h | h | h | h | h | h
      · rw [show str "id: " ++ e.id = 'i' :: (str "d: " ++ e.id) from rfl] at h
        exact cons_ne_dashLine (by decide) h.symm
      · rw [show str "type: " ++ e.type = 't' :: (str "ype: " ++ e.type) from rfl] at h
        exact cons_ne_dashLine (by decide) h.symm
      · rw [show str "tags: " ++ List.intercalate (str ", ") e.tags
          = 't' :: (str "ags: " ++ List.intercalate (str ", ") e.tags) from rfl] at h
        exact cons_ne_dashLine (by decide) h.symm
      · rw [show str "createdAt: " ++ e.createdAt
          = 'c' :: (str "reatedAt: " ++ e.createdAt) from rfl] at h
        exact cons_ne_dashLine (by decide) h.symm
      · rw [show str "updatedAt: " ++ e.updatedAt
          = 'u' :: (str "pdatedAt: " ++ e.updatedAt) from rfl] at h
        exact cons_ne_dashLine (by decide) h.symm
      · rw [show str "source: " ++ e.source
          = 's' :: (str "ource: " ++ e.source) from rfl] at h
        exact cons_ne_dashLine (by decide) h.symm
      · exact absurd h (by decide)
    · simp only [wfContent, Bool.and_eq_true, List.all_eq_true] at hct
      have := hct.2 dashLine h4
      simp at this
  · simp only [List.mem_singleton] at h2
    exact absurd h2 (by decide)

theorem parseGroups_blocks (pnow : Str) (es : List MemoryEntry)
    (hWF : ∀ e ∈ es, wfEntry e = true) (tail : List (List Str))
    (htail : ∀ g ∈ tail, jsTrim (List.intercalate ['\n'] g) = []) :
    parseGroups pnow (es.map blockLines ++ tail) = es := by
  induction es with
  | nil =>
    simp only [List.map_nil, List.nil_append]
    induction tail with
    | nil => rfl
    | cons g gs ih =>
      rw [parseGroups_cons_empty (htail g (by simp))]
      exact ih (fun x hx => htail x (by simp [hx]))
  | cons e rest ih =>
    rw [List.map_cons, List.cons_append,
      parseGroups_cons_entry (blockJoin_ne_nil (wfEntry_core (hWF e (by simp))).1)
        (parseBlock_round_stable pnow (hWF e (by simp))),
      ih (fun x hx => hWF x (by simp [hx]))]

theorem splitDash_flatMap (es : List MemoryEntry)
    (hWF : ∀ e ∈ es, wfEntryCore e = true) (tail : List Str)
    (htail : dashLine ∉ tail) :
    splitOnSep dashLine (es.flatMap (fun e => blockLines e ++ [dashLine]) ++ tail)
      = es.map blockLines ++ [tail] := by
  induction es with
  | nil =>
    simp only [List.flatMap_nil, List.nil_append, List.map_nil]
    rw [splitOnSep_of_not_mem htail]
  | cons e rest ih =>
    rw [List.flatMap_cons, List.append_assoc, List.append_assoc,
      List.singleton_append, splitOnSep_append_sep,
      splitOnSep_of_not_mem (dash_not_mem_blockLines (hWF e (by simp))),
      ih (fun x hx => hWF x (by simp [hx]))]
    simp

theorem splitNl_body (es : List MemoryEntry)
    (hWF : ∀ e ∈ es, wfEntryCore e = true) :
    splitOnSep '\n' (List.intercalate ['\n'] (es.map serializeEntry))
      = es.flatMap (fun e => blockLines e ++ [dashLine]) ++
        (if es.isEmpty then [[]] else []) := by
  cases es with
  | nil => simp [splitOnSep]
  | cons e rest =>
    rw [splitOnSep_intercalate_flatMap '\n' _ (by simp), List.flatMap_map]
    simp only [List.isEmpty_cons, if_neg (by simp : ¬((false : Bool) = true)),
      List.append_nil]
    exact flatMap_congr_mem (fun x hx => serializeEntry_lines x (hWF x hx))

theorem parseBlock_headerGroup (pnow L : Str) :
    parseBlock pnow (str "# OpenPaw Long-Term Memory" ++ '\n' :: '\n' :: L)
      = none := by
  unfold parseBlock
  have hsplit : splitOnSep '\n' (str "# OpenPaw Long-Term Memory" ++ '\n' :: '\n' :: L)
      = (str "# OpenPaw Long-Term Memory") :: ([] : Str) :: splitOnSep '\n' L := by
    rw [splitOnSep_append_sep, splitOnSep_of_not_mem (by decide),
      splitOnSep_cons_sep]
    rfl
  rw [hsplit, blockLoop_flip_step (by decide) (by decide), blockLoop_inContent]
  rfl

theorem headerGroup_trim (lbl v : Str) (hv : wfValue v = true) :
    jsTrim (List.intercalate ['\n']
        [str "# OpenPaw Long-Term Memory", [], lbl ++ v, []])
      = str "# OpenPaw Long-Term Memory" ++ '\n' :: '\n' :: (lbl ++ v) := by
  obtain ⟨hv1, hv2, hv3⟩ := wfValue_spec hv
  have hrv : rightTrim v = v := rightTrim_eq_self_of_trimStable hv3
  have hrL : rightTrim (lbl ++ v) ≠ [] := by
    rw [rightTrim_append_of_ne (by rw [hrv]; exact hv1), hrv]
    simp [hv1]
  have hja : List.intercalate ['\n']
      [str "# OpenPaw Long-Term Memory", [], lbl ++ v, []]
      = str "# OpenPaw Long-Term Memory" ++ '\n' :: '\n' :: ((lbl ++ v) ++ ['\n']) := by
    rw [intercalate_cons₂ _ _ _ (by simp), intercalate_cons₂ _ _ _ (by simp),
      intercalate_cons₂ _ _ _ (by simp)]
    simp [List.intercalate]
  rw [hja,
    show str "# OpenPaw Long-Term Memory" ++ '\n' :: '\n' :: ((lbl ++ v) ++ ['\n'])
      = (str "# OpenPaw Long-Term Memory" ++ '\n' :: '\n' :: (lbl ++ v)) ++ ['\n']
      from by simp,
    jsTrim_append_ws (by decide)]
  unfold jsTrim
  rw [leftTrim_append_stable (by decide) (by decide)]
  rw [show str "# OpenPaw Long-Term Memory" ++ '\n' :: '\n' :: (lbl ++ v)
      = (str "# OpenPaw Long-Term Memory" ++ '\n' :: '\n' :: lbl) ++ v from by simp,
    rightTrim_append_of_ne (by rw [hrv]; exact hv1), hrv]

theorem headerGroup_parse_skip (pnow lbl v : Str) (hv : wfValue v = true) :
    parseBlock pnow (jsTrim (List.intercalate ['\n']
        [str "# OpenPaw Long-Term Memory", [], lbl ++ v, []])) = none := by
  rw [headerGroup_trim lbl v hv, parseBlock_headerGroup]

theorem headerGroup_join_ne {lbl v : Str} (hv : wfValue v = true) :
    jsTrim (List.intercalate ['\n']
        [str "# OpenPaw Long-Term Memory", [], lbl ++ v, []]) ≠ [] := by
  rw [headerGroup_trim lbl v hv]
  simp [str]

theorem memoryMdStr_lines (now : Str) (hn : wfValue now = true)
    (es : List MemoryEntry) (hWF : ∀ e ∈ es, wfEntryCore e = true) :
    splitOnSep '\n' (memoryMdStr now es)
      = [str "# OpenPaw Long-Term Memory", [], str "Last updated: " ++ now, []]
        ++ dashLine ::
          (es.flatMap (fun e => blockLines e ++ [dashLine]) ++
            (if es.isEmpty then [[]] else [])) := by
  have hF : memoryMdStr now es
      = str "# OpenPaw Long-Term Memory" ++ '\n' ::
          ('\n' :: ((str "Last updated: " ++ now) ++ '\n' ::
            ('\n' :: (dashLine ++ '\n' ::
              List.intercalate ['\n'] (es.map serializeEntry))))) := by
    unfold memoryMdStr headerStr
    have h1 : str "# OpenPaw Long-Term Memory\n\nLast updated: "
        = str "# OpenPaw Long-Term Memory" ++ '\n' :: '\n' :: str "Last updated: " := by
      decide
    have h2 : str "\n\n---\n" = '\n' :: '\n' :: (dashLine ++ ['\n']) := by decide
    rw [h1, h2]
    simp
  rw [hF, splitOnSep_append_sep, splitOnSep_of_not_mem (by decide),
    splitOnSep_cons_sep, splitOnSep_append_sep,
    splitOnSep_of_not_mem
      (nl_not_mem_keyline (by decide) (wfValue_spec hn).2.1),
    splitOnSep_cons_sep, splitOnSep_append_sep,
    splitOnSep_of_not_mem (by decide), splitNl_body es hWF]
  simp

theorem parse_memoryMdStr (pnow now : Str) (hn : wfValue now = true)
    (es : List MemoryEntry) (hWF : ∀ e ∈ es, wfEntry e = true) :
    parseMemoryMd pnow (memoryMdStr now es) = es := by
  have hWFc : ∀ e ∈ es, wfEntryCore e = true :=
    fun e he => (wfEntry_core (hWF e he)).1
  have htail0 : dashLine ∉ (if es.isEmpty then ([[]] : List Str) else []) := by
    cases es
    · decide
    · simp
  rw [parseMemoryMd_eq_parseGroups, memoryMdStr_lines now hn es hWFc,
    splitOnSep_append_sep, splitDash_flatMap es hWFc _ htail0,
    splitOnSep_of_not_mem ?hpre]
  case hpre =>
    intro hm
    simp only [List.mem_cons, List.not_mem_nil, or_false] at hm
    rcases hm with h | h | h | h
    · exact absurd h (by decide)
    · exact absurd h (by decide)
    · rw [show str "Last updated: " ++ now
        = 'L' :: (str "ast updated: " ++ now) from rfl] at h
      exact cons_ne_dashLine (by decide) h.symm
    · exact absurd h (by decide)
  rw [List.singleton_append,
    parseGroups_cons_skip (headerGroup_parse_skip pnow (str "Last updated: ") now hn)]
  refine parseGroups_blocks pnow es hWF _ ?_
  intro g hg
  simp only [List.mem_singleton] at hg
  subst hg
  cases es <;> simp [List.intercalate, jsTrim_nil]

theorem initialMemoryMd_lines (created : Str) (hc : wfValue created = true) :
    splitOnSep '\n' (initialMemoryMd created)
      = [str "# OpenPaw Long-Term Memory", [], str "Created: " ++ created, [],
         dashLine, []] := by
  have hF : initialMemoryMd created
      = str "# OpenPaw Long-Term Memory" ++ '\n' ::
          ('\n' :: ((str "Created: " ++ created) ++ '\n' ::
            ('\n' :: (dashLine ++ '\n' :: ([] : Str))))) := by
    unfold initialMemoryMd
    have h1 : str "# OpenPaw Long-Term Memory\n\nCreated: "
        = str "# OpenPaw Long-Term Memory" ++ '\n' :: '\n' :: str "Created: " := by
      decide
    have h2 : str "\n\n---\n" = '\n' :: '\n' :: (dashLine ++ ['\n']) := by decide
    rw [h1, h2]
    simp
  rw [hF, splitOnSep_append_sep, splitOnSep_of_not_mem (by decide),
    splitOnSep_cons_sep, splitOnSep_append_sep,
    splitOnSep_of_not_mem (nl_not_mem_keyline (by decide) (wfValue_spec hc).2.1),
    splitOnSep_cons_sep, splitOnSep_append_sep, splitOnSep_of_not_mem (by decide)]
  simp [splitOnSep]

theorem parse_initialMemoryMd (pnow created : Str) (hc : wfValue created = true) :
    parseMemoryMd pnow (initialMemoryMd created) = [] := by
  rw [parseMemoryMd_eq_parseGroups, initialMemoryMd_lines created hc,
    show [str "# OpenPaw Long-Term Memory", ([] : Str),
          str "Created: " ++ created, [], dashLine, []]
      = [str "# OpenPaw Long-Term Memory", ([] : Str),
          str "Created: " ++ created, []] ++ dashLine :: [[]] from rfl,
    splitOnSep_append_sep, splitOnSep_of_not_mem ?hpre,
    splitOnSep_of_not_mem (by decide)]
  case hpre =>
    intro hm
    simp only [List.mem_cons, List.not_mem_nil, or_false] at hm
    rcases hm with h | h | h | h
    · exact absurd h (by decide)
    · exact absurd h (by decide)
    · rw [show str "Created: " ++ created
        = 'C' :: (str "reated: " ++ created) from rfl] at h
      exact cons_ne_dashLine (by decide) h.symm
    · exact absurd h (by decide)
  rw [List.singleton_append,
    parseGroups_cons_skip (headerGroup_parse_skip pnow (str "Created: ") created hc),
    parseGroups_cons_empty (by simp [List.intercalate, jsTrim_nil]),
    parseGroups_nil]

theorem dailyStr_lines (es : List MemoryEntry)
    (hWF : ∀ e ∈ es, wfEntryCore e = true) :
    splitOnSep '\n' (dailyStr es)
      = es.flatMap (fun e => blockLines e ++ [dashLine]) ++ [[]] := by
  induction es with
  | nil => simp [dailyStr, splitOnSep]
  | cons e rest ih =>
    have hstep : dailyStr (e :: rest) = serializeEntry e ++ '\n' :: dailyStr rest := by
      simp [dailyStr]
    rw [hstep, splitOnSep_append_sep, serializeEntry_lines e (hWF e (by simp)),
      ih (fun x hx => hWF x (by simp [hx]))]
    simp

theorem parse_dailyStr (pnow : Str) (es : List MemoryEntry)
    (hWF : ∀ e ∈ es, wfEntry e = true) :
    parseMemoryMd pnow (dailyStr es) = es := by
  have hWFc : ∀ e ∈ es, wfEntryCore e = true :=
    fun e he => (wfEntry_core (hWF e he)).1
  rw [parseMemoryMd_eq_parseGroups, dailyStr_lines es hWFc,
    splitDash_flatMap es hWFc [[]] (by decide)]
  refine parseGroups_blocks pnow es hWF _ ?_
  intro g hg
  simp only [List.mem_singleton] at hg
  subst hg
  simp [List.intercalate, jsTrim_nil]

theorem parse_serializeEntry (pnow : Str) (e : MemoryEntry)
    (hWF : wfEntryCore e = true) :
    parseMemoryMd pnow (serializeEntry e)
      = [{ e with content := jsTrim e.content }] := by
  rw [parseMemoryMd_eq_parseGroups, serializeEntry_lines e hWF,
    show blockLines e ++ [dashLine] = blockLines e ++ dashLine :: [] from rfl,
    splitOnSep_append_sep, splitOnSep_of_not_mem (dash_not_mem_blockLines hWF),
    show splitOnSep dashLine ([] : List Str) = [[]] from rfl,
    List.singleton_append,
    parseGroups_cons_entry (blockJoin_ne_nil hWF) (parseBlock_round pnow e hWF),
    parseGroups_cons_empty (by simp [List.intercalate, jsTrim_nil]),
    parseGroups_nil]

/-! ### Claim C3 -/

/-- Claim C3, as stated, is false: an entry with the default empty tag list
serializes to a `tags: ` line whose empty value fails the metadata regex, so
the parser flips into content mode there — the parsed entry's content absorbs
the remaining metadata lines and its timestamps are re-defaulted to parse
time.  This theorem exhibits the failure at a concrete entry. -/
theorem c3_counterexample :
    parseMemoryMd (str "NOW") (serializeEntry
      { id := str "a", type := str "fact", content := str "hello", tags := [],
        createdAt := str "c", updatedAt := str "u", source := str "agent" })
      ≠ [{ id := str "a", type := str "fact", content := jsTrim (str "hello"),
           tags := ([] : List Str), createdAt := str "c", updatedAt := str "u",
           source := str "agent" }] := by
  decide

/-- Claim C3 (amended): `parseMemoryMd (serializeEntry e)` yields exactly one
entry equal to `e` in all fields with content trimmed, provided the entry is
well-formed for the block format: id, type, timestamps and source are
non-empty, free of line terminators and trim-stable; the tag list is non-empty
and each tag is non-empty, comma-free, line-terminator-free and trim-stable;
and the content has a non-blank trim and no line consisting exactly of `---`
(all collected in `wfEntryCore`). -/
theorem c3_serialize_parse_round_trip (pnow : Str) (e : MemoryEntry)
    (hWF : wfEntryCore e = true) :
    parseMemoryMd pnow (serializeEntry e)
      = [{ e with content := jsTrim e.content }] :=
  parse_serializeEntry pnow e hWF

/-- Witness for C3's amended theorem at a concrete well-formed entry. -/
theorem c3_witness :
    wfEntryCore
      { id := str "a1", type := str "fact", content := str " hello\nworld ",
        tags := [str "t1", str "t2"], createdAt := str "2024-01-01",
        updatedAt := str "2024-01-02", source := str "user" } = true ∧
    parseMemoryMd (str "NOW") (serializeEntry
      { id := str "a1", type := str "fact", content := str " hello\nworld ",
        tags := [str "t1", str "t2"], createdAt := str "2024-01-01",
        updatedAt := str "2024-01-02", source := str "user" })
      = [{ id := str "a1", type := str "fact",
           content := jsTrim (str " hello\nworld "),
           tags := [str "t1", str "t2"], createdAt := str "2024-01-01",
           updatedAt := str "2024-01-02", source := str "user" }] :=
  ⟨by decide,
   c3_serialize_parse_round_trip (str "NOW")
     { id := str "a1", type := str "fact", content := str " hello\nworld ",
       tags := [str "t1", str "t2"], createdAt := str "2024-01-01",
       updatedAt := str "2024-01-02", source := str "user" } (by decide)⟩

/-! ### Claim C8 -/

theorem foldl_addToShortTerm_drop (cfg : Config) (msgs : List ShortTermMessage) :
    msgs.foldl (addToShortTerm cfg) []
      = msgs.drop (msgs.length - cfg.maxShortTerm) := by
  induction msgs using List.reverseRecOn with
  | nil => simp
  | append_singleton msgs m ih =>
    rw [List.foldl_append, List.foldl_cons, List.foldl_nil, ih]
    set k := cfg.maxShortTerm with hk
    set n := msgs.length with hn
    unfold addToShortTerm
    have hwlen : (msgs.drop (n - k)).length = n - (n - k) := by
      rw [List.length_drop]
    by_cases hcase : k ≤ n
    · have hcond : k < (msgs.drop (n - k) ++ [m]).length := by
        rw [List.length_append, hwlen]
        simp only [List.length_cons, List.length_nil]
        omega
      rw [if_pos hcond]
      by_cases hk0 : k = 0
      · have h1 : msgs.drop (n - k) = [] := by
          rw [List.drop_eq_nil_iff]
          omega
        have h2 : (msgs ++ [m]).drop ((msgs ++ [m]).length - k) = [] := by
          rw [List.drop_eq_nil_iff, List.length_append]
          simp only [List.length_cons, List.length_nil]
          omega
        rw [h1, h2]
        rfl
      · have hne : msgs.drop (n - k) ≠ [] := by
          rw [Ne, List.drop_eq_nil_iff]
          omega
        rw [show ((msgs.drop (n - k) ++ [m]).tail)
            = (msgs.drop (n - k)).tail ++ [m] from ?_]
        · rw [List.tail_drop]
          rw [show (msgs ++ [m]).length - k = (n - k + 1) from ?_]
          · rw [List.drop_append_of_le_length (by omega)]
          · rw [List.length_append]
            simp only [List.length_cons, List.length_nil]
            omega
        · cases hd : msgs.drop (n - k) with
          | nil => exact absurd hd hne
          | cons x xs => rfl
    · have hcond : ¬(k < (msgs.drop (n - k) ++ [m]).length) := by
        rw [List.length_append, hwlen]
        simp only [List.length_cons, List.length_nil]
        omega
      rw [if_neg hcond]
      have h1 : n - k = 0 := by omega
      have h2 : (msgs ++ [m]).length - k = 0 := by
        rw [List.length_append]
        simp only [List.length_cons, List.length_nil]
        omega
      rw [h1, h2, List.drop_zero, List.drop_zero]

/-- Claim C8: starting from the empty window, a sequence of `addToShortTerm`
calls never leaves more than `MAX_SHORT_TERM` messages, and the window always
consists of the most recent messages in arrival order (each eviction removes
the head, i.e. the oldest message). -/
theorem c8_short_term_window (cfg : Config) (msgs : List ShortTermMessage) :
    (msgs.foldl (addToShortTerm cfg) []).length ≤ cfg.maxShortTerm ∧
    msgs.foldl (addToShortTerm cfg) []
      = msgs.drop (msgs.length - cfg.maxShortTerm) := by
  refine ⟨?_, foldl_addToShortTerm_drop cfg msgs⟩
  rw [foldl_addToShortTerm_drop cfg msgs, List.length_drop]
  omega

/-! ### Claim C10 -/

theorem filter_map_update (t : Str) (blk : Str) (l : List (Str × Str)) :
    (l.map (fun p => if p.1 == t then (p.1, p.2 ++ blk) else p)).filter
        (fun p => !(p.1 == t))
      = l.filter (fun p => !(p.1 == t)) := by
  induction l with
  | nil => rfl
  | cons p rest ih =>
    simp only [beq_iff_eq] at ih ⊢
    by_cases hp : p.1 = t
    · simp [hp, ih]
    · simp [hp, ih]

theorem save_log_case (cfg : Config) (st : MMState) (a : SaveArgs)
    (h : a.rtype = str "log") :
    (save cfg st a).2
      = indexUpsert (appendDailyLog a.today st (save cfg st a).1)
          (save cfg st a).1 := by
  unfold save
  simp only []
  rw [if_pos (show (saveEntry st a).type = str "log" from h)]

/-- Claim C10: saving an entry of kind `log` routes through `appendDailyLog`
only — `MEMORY.md` is untouched byte for byte (so its parse, the long-term
partition, is unchanged and no trimming can occur), and every daily file other
than today's is unchanged. -/
theorem c10_log_save_frame (cfg : Config) (st : MMState) (a : SaveArgs)
    (pnow : Str) (h : a.rtype = str "log") :
    (save cfg st a).2.memoryMd = st.memoryMd ∧
    parseMemoryMd pnow ((save cfg st a).2.memoryMd)
      = parseMemoryMd pnow st.memoryMd ∧
    ((save cfg st a).2.daily.filter (fun p => !(p.1 == a.today)))
      = st.daily.filter (fun p => !(p.1 == a.today)) := by
  rw [save_log_case cfg st a h]
  refine ⟨rfl, rfl, ?_⟩
  show ((appendDailyLog a.today st (save cfg st a).1).daily.filter
      (fun p => !(p.1 == a.today)))
    = st.daily.filter (fun p => !(p.1 == a.today))
  unfold appendDailyLog
  by_cases hany : st.daily.any (fun p => p.1 == a.today) = true
  · simp only [hany, if_true]
    exact filter_map_update a.today _ st.daily
  · simp only [Bool.not_eq_true] at hany
    simp only [hany, if_false]
    simp [List.filter_append]

/-- Witness for C10 at a concrete log-kind save on a concrete state. -/
theorem c10_witness :
    (({ content := str "x", id? := none, type? := some (str "log"),
        tags? := some [str "t"], source? := none, genId := str "g",
        now := str "n", today := str "d" } : SaveArgs).rtype = str "log") ∧
    (save defaultConfig (initState (str "c") (str "p"))
        { content := str "x", id? := none, type? := some (str "log"),
          tags? := some [str "t"], source? := none, genId := str "g",
          now := str "n", today := str "d" }).2.memoryMd
      = (initState (str "c") (str "p")).memoryMd := by
  refine ⟨by decide, ?_⟩
  exact (c10_log_save_frame defaultConfig (initState (str "c") (str "p")) _
    (str "p") (by decide)).1

/-! ### Claim C6 -/

theorem likeMatch_lit_head (q : Str) (hq : ∀ c ∈ q, c ≠ '%' ∧ c ≠ '_')
    (s : Str) :
    likeMatch (q ++ ['%']) s = true ↔ (q.map lowerA) <+: (s.map lowerA) := by
  induction q generalizing s with
  | nil =>
    simp only [List.nil_append, List.map_nil]
    constructor
    · intro _
      exact List.nil_prefix
    · intro _
      simp only [likeMatch, List.any_eq_true, List.mem_range]
      exact ⟨s.length, by omega, by simp [likeMatch]⟩
  | cons c q' ih =>
    obtain ⟨hc1, hc2⟩ := hq c (by simp)
    cases s with
    | nil =>
      simp [likeMatch, hc1, hc2]
    | cons d s' =>
      rw [List.cons_append]
      simp only [likeMatch, hc1, hc2, List.map_cons]
      rw [List.cons_prefix_cons, Bool.and_eq_true, beq_iff_eq,
        ih (fun x hx => hq x (by simp [hx])) s']

theorem infix_iff_prefix_drop {α : Type} (l₁ l₂ : List α) :
    l₁ <:+: l₂ ↔ ∃ n, n < l₂.length + 1 ∧ l₁ <+: l₂.drop n := by
  constructor
  · rintro ⟨pre, post, heq⟩
    refine ⟨pre.length, ?_, post, ?_⟩
    · have := congrArg List.length heq
      simp only [List.length_append] at this
      omega
    · have hdrop : (pre ++ (l₁ ++ post)).drop pre.length = l₁ ++ post :=
        List.drop_left pre (l₁ ++ post)
      rw [← List.append_assoc] at hdrop
      rw [← heq]
      exact hdrop.symm
  · rintro ⟨n, _, r, hr⟩
    refine ⟨l₂.take n, r, ?_⟩
    rw [List.append_assoc, hr, List.take_append_drop]

theorem likeMatch_pct_infixOf (q : Str) (hq : ∀ c ∈ q, c ≠ '%' ∧ c ≠ '_')
    (s : Str) :
    likeMatch ('%' :: (q ++ ['%'])) s = true
      ↔ (q.map lowerA) <:+: (s.map lowerA) := by
  rw [show likeMatch ('%' :: (q ++ ['%'])) s
      = (List.range (s.length + 1)).any (fun n => likeMatch (q ++ ['%']) (s.drop n))
      from by simp [likeMatch]]
  rw [List.any_eq_true]
  rw [infix_iff_prefix_drop]
  constructor
  · rintro ⟨n, hn, hm⟩
    rw [List.mem_range] at hn
    refine ⟨n, by simpa using hn, ?_⟩
    rw [← List.map_drop]
    exact (likeMatch_lit_head q hq (s.drop n)).mp hm
  · rintro ⟨n, hn, hm⟩
    simp only [List.length_map] at hn
    refine ⟨n, List.mem_range.mpr (by omega), ?_⟩
    rw [← List.map_drop] at hm
    exact (likeMatch_lit_head q hq (s.drop n)).mpr hm

theorem isSubstr_iff_infixOf (q s : Str) : isSubstr q s = true ↔ q <:+: s := by
  induction s with
  | nil =>
    rw [show isSubstr q [] = q.isPrefixOf [] from by simp [isSubstr]]
    rw [List.isPrefixOf_iff_prefix, List.prefix_nil, List.infix_nil]
  | cons c s2 ih =>
    rw [show isSubstr q (c :: s2) = (q.isPrefixOf (c :: s2) || isSubstr q s2) from by
      simp [isSubstr]]
    rw [Bool.or_eq_true, List.isPrefixOf_iff_prefix, ih, List.infix_cons_iff]

theorem containsCI_iff (q s : Str) :
    containsCI q s = true ↔ (q.map lowerA) <:+: (s.map lowerA) := by
  unfold containsCI
  exact isSubstr_iff_infixOf _ _

theorem likeMatch_eq_containsCI (q : Str) (hq : ∀ c ∈ q, c ≠ '%' ∧ c ≠ '_')
    (s : Str) : likeMatch ('%' :: (q ++ ['%'])) s = containsCI q s := by
  have h1 := likeMatch_pct_infixOf q hq s
  have h2 := containsCI_iff q s
  cases hb : likeMatch ('%' :: (q ++ ['%'])) s with
  | true => exact (h2.mpr (h1.mp hb)).symm
  | false =>
    cases hc : containsCI q s with
    | true =>
      rw [hc] at h2
      rw [hb] at h1
      exact absurd (h1.mpr (h2.mp rfl)) (by simp)
    | false => rfl

theorem searchFallback_eq_substr (table : List FtsRow) (q : Str) (limit : Nat)
    (hq : ∀ c ∈ q, c ≠ '%' ∧ c ≠ '_') :
    searchFallback table q limit = substrFallback table q limit := by
  unfold searchFallback substrFallback
  rw [List.filter_congr (fun r _ => by
    rw [likeMatch_eq_containsCI q hq r.content, likeMatch_eq_containsCI q hq r.tags])]

/-- Claim C6, as stated, is false: the fallback interpolates the raw query
into the pattern `%query%`, so a query containing the `LIKE` wildcard `%` (or
`_`) over-matches relative to case-insensitive substring containment.  At the
rejected query `a%b`, a row whose content is `axb` is returned by the code's
fallback although `a%b` is not a substring of `axb`.  (Row fields are id,
type, content, tags, source, createdAt, updatedAt.) -/
theorem c6_counterexample :
    search (Except.error ())
        [(⟨str "r1", str "fact", str "axb", str "t", str "agent", str "c", str "u"⟩ : FtsRow)]
        (str "a%b") 5
      ≠ substrFallback
        [(⟨str "r1", str "fact", str "axb", str "t", str "agent", str "c", str "u"⟩ : FtsRow)]
        (str "a%b") 5 := by
  decide

/-- Claim C6 (amended): when the trimmed query is non-empty and SQLite rejects
the structured query's syntax (the `catch` path), `search` returns — without
throwing, being a total function of the table — exactly the rows whose
`content` or `tags` column contains the query as a case-insensitive substring,
each with the fixed neutral score 1 and the 120-character content snippet,
limited to `limit`, provided the query contains no `LIKE` wildcard (`%`, `_`).
-/
theorem c6_fallback_substring (table : List FtsRow) (q : Str) (limit : Nat)
    (htrim : jsTrim q ≠ []) (hq : ∀ c ∈ q, c ≠ '%' ∧ c ≠ '_') :
    search (Except.error ()) table q limit = substrFallback table q limit := by
  unfold search
  rw [if_neg htrim]
  exact searchFallback_eq_substr table q limit hq

/-- Witness for C6's amended theorem on a concrete table and query. -/
theorem c6_witness :
    (jsTrim (str "ab") ≠ [] ∧ ∀ c ∈ str "ab", c ≠ '%' ∧ c ≠ '_') ∧
    search (Except.error ())
        [(⟨str "r1", str "fact", str "xAby", str "t", str "agent", str "c", str "u"⟩ : FtsRow)]
        (str "ab") 5
      = substrFallback
        [(⟨str "r1", str "fact", str "xAby", str "t", str "agent", str "c", str "u"⟩ : FtsRow)]
        (str "ab") 5 :=
  ⟨⟨by decide, by decide⟩,
   c6_fallback_substring
     [(⟨str "r1", str "fact", str "xAby", str "t", str "agent", str "c", str "u"⟩ : FtsRow)]
     (str "ab") 5 (by decide) (by decide)⟩

/-! ### Store representation lemmas -/

theorem parseMd_of_repOk {st : MMState} {es : List MemoryEntry}
    {dls : List (Str × List MemoryEntry)} (h : RepOk st es dls) (pnow : Str) :
    parseMemoryMd pnow st.memoryMd = es := by
  obtain ⟨hwf, _, ⟨hts, hwts, hdisj⟩, _, _⟩ := h
  rcases hdisj with h1 | ⟨h1, h2⟩
  · rw [h1]
    exact parse_memoryMdStr pnow hts hwts es hwf
  · rw [h1, h2]
    exact parse_initialMemoryMd pnow hts hwts

theorem dailyParse_of_repOk {st : MMState} {es : List MemoryEntry}
    {dls : List (Str × List MemoryEntry)} (h : RepOk st es dls) (pnow : Str) :
    (st.daily.map (fun p => parseMemoryMd pnow p.2)).flatten
      = (dls.map (fun p => p.2)).flatten := by
  obtain ⟨_, hdwf, _, hd, _⟩ := h
  rw [hd, List.map_map]
  congr 1
  apply List.map_congr_left
  intro p hp
  exact parse_dailyStr pnow p.2 (hdwf p hp)

theorem readAll_of_repOk {st : MMState} {es : List MemoryEntry}
    {dls : List (Str × List MemoryEntry)} (h : RepOk st es dls) (pnow : Str) :
    readAllEntries pnow st = es ++ (dls.map (fun p => p.2)).flatten := by
  unfold readAllEntries
  rw [parseMd_of_repOk h pnow, dailyParse_of_repOk h pnow]

theorem allIds_of_repOk {st : MMState} {es : List MemoryEntry}
    {dls : List (Str × List MemoryEntry)} (h : RepOk st es dls) (pnow : Str) :
    allIds pnow st
      = (es ++ (dls.map (fun p => p.2)).flatten).map (fun e => e.id) := by
  unfold allIds
  rw [readAll_of_repOk h pnow]

theorem ltIds_of_repOk {st : MMState} {es : List MemoryEntry}
    {dls : List (Str × List MemoryEntry)} (h : RepOk st es dls) (pnow : Str) :
    ltIds pnow st = es.map (fun e => e.id) := by
  unfold ltIds
  rw [parseMd_of_repOk h pnow]

theorem dailyIds_of_repOk {st : MMState} {es : List MemoryEntry}
    {dls : List (Str × List MemoryEntry)} (h : RepOk st es dls) (pnow : Str) :
    dailyIds pnow st = ((dls.map (fun p => p.2)).flatten).map (fun e => e.id) := by
  unfold dailyIds
  rw [dailyParse_of_repOk h pnow]

theorem repOk_init (created pnow : Str) (hc : wfValue created = true) :
    RepOk (initState created pnow) [] [] := by
  refine ⟨by simp, by simp, ⟨created, hc, Or.inr ⟨rfl, rfl⟩⟩, rfl, by simp, by simp⟩

theorem repOk_rebuild {st : MMState} {es : List MemoryEntry}
    {dls : List (Str × List MemoryEntry)} (h : RepOk st es dls) (pnow : Str) :
    RepOk (rebuildIndex pnow st) es dls := h

theorem idxOk_rebuild {st : MMState} {es : List MemoryEntry}
    {dls : List (Str × List MemoryEntry)} (h : RepOk st es dls) (pnow : Str) :
    IdxOk (rebuildIndex pnow st) es dls := by
  unfold IdxOk rebuildIndex
  simp only []
  rw [readAll_of_repOk h pnow]

theorem repOk_init0 (created : Str) (hc : wfValue created = true) :
    RepOk (initState0 created) [] [] :=
  ⟨by simp, by simp, ⟨created, hc, Or.inr ⟨rfl, rfl⟩⟩, rfl, by simp, by simp⟩

theorem idxOk_init (created pnow : Str) (hc : wfValue created = true) :
    IdxOk (initState created pnow) [] [] :=
  idxOk_rebuild (repOk_init0 created hc) pnow

/-! ### The long-term upsert -/

theorem upsertList_nil (e : MemoryEntry) : upsertList [] e = [e] := by
  unfold upsertList
  rw [List.findIdx?_nil]
  rfl

theorem upsertList_cons (x : MemoryEntry) (es : List MemoryEntry)
    (e : MemoryEntry) :
    upsertList (x :: es) e
      = if x.id = e.id then e :: es else x :: upsertList es e := by
  unfold upsertList
  rw [List.findIdx?_cons]
  by_cases hx : x.id = e.id
  · simp [hx]
  · simp only [show (x.id == e.id) = false from beq_eq_false_iff_ne.mpr hx,
      if_false, List.findIdx?_succ, hx]
    cases h : es.findIdx? (fun q => q.id == e.id) 0 with
    | none => simp
    | some i => simp

theorem upsertList_subset (es : List MemoryEntry) (e : MemoryEntry) :
    ∀ x ∈ upsertList es e, x = e ∨ x ∈ es := by
  induction es with
  | nil =>
    rw [upsertList_nil]
    intro x hx
    simp at hx
    exact Or.inl hx
  | cons y es ih =>
    rw [upsertList_cons]
    by_cases hy : y.id = e.id
    · simp only [hy, if_true]
      intro x hx
      rcases List.mem_cons.mp hx with h | h
      · exact Or.inl h
      · exact Or.inr (List.mem_cons_of_mem y h)
    · simp only [hy, if_false]
      intro x hx
      rcases List.mem_cons.mp hx with h | h
      · exact Or.inr (h ▸ List.mem_cons_self y es)
      · rcases ih x h with h2 | h2
        · exact Or.inl h2
        · exact Or.inr (List.mem_cons_of_mem y h2)

theorem upsertList_map_id (es : List MemoryEntry) (e : MemoryEntry) :
    (upsertList es e).map (fun x => x.id)
      = if e.id ∈ es.map (fun x => x.id) then es.map (fun x => x.id)
        else es.map (fun x => x.id) ++ [e.id] := by
  induction es with
  | nil => simp [upsertList_nil]
  | cons y es ih =>
    rw [upsertList_cons]
    by_cases hy : y.id = e.id
    · simp [hy]
    · simp only [hy, if_false, List.map_cons, ih, List.mem_cons]
      by_cases hm : e.id ∈ es.map (fun x => x.id)
      · simp [hm, Ne.symm hy]
      · simp [hm, Ne.symm hy]

theorem upsertList_perm {es : List MemoryEntry}
    (hnd : (es.map (fun x => x.id)).Nodup) (e : MemoryEntry) :
    (upsertList es e).Perm
      (es.filter (fun x => !(x.id == e.id)) ++ [e]) := by
  induction es with
  | nil => simp [upsertList_nil]
  | cons y es ih =>
    rw [List.map_cons, List.nodup_cons] at hnd
    rw [upsertList_cons]
    by_cases hy : y.id = e.id
    · rw [if_pos hy]
      have h1 : es.filter (fun x => !(x.id == e.id)) = es := by
        rw [List.filter_eq_self]
        intro x hx
        simp only [Bool.not_eq_true', beq_eq_false_iff_ne]
        intro hxe
        apply hnd.1
        have hm : x.id ∈ es.map (fun q => q.id) := List.mem_map_of_mem _ hx
        rw [hxe, ← hy] at hm
        exact hm
      have hfe : (y :: es).filter (fun x => !(x.id == e.id)) = es := by
        simp [List.filter_cons, hy, h1]
      rw [hfe]
      exact (List.perm_append_singleton e es).symm
    · rw [if_neg hy]
      have hfc : (y :: es).filter (fun x => !(x.id == e.id))
          = y :: es.filter (fun x => !(x.id == e.id)) := by
        simp [List.filter_cons, hy]
      rw [hfc, List.cons_append]
      exact (ih hnd.2).cons y

/-! ### The entry built by a save -/

theorem saveEntry_type (st : MMState) (a : SaveArgs) :
    (saveEntry st a).type = a.rtype := rfl

theorem saveEntry_id (st : MMState) (a : SaveArgs) :
    (saveEntry st a).id = a.rid := rfl

theorem save_fst (cfg : Config) (st : MMState) (a : SaveArgs) :
    (save cfg st a).1 = saveEntry st a := rfl

theorem save_fact_case (cfg : Config) (st : MMState) (a : SaveArgs)
    (h : ¬ a.rtype = str "log") :
    (save cfg st a).2
      = indexUpsert (upsertLongTerm cfg a.now st (saveEntry st a))
          (saveEntry st a) := by
  unfold save
  simp only []
  rw [if_neg (show ¬ (saveEntry st a).type = str "log" from h)]

theorem wf_readAll {st : MMState} {es : List MemoryEntry}
    {dls : List (Str × List MemoryEntry)} (h : RepOk st es dls) (pnow : Str) :
    ∀ e ∈ readAllEntries pnow st, wfEntry e = true := by
  rw [readAll_of_repOk h pnow]
  intro e he
  rcases List.mem_append.mp he with h1 | h1
  · exact h.1 e h1
  · rw [List.mem_flatten] at h1
    obtain ⟨l, hl, hel⟩ := h1
    rw [List.mem_map] at hl
    obtain ⟨p, hp, rfl⟩ := hl
    exact h.2.1 p hp e hel

theorem trimStable_jsTrim (s : Str) : trimStable (jsTrim s) = true := by
  simp [trimStable, jsTrim_idem]

theorem safeSave_spec {st : MMState} {a : SaveArgs}
    (hs : safeSave st a = true) :
    wfValue a.rid = true ∧ wfValue a.rtype = true ∧ wfTags a.rtags = true ∧
    wfValue a.rsource = true ∧ wfValue a.now = true ∧ wfValue a.today = true ∧
    wfContent (jsTrim a.content) = true ∧
    (if a.rtype == str "log"
     then !(allIds a.now st).contains a.rid
     else !(dailyIds a.now st).contains a.rid) = true := by
  unfold safeSave at hs
  simp only [Bool.and_eq_true] at hs
  exact ⟨hs.1.1.1.1.1.1.1, hs.1.1.1.1.1.1.2, hs.1.1.1.1.1.2, hs.1.1.1.1.2,
    hs.1.1.1.2, hs.1.1.2, hs.1.2, hs.2⟩

theorem saveEntry_wf {st : MMState} {es : List MemoryEntry}
    {dls : List (Str × List MemoryEntry)} (hrep : RepOk st es dls)
    {a : SaveArgs} (hs : safeSave st a = true) :
    wfEntry (saveEntry st a) = true := by
  obtain ⟨h1, h2, h3, h4, h5, h6, h7, _⟩ := safeSave_spec hs
  have hcre : wfValue ((saveEntry st a).createdAt) = true := by
    show wfValue (((saveExisting st a).map (fun e => e.createdAt)).getD a.now)
      = true
    cases hex : saveExisting st a with
    | none => simpa using h5
    | some ex =>
      have hmem : ex ∈ readAllEntries a.now st := by
        unfold saveExisting at hex
        split at hex
        · split at hex
          · exact List.mem_of_find?_eq_some hex
          · exact absurd hex (by simp)
        · exact absurd hex (by simp)
      have hwf := wf_readAll hrep a.now ex hmem
      unfold wfEntry wfEntryCore at hwf
      simp only [Bool.and_eq_true] at hwf
      simpa using hwf.1.1.1.1.2
  unfold wfEntry wfEntryCore
  simp only [Bool.and_eq_true]
  refine ⟨⟨⟨⟨⟨⟨⟨h1, h2⟩, h3⟩, hcre⟩, h5⟩, h4⟩, h7⟩, ?_⟩
  show trimStable (jsTrim a.content) = true
  exact trimStable_jsTrim a.content

theorem jsSliceNeg_eq_self {α : Type} {k : Nat} {l : List α}
    (h : k = 0 ∨ l.length ≤ k) : jsSliceNeg k l = l := by
  unfold jsSliceNeg
  rcases h with h | h
  · simp [h]
  · by_cases hk : k = 0
    · simp [hk]
    · rw [if_neg hk, show l.length - k = 0 from by omega, List.drop_zero]

theorem lenOk_slice (cfg : Config) (l : List MemoryEntry) :
    LenOk cfg (jsSliceNeg cfg.maxFacts l) := by
  unfold LenOk jsSliceNeg
  by_cases hk : cfg.maxFacts = 0
  · exact Or.inl hk
  · right
    rw [if_neg hk, List.length_drop]
    omega

theorem jsSliceNeg_sublist {α : Type} (k : Nat) (l : List α) :
    (jsSliceNeg k l).Sublist l := by
  unfold jsSliceNeg
  by_cases hk : k = 0
  · simp [hk]
  · rw [if_neg hk]
    exact List.drop_sublist _ l

theorem mem_newLTof {cfg : Config} {es : List MemoryEntry}
    {e x : MemoryEntry} (hx : x ∈ newLTof cfg es e) : x = e ∨ x ∈ es := by
  unfold newLTof at hx
  have h1 : x ∈ (upsertList es e).insertionSort updRel :=
    (jsSliceNeg_sublist _ _).subset hx
  have h2 : x ∈ upsertList es e :=
    (List.perm_insertionSort updRel (upsertList es e)).subset h1
  exact upsertList_subset es e x h2

theorem upsertList_length (es : List MemoryEntry) (e : MemoryEntry) :
    (upsertList es e).length
      = if e.id ∈ es.map (fun x => x.id) then es.length
        else es.length + 1 := by
  have h := congrArg List.length (upsertList_map_id es e)
  rw [List.length_map] at h
  rw [h]
  by_cases hm : e.id ∈ es.map (fun x => x.id)
  · simp [hm]
  · simp [hm]

theorem newLTof_nodup_append {cfg : Config} {es : List MemoryEntry}
    {e : MemoryEntry} {B : List Str}
    (hnd : ((es.map (fun x => x.id)) ++ B).Nodup)
    (hfresh : e.id ∉ B) :
    (((newLTof cfg es e).map (fun x => x.id)) ++ B).Nodup := by
  rw [List.nodup_append] at hnd
  obtain ⟨hA, hB, hAB⟩ := hnd
  have hup : ((upsertList es e).map (fun x => x.id)).Nodup ∧
      ∀ x ∈ (upsertList es e).map (fun x => x.id), x ∉ B := by
    rw [upsertList_map_id]
    by_cases hm : e.id ∈ es.map (fun x => x.id)
    · rw [if_pos hm]
      exact ⟨hA, fun x hx => hAB hx⟩
    · rw [if_neg hm]
      constructor
      · rw [List.nodup_append]
        refine ⟨hA, List.nodup_singleton _, ?_⟩
        intro x hx hx1
        rw [List.mem_singleton] at hx1
        exact hm (hx1 ▸ hx)
      · intro x hx
        rcases List.mem_append.mp hx with h | h
        · exact hAB h
        · rw [List.mem_singleton] at h
          exact h ▸ hfresh
  have hperm : (((upsertList es e).insertionSort updRel).map
        (fun x => x.id)).Perm ((upsertList es e).map (fun x => x.id)) :=
    (List.perm_insertionSort _ _).map _
  have hsub : ((newLTof cfg es e).map (fun x => x.id)).Sublist
      (((upsertList es e).insertionSort updRel).map (fun x => x.id)) :=
    (jsSliceNeg_sublist _ _).map _
  refine List.nodup_append.mpr ⟨?_, hB, ?_⟩
  · exact hsub.nodup (hperm.nodup_iff.mpr hup.1)
  · intro x hx
    exact hup.2 x (hperm.subset (hsub.subset hx))

theorem indexUpsert_memoryMd (st : MMState) (e : MemoryEntry) :
    (indexUpsert st e).memoryMd = st.memoryMd := rfl

theorem indexUpsert_daily (st : MMState) (e : MemoryEntry) :
    (indexUpsert st e).daily = st.daily := rfl

theorem upsertLongTerm_daily (cfg : Config) (now : Str) (st : MMState)
    (e : MemoryEntry) : (upsertLongTerm cfg now st e).daily = st.daily := rfl

theorem upsertLongTerm_index (cfg : Config) (now : Str) (st : MMState)
    (e : MemoryEntry) : (upsertLongTerm cfg now st e).index = st.index := rfl

theorem saveFact_repOk {cfg : Config} {st : MMState} {es : List MemoryEntry}
    {dls : List (Str × List MemoryEntry)} (hrep : RepOk st es dls)
    {a : SaveArgs} (hs : safeSave st a = true)
    (hlog : ¬ a.rtype = str "log") :
    RepOk (save cfg st a).2 (newLTof cfg es (saveEntry st a)) dls := by
  obtain ⟨h1, h2, h3, h4, h5, h6, h7, h8⟩ := safeSave_spec hs
  rw [show (a.rtype == str "log") = false from beq_eq_false_iff_ne.mpr hlog]
    at h8
  simp only [Bool.false_eq_true, if_false, Bool.not_eq_true] at h8
  have hfresh : a.rid ∉ ((dls.map (fun p => p.2)).flatten).map
      (fun x => x.id) := by
    rw [← dailyIds_of_repOk hrep a.now]
    simpa using h8
  rw [save_fact_case cfg st a hlog]
  refine ⟨?_, hrep.2.1, ⟨a.now, h5, Or.inl ?_⟩, ?_, ?_, ?_⟩
  · intro x hx
    rcases mem_newLTof hx with h | h
    · exact h ▸ saveEntry_wf hrep hs
    · exact hrep.1 x h
  · rw [indexUpsert_memoryMd]
    show memoryMdStr a.now
        (newLTof cfg (parseMemoryMd a.now st.memoryMd) (saveEntry st a))
      = memoryMdStr a.now (newLTof cfg es (saveEntry st a))
    rw [parseMd_of_repOk hrep a.now]
  · rw [indexUpsert_daily, upsertLongTerm_daily]
    exact hrep.2.2.2.1
  · rw [List.map_append]
    have hnd := hrep.2.2.2.2.1
    rw [List.map_append] at hnd
    exact newLTof_nodup_append hnd (by simpa [saveEntry_id] using hfresh)
  · exact hrep.2.2.2.2.2

theorem saveFact_noDrop {cfg : Config} {st : MMState} {es : List MemoryEntry}
    {dls : List (Str × List MemoryEntry)} (hrep : RepOk st es dls)
    {a : SaveArgs} (hs : safeSaveStrong cfg st a = true)
    (hlog : ¬ a.rtype = str "log") (hlen : LenOk cfg es) :
    newLTof cfg es (saveEntry st a)
      = (upsertList es (saveEntry st a)).insertionSort updRel := by
  unfold safeSaveStrong at hs
  simp only [Bool.and_eq_true, Bool.or_eq_true] at hs
  have hstrong := hs.2
  rw [show (a.rtype == str "log") = false from beq_eq_false_iff_ne.mpr hlog]
    at hstrong
  simp only [Bool.false_eq_true, false_or] at hstrong
  apply jsSliceNeg_eq_self
  rw [(List.perm_insertionSort updRel
      (upsertList es (saveEntry st a))).length_eq, upsertList_length]
  by_cases hk : cfg.maxFacts = 0
  · exact Or.inl hk
  · right
    rcases hstrong with (hc | hc) | hc
    · have hmem : a.rid ∈ es.map (fun x => x.id) := by
        rw [← ltIds_of_repOk hrep a.now]
        simpa using hc
      rw [if_pos (by simpa [saveEntry_id] using hmem)]
      rcases hlen with h | h
      · exact absurd h hk
      · exact h
    · have hlel : (ltIds a.now st).length + 1 ≤ cfg.maxFacts := by
        simpa using hc
      rw [ltIds_of_repOk hrep a.now, List.length_map] at hlel
      by_cases hm : (saveEntry st a).id ∈ es.map (fun x => x.id)
      · rw [if_pos hm]; omega
      · rw [if_neg hm]; omega
    · exact absurd (by simpa using hc) hk

theorem saveFact_idxOk {cfg : Config} {st : MMState} {es : List MemoryEntry}
    {dls : List (Str × List MemoryEntry)} (hrep : RepOk st es dls)
    (hidx : IdxOk st es dls) {a : SaveArgs}
    (hs : safeSaveStrong cfg st a = true)
    (hlog : ¬ a.rtype = str "log") (hlen : LenOk cfg es) :
    IdxOk (save cfg st a).2 (newLTof cfg es (saveEntry st a)) dls := by
  have hsafe : safeSave st a = true := by
    have h := hs
    unfold safeSaveStrong at h
    simp only [Bool.and_eq_true] at h
    exact h.1
  obtain ⟨_, _, _, _, _, _, _, h8⟩ := safeSave_spec hsafe
  rw [show (a.rtype == str "log") = false from beq_eq_false_iff_ne.mpr hlog]
    at h8
  simp only [Bool.false_eq_true, if_false, Bool.not_eq_true] at h8
  have hfresh : ∀ x ∈ (dls.map (fun p => p.2)).flatten,
      (!(x.id == (saveEntry st a).id)) = true := by
    intro x hx
    simp only [Bool.not_eq_true', beq_eq_false_iff_ne, saveEntry_id]
    intro hxe
    have hmem : a.rid ∈ dailyIds a.now st := by
      rw [dailyIds_of_repOk hrep a.now]
      exact hxe ▸ List.mem_map_of_mem _ hx
    have hnotin : a.rid ∉ dailyIds a.now st := by simpa using h8
    exact hnotin hmem
  have hndL : (es.map (fun x => x.id)).Nodup := by
    have hnd := hrep.2.2.2.2.1
    rw [List.map_append, List.nodup_append] at hnd
    exact hnd.1
  set e := saveEntry st a with he
  set F := (dls.map (fun p => p.2)).flatten with hF
  unfold IdxOk
  rw [save_fact_case cfg st a hlog]
  show (st.index.filter (fun r => !(r.id == e.id)) ++ [rowOf e]).Perm
    ((newLTof cfg es e ++ F).map rowOf)
  have hstep1 : (st.index.filter (fun r => !(r.id == e.id))).Perm
      (((es ++ F).map rowOf).filter (fun r => !(r.id == e.id))) :=
    hidx.filter _
  have hstep2 : ((es ++ F).map rowOf).filter (fun r => !(r.id == e.id))
      = ((es ++ F).filter (fun x => !(x.id == e.id))).map rowOf :=
    List.filter_map rowOf (es ++ F)
  have hstep3 : (es ++ F).filter (fun x => !(x.id == e.id))
      = es.filter (fun x => !(x.id == e.id)) ++ F := by
    rw [List.filter_append, List.filter_eq_self.mpr hfresh]
  have htgt : (newLTof cfg es e).Perm
      (es.filter (fun x => !(x.id == e.id)) ++ [e]) := by
    rw [saveFact_noDrop hrep hs hlog hlen]
    exact (List.perm_insertionSort _ _).trans (upsertList_perm hndL e)
  have p1 : (st.index.filter (fun r => !(r.id == e.id)) ++ [rowOf e]).Perm
      (((es.filter (fun x => !(x.id == e.id)) ++ F).map rowOf)
        ++ [rowOf e]) := by
    apply List.Perm.append_right
    rw [← hstep3, ← hstep2]
    exact hstep1
  have p2 : ((((es.filter (fun x => !(x.id == e.id)) ++ F).map rowOf))
        ++ [rowOf e]).Perm
      (((es.filter (fun x => !(x.id == e.id)) ++ [e]).map rowOf)
        ++ F.map rowOf) := by
    simp only [List.map_append, List.map_singleton, List.append_assoc]
    exact List.Perm.append_left _ List.perm_append_comm
  have p3 : ((((es.filter (fun x => !(x.id == e.id)) ++ [e]).map rowOf))
        ++ F.map rowOf).Perm
      ((newLTof cfg es e ++ F).map rowOf) := by
    conv_rhs => rw [List.map_append]
    exact List.Perm.append_right _ ((htgt.map rowOf).symm)
  exact (p1.trans p2).trans p3

/-! ### Log saves -/

theorem any_map_general {α β : Type} (f : α → β) (l : List α)
    (p : β → Bool) :
    (l.map f).any p = l.any (fun x => p (f x)) := by
  induction l with
  | nil => rfl
  | cons x l ih => simp [ih]

theorem dailyStr_append_one (xs : List MemoryEntry) (e : MemoryEntry) :
    dailyStr (xs ++ [e]) = dailyStr xs ++ (serializeEntry e ++ ['\n']) := by
  simp [dailyStr]

theorem dailyStr_single (e : MemoryEntry) :
    dailyStr [e] = serializeEntry e ++ ['\n'] := by
  simp [dailyStr]

theorem appendDailyLog_memoryMd (todayS : Str) (st : MMState)
    (e : MemoryEntry) : (appendDailyLog todayS st e).memoryMd = st.memoryMd
    := rfl

theorem appendDailyLog_index (todayS : Str) (st : MMState)
    (e : MemoryEntry) : (appendDailyLog todayS st e).index = st.index := rfl

theorem appendDaily_daily {st : MMState} {dls : List (Str × List MemoryEntry)}
    (hd : st.daily = dls.map (fun p => (p.1, dailyStr p.2)))
    (todayS : Str) (e : MemoryEntry) :
    (appendDailyLog todayS st e).daily
      = (dlsAfterLog dls todayS e).map (fun p => (p.1, dailyStr p.2)) := by
  unfold appendDailyLog dlsAfterLog
  simp only []
  rw [hd]
  have hany : (dls.map (fun p => (p.1, dailyStr p.2))).any
        (fun p => p.1 == todayS)
      = dls.any (fun p => p.1 == todayS) := by
    rw [any_map_general]
  rw [hany]
  by_cases h : dls.any (fun p => p.1 == todayS) = true
  · rw [if_pos h, if_pos h, List.map_map, List.map_map]
    apply List.map_congr_left
    intro p hp
    by_cases hpt : p.1 = todayS
    · simp [Function.comp, hpt, dailyStr_append_one]
    · simp [Function.comp, hpt]
  · rw [if_neg h, if_neg h, List.map_append, List.map_singleton,
      dailyStr_single]

theorem flatten_update {dls : List (Str × List MemoryEntry)} {todayS : Str}
    (hdates : (dls.map (fun p => p.1)).Nodup)
    (h : dls.any (fun p => p.1 == todayS) = true) (e : MemoryEntry) :
    (((dls.map (fun p => if p.1 == todayS then (p.1, p.2 ++ [e]) else p)).map
        (fun p => p.2)).flatten).Perm
      ((dls.map (fun p => p.2)).flatten ++ [e]) := by
  induction dls with
  | nil => simp at h
  | cons p dls ih =>
    rw [List.map_cons, List.nodup_cons] at hdates
    by_cases hpt : p.1 = todayS
    · have htail : dls.map
          (fun q => if q.1 == todayS then (q.1, q.2 ++ [e]) else q) = dls := by
        have hid : dls.map
            (fun q => if q.1 == todayS then (q.1, q.2 ++ [e]) else q)
            = dls.map id := by
          apply List.map_congr_left
          intro q hq
          have hqt : ¬ q.1 = todayS := by
            intro hqt
            exact hdates.1 (hpt ▸ hqt ▸ List.mem_map_of_mem (fun r => r.1) hq)
          simp [hqt]
        rw [hid, List.map_id]
      rw [List.map_cons, show ((if p.1 == todayS
          then (p.1, p.2 ++ [e]) else p)) = (p.1, p.2 ++ [e]) from by
          simp [hpt],
        htail, List.map_cons, List.flatten_cons, List.map_cons,
        List.flatten_cons]
      rw [List.append_assoc, List.append_assoc]
      exact List.Perm.append_left _ List.perm_append_comm
    · have hh : dls.any (fun q => q.1 == todayS) = true := by
        rw [List.any_cons] at h
        rcases Bool.or_eq_true _ _ ▸ h with h1 | h1
        · exact absurd (by simpa using h1) hpt
        · exact h1
      rw [List.map_cons, show ((if p.1 == todayS
          then (p.1, p.2 ++ [e]) else p)) = p from by simp [hpt],
        List.map_cons, List.flatten_cons, List.map_cons, List.flatten_cons,
        List.append_assoc]
      exact List.Perm.append_left _ (ih hdates.2 hh)

theorem flatten_dlsAfterLog {dls : List (Str × List MemoryEntry)}
    (hdates : (dls.map (fun p => p.1)).Nodup) (todayS : Str)
    (e : MemoryEntry) :
    (((dlsAfterLog dls todayS e).map (fun p => p.2)).flatten).Perm
      ((dls.map (fun p => p.2)).flatten ++ [e]) := by
  unfold dlsAfterLog
  by_cases h : dls.any (fun p => p.1 == todayS) = true
  · rw [if_pos h]
    exact flatten_update hdates h e
  · rw [if_neg h, List.map_append, List.map_singleton, List.flatten_append]
    simp

theorem dates_dlsAfterLog (dls : List (Str × List MemoryEntry))
    (todayS : Str) (e : MemoryEntry) :
    (dlsAfterLog dls todayS e).map (fun p => p.1)
      = if dls.any (fun p => p.1 == todayS) then dls.map (fun p => p.1)
        else dls.map (fun p => p.1) ++ [todayS] := by
  unfold dlsAfterLog
  by_cases h : dls.any (fun p => p.1 == todayS) = true
  · rw [if_pos h, if_pos h, List.map_map]
    apply List.map_congr_left
    intro p hp
    by_cases hpt : p.1 = todayS
    · simp [Function.comp, hpt]
    · simp [Function.comp, hpt]
  · rw [if_neg h, if_neg h, List.map_append, List.map_singleton]

theorem dlsAfterLog_wf {dls : List (Str × List MemoryEntry)}
    (hwf : ∀ p ∈ dls, ∀ x ∈ p.2, wfEntry x = true) {e : MemoryEntry}
    (hwe : wfEntry e = true) (todayS : Str) :
    ∀ p ∈ dlsAfterLog dls todayS e, ∀ x ∈ p.2, wfEntry x = true := by
  unfold dlsAfterLog
  by_cases h : dls.any (fun p => p.1 == todayS) = true
  · rw [if_pos h]
    intro q hq
    rw [List.mem_map] at hq
    obtain ⟨p, hp, rfl⟩ := hq
    by_cases hpt : p.1 = todayS
    · rw [show ((if p.1 == todayS then (p.1, p.2 ++ [e]) else p))
          = (p.1, p.2 ++ [e]) from by simp [hpt]]
      intro x hx
      rcases List.mem_append.mp hx with h1 | h1
      · exact hwf p hp x h1
      · rw [List.mem_singleton] at h1
        exact h1 ▸ hwe
    · rw [show ((if p.1 == todayS then (p.1, p.2 ++ [e]) else p)) = p
          from by simp [hpt]]
      exact hwf p hp
  · rw [if_neg h]
    intro q hq
    rcases List.mem_append.mp hq with h1 | h1
    · exact hwf q h1
    · rw [List.mem_singleton] at h1
      subst h1
      intro x hx
      rw [List.mem_singleton] at hx
      exact hx ▸ hwe

theorem saveLog_repOk {cfg : Config} {st : MMState} {es : List MemoryEntry}
    {dls : List (Str × List MemoryEntry)} (hrep : RepOk st es dls)
    {a : SaveArgs} (hs : safeSave st a = true) (hlog : a.rtype = str "log") :
    RepOk (save cfg st a).2 es (dlsAfterLog dls a.today (saveEntry st a)) := by
  obtain ⟨h1, h2, h3, h4, h5, h6, h7, h8⟩ := safeSave_spec hs
  rw [show (a.rtype == str "log") = true from beq_iff_eq.mpr hlog] at h8
  simp only [if_true] at h8
  have hfresh : a.rid ∉ ((es ++ (dls.map (fun p => p.2)).flatten).map
      (fun x => x.id)) := by
    rw [← allIds_of_repOk hrep a.now]
    simpa using h8
  have hwe : wfEntry (saveEntry st a) = true := saveEntry_wf hrep hs
  rw [save_log_case cfg st a hlog]
  refine ⟨hrep.1, ?_, ?_, ?_, ?_, ?_⟩
  · exact dlsAfterLog_wf hrep.2.1 hwe a.today
  · obtain ⟨hts, hwts, hdisj⟩ := hrep.2.2.1
    exact ⟨hts, hwts, by
      rw [indexUpsert_memoryMd, appendDailyLog_memoryMd]
      exact hdisj⟩
  · rw [indexUpsert_daily, save_fst]
    exact appendDaily_daily hrep.2.2.2.1 a.today (saveEntry st a)
  · have hperm : ((es ++ ((dlsAfterLog dls a.today
          (saveEntry st a)).map (fun p => p.2)).flatten).map
          (fun x => x.id)).Perm
        (((es ++ (dls.map (fun p => p.2)).flatten).map (fun x => x.id))
          ++ [a.rid]) := by
      have hfl := flatten_dlsAfterLog hrep.2.2.2.2.2 a.today (saveEntry st a)
      have hp2 : (es ++ ((dlsAfterLog dls a.today
            (saveEntry st a)).map (fun p => p.2)).flatten).Perm
          ((es ++ (dls.map (fun p => p.2)).flatten) ++ [saveEntry st a]) := by
        rw [List.append_assoc]
        exact List.Perm.append_left es hfl
      have h9 := hp2.map (fun x => x.id)
      simp only [List.map_append, List.map_singleton, saveEntry_id] at h9 ⊢
      exact h9
    rw [hperm.nodup_iff]
    rw [List.nodup_append]
    refine ⟨hrep.2.2.2.2.1, List.nodup_singleton _, ?_⟩
    intro x hx hx1
    rw [List.mem_singleton] at hx1
    exact hfresh (hx1 ▸ hx)
  · rw [dates_dlsAfterLog]
    by_cases h : dls.any (fun p => p.1 == a.today) = true
    · rw [if_pos h]
      exact hrep.2.2.2.2.2
    · rw [if_neg h]
      rw [List.nodup_append]
      refine ⟨hrep.2.2.2.2.2, List.nodup_singleton _, ?_⟩
      intro x hx hx1
      rw [List.mem_singleton] at hx1
      subst hx1
      rw [List.any_eq_true] at h
      rw [List.mem_map] at hx
      obtain ⟨q, hq, hqx⟩ := hx
      exact h ⟨q, hq, by simp [hqx]⟩

theorem saveLog_idxOk {cfg : Config} {st : MMState} {es : List MemoryEntry}
    {dls : List (Str × List MemoryEntry)} (hrep : RepOk st es dls)
    (hidx : IdxOk st es dls) {a : SaveArgs} (hs : safeSave st a = true)
    (hlog : a.rtype = str "log") :
    IdxOk (save cfg st a).2 es (dlsAfterLog dls a.today (saveEntry st a)) := by
  obtain ⟨_, _, _, _, _, _, _, h8⟩ := safeSave_spec hs
  rw [show (a.rtype == str "log") = true from beq_iff_eq.mpr hlog] at h8
  simp only [if_true] at h8
  have hfresh : a.rid ∉ ((es ++ (dls.map (fun p => p.2)).flatten).map
      (fun x => x.id)) := by
    rw [← allIds_of_repOk hrep a.now]
    simpa using h8
  set e := saveEntry st a with he
  unfold IdxOk
  rw [save_log_case cfg st a hlog]
  show (st.index.filter (fun r => !(r.id == e.id)) ++ [rowOf e]).Perm _
  have hflt : st.index.filter (fun r => !(r.id == e.id)) = st.index := by
    rw [List.filter_eq_self]
    intro r hr
    have hrmem : r ∈ (es ++ (dls.map (fun p => p.2)).flatten).map rowOf :=
      hidx.subset hr
    rw [List.mem_map] at hrmem
    obtain ⟨x, hx, hxr⟩ := hrmem
    simp only [Bool.not_eq_true', beq_eq_false_iff_ne]
    intro hre
    apply hfresh
    have : x.id = a.rid := by
      rw [← saveEntry_id st a, ← he, ← hre, ← hxr]
      rfl
    exact this ▸ List.mem_map_of_mem (fun q => q.id) hx
  rw [hflt]
  have hp1 : (st.index ++ [rowOf e]).Perm
      (((es ++ (dls.map (fun p => p.2)).flatten).map rowOf) ++ [rowOf e]) :=
    List.Perm.append_right _ hidx
  have hfl := flatten_dlsAfterLog hrep.2.2.2.2.2 a.today e
  have hp2 : ((es ++ ((dlsAfterLog dls a.today e).map
        (fun p => p.2)).flatten).map rowOf).Perm
      (((es ++ (dls.map (fun p => p.2)).flatten).map rowOf) ++ [rowOf e]) := by
    have hp : (es ++ ((dlsAfterLog dls a.today e).map
          (fun p => p.2)).flatten).Perm
        ((es ++ (dls.map (fun p => p.2)).flatten) ++ [e]) := by
      rw [List.append_assoc]
      exact List.Perm.append_left es hfl
    have h9 := hp.map rowOf
    simp only [List.map_append, List.map_singleton] at h9 ⊢
    exact h9
  exact hp1.trans hp2.symm

/-! ### Forget -/

theorem filter_eq_self_of_no_id {es : List MemoryEntry} {id : Str}
    (h : ∀ e ∈ es, ¬ e.id = id) :
    es.filter (fun e => !(e.id == id)) = es := by
  rw [List.filter_eq_self]
  intro x hx
  simp only [Bool.not_eq_true', beq_eq_false_iff_ne]
  exact h x hx

theorem forget_not_found {st : MMState} {id now : Str}
    (h : ((parseMemoryMd now st.memoryMd).filter
        (fun e => !(e.id == id))).length
      = (parseMemoryMd now st.memoryMd).length) :
    forget st id now = (false, st) := by
  unfold forget
  rw [if_pos h]

theorem forget_found {st : MMState} {id now : Str}
    (h : ¬ ((parseMemoryMd now st.memoryMd).filter
        (fun e => !(e.id == id))).length
      = (parseMemoryMd now st.memoryMd).length) :
    forget st id now
      = (true,
         { st with
            memoryMd := memoryMdStr now
              ((parseMemoryMd now st.memoryMd).filter
                (fun e => !(e.id == id)))
            index := st.index.filter (fun r => !(r.id == id)) }) := by
  unfold forget
  rw [if_neg h]

theorem exists_of_filter_length_ne {es : List MemoryEntry} {id : Str}
    (h : ¬ (es.filter (fun e => !(e.id == id))).length = es.length) :
    ∃ x ∈ es, x.id = id := by
  by_contra hno
  push_neg at hno
  exact h (by rw [filter_eq_self_of_no_id hno])

theorem forget_repOk {st : MMState} {es : List MemoryEntry}
    {dls : List (Str × List MemoryEntry)} (hrep : RepOk st es dls)
    (id : Str) {now : Str} (hn : wfValue now = true) :
    RepOk (forget st id now).2 (es.filter (fun e => !(e.id == id))) dls := by
  have hparse := parseMd_of_repOk hrep now
  by_cases hlen : ((parseMemoryMd now st.memoryMd).filter
      (fun e => !(e.id == id))).length
      = (parseMemoryMd now st.memoryMd).length
  · rw [forget_not_found hlen]
    have heq : es.filter (fun e => !(e.id == id)) = es := by
      rw [hparse] at hlen
      exact (List.filter_sublist es).eq_of_length hlen
    rw [heq]
    exact hrep
  · rw [forget_found hlen]
    refine ⟨?_, hrep.2.1, ⟨now, hn, Or.inl ?_⟩, hrep.2.2.2.1, ?_,
      hrep.2.2.2.2.2⟩
    · intro x hx
      exact hrep.1 x ((List.filter_sublist es).subset hx)
    · show memoryMdStr now ((parseMemoryMd now st.memoryMd).filter
          (fun e => !(e.id == id)))
        = memoryMdStr now (es.filter (fun e => !(e.id == id)))
      rw [hparse]
    · have hsub : ((es.filter (fun e => !(e.id == id))
            ++ (dls.map (fun p => p.2)).flatten).map
            (fun e => e.id)).Sublist
          (((es ++ (dls.map (fun p => p.2)).flatten).map
            (fun e => e.id))) :=
        List.Sublist.map _ (List.Sublist.append (List.filter_sublist es)
          (List.Sublist.refl _))
      exact hsub.nodup hrep.2.2.2.2.1

theorem forget_idxOk {st : MMState} {es : List MemoryEntry}
    {dls : List (Str × List MemoryEntry)} (hrep : RepOk st es dls)
    (hidx : IdxOk st es dls) (id now : Str) :
    IdxOk (forget st id now).2 (es.filter (fun e => !(e.id == id))) dls := by
  have hparse := parseMd_of_repOk hrep now
  by_cases hlen : ((parseMemoryMd now st.memoryMd).filter
      (fun e => !(e.id == id))).length
      = (parseMemoryMd now st.memoryMd).length
  · rw [forget_not_found hlen]
    have heq : es.filter (fun e => !(e.id == id)) = es := by
      rw [hparse] at hlen
      exact (List.filter_sublist es).eq_of_length hlen
    rw [heq]
    exact hidx
  · rw [forget_found hlen]
    rw [hparse] at hlen
    obtain ⟨x, hxmem, hxid⟩ := exists_of_filter_length_ne hlen
    have hndF : id ∉ ((dls.map (fun p => p.2)).flatten).map
        (fun e => e.id) := by
      have hnd := hrep.2.2.2.2.1
      rw [List.map_append, List.nodup_append] at hnd
      exact hnd.2.2 (hxid ▸ List.mem_map_of_mem (fun e => e.id) hxmem)
    have hF : ((dls.map (fun p => p.2)).flatten).filter
        (fun e => !(e.id == id)) = (dls.map (fun p => p.2)).flatten := by
      apply filter_eq_self_of_no_id
      intro e he hei
      exact hndF (hei ▸ List.mem_map_of_mem (fun q => q.id) he)
    show (st.index.filter (fun r => !(r.id == id))).Perm _
    have h1 : (st.index.filter (fun r => !(r.id == id))).Perm
        (((es ++ (dls.map (fun p => p.2)).flatten).map rowOf).filter
          (fun r => !(r.id == id))) := hidx.filter _
    have h2 : ((es ++ (dls.map (fun p => p.2)).flatten).map rowOf).filter
          (fun r => !(r.id == id))
        = ((es ++ (dls.map (fun p => p.2)).flatten).filter
            (fun x => !(x.id == id))).map rowOf :=
      List.filter_map rowOf _
    rw [h2, List.filter_append, hF] at h1
    exact h1

/-! ### Operations that only touch the short-term window -/

theorem repOk_setShort (st : MMState) (w : List ShortTermMessage)
    (es : List MemoryEntry) (dls : List (Str × List MemoryEntry)) :
    RepOk { st with shortTerm := w } es dls ↔ RepOk st es dls := Iff.rfl

theorem idxOk_setShort (st : MMState) (w : List ShortTermMessage)
    (es : List MemoryEntry) (dls : List (Str × List MemoryEntry)) :
    IdxOk { st with shortTerm := w } es dls ↔ IdxOk st es dls := Iff.rfl

/-! ### Session flush -/

theorem flushArgs_rtype (st : MMState) (s : Option Str) (g n t : Str) :
    (flushArgs st s g n t).rtype = str "log" := rfl

theorem flushArgs_rid (st : MMState) (s : Option Str) (g n t : Str) :
    (flushArgs st s g n t).rid = g := rfl

theorem repOk_clearShort {st : MMState} {es : List MemoryEntry}
    {dls : List (Str × List MemoryEntry)} (h : RepOk st es dls) :
    RepOk (clearShortTerm st) es dls := h

theorem idxOk_clearShort {st : MMState} {es : List MemoryEntry}
    {dls : List (Str × List MemoryEntry)} (h : IdxOk st es dls) :
    IdxOk (clearShortTerm st) es dls := h

theorem safeFlush_safeSave {st : MMState} {s : Option Str} {g n t : Str}
    (h : safeFlush st s g n t = true) :
    safeSave st (flushArgs st s g n t) = true := by
  unfold safeFlush at h
  simp only [Bool.and_eq_true] at h
  obtain ⟨⟨⟨⟨⟨hg, hn⟩, ht⟩, htc⟩, hc⟩, hfr⟩ := h
  unfold safeSave
  simp only [Bool.and_eq_true]
  refine ⟨⟨⟨⟨⟨⟨⟨?_, ?_⟩, ?_⟩, ?_⟩, ?_⟩, ?_⟩, ?_⟩, ?_⟩
  · exact hg
  · show wfValue (str "log") = true
    decide
  · show wfTags [str "session-summary", t] = true
    unfold wfTags
    simp only [Bool.and_eq_true, List.all_cons, List.all_nil]
    refine ⟨rfl, by decide, ?_, trivial⟩
    unfold wfTag
    simp only [Bool.and_eq_true]
    exact ⟨ht, htc⟩
  · show wfValue (str "system") = true
    decide
  · exact hn
  · exact ht
  · exact hc
  · rw [show ((flushArgs st s g n t).rtype == str "log") = true from by
      show (str "log" == str "log") = true
      decide]
    simp only [if_true]
    show (!(allIds (flushArgs st s g n t).now st).contains
        (flushArgs st s g n t).rid) = true
    exact hfr

theorem flush_repOk {cfg : Config} {st : MMState} {es : List MemoryEntry}
    {dls : List (Str × List MemoryEntry)} (hrep : RepOk st es dls)
    {s : Option Str} {g n t : Str} (hf : safeFlush st s g n t = true) :
    RepOk (flushSession cfg st s g n t) es
      (dlsAfterLog dls t (saveEntry st (flushArgs st s g n t))) := by
  unfold flushSession
  exact repOk_clearShort
    (saveLog_repOk hrep (safeFlush_safeSave hf) (flushArgs_rtype st s g n t))

theorem flush_idxOk {cfg : Config} {st : MMState} {es : List MemoryEntry}
    {dls : List (Str × List MemoryEntry)} (hrep : RepOk st es dls)
    (hidx : IdxOk st es dls) {s : Option Str} {g n t : Str}
    (hf : safeFlush st s g n t = true) :
    IdxOk (flushSession cfg st s g n t) es
      (dlsAfterLog dls t (saveEntry st (flushArgs st s g n t))) := by
  unfold flushSession
  exact idxOk_clearShort
    (saveLog_idxOk hrep hidx (safeFlush_safeSave hf)
      (flushArgs_rtype st s g n t))

/-! ### Invariants along safe traces -/

theorem lenOk_newLTof (cfg : Config) (es : List MemoryEntry)
    (e : MemoryEntry) : LenOk cfg (newLTof cfg es e) :=
  lenOk_slice cfg ((upsertList es e).insertionSort updRel)

theorem lenOk_filter {cfg : Config} {es : List MemoryEntry}
    (h : LenOk cfg es) (p : MemoryEntry → Bool) :
    LenOk cfg (es.filter p) := by
  rcases h with h | h
  · exact Or.inl h
  · exact Or.inr (le_trans (List.length_filter_le p es) h)

theorem safeTrace_rep (cfg : Config) :
    ∀ (ops : List Op) (st : MMState) (es : List MemoryEntry)
      (dls : List (Str × List MemoryEntry)), RepOk st es dls →
      safeTrace cfg st ops = true →
      ∃ es2 dls2, RepOk (runOps cfg st ops) es2 dls2 := by
  intro ops
  induction ops with
  | nil =>
    intro st es dls hrep _
    exact ⟨es, dls, hrep⟩
  | cons op ops ih =>
    intro st es dls hrep hsafe
    simp only [safeTrace, Bool.and_eq_true] at hsafe
    have hstep : ∃ es2 dls2, RepOk (step cfg st op) es2 dls2 := by
      cases op with
      | opSave a =>
        have hs : safeSave st a = true := hsafe.1
        by_cases hlog : a.rtype = str "log"
        · exact ⟨es, _, saveLog_repOk hrep hs hlog⟩
        · exact ⟨_, dls, saveFact_repOk hrep hs hlog⟩
      | opForget id now =>
        have hn : wfValue now = true := hsafe.1
        exact ⟨_, dls, forget_repOk hrep id hn⟩
      | opFlush s g n t =>
        exact ⟨es, _, flush_repOk hrep hsafe.1⟩
      | opAddShort m =>
        exact ⟨es, dls, (repOk_setShort st _ es dls).mpr hrep⟩
    obtain ⟨es2, dls2, h2⟩ := hstep
    exact ih (step cfg st op) es2 dls2 h2 hsafe.2

theorem safeTraceStrong_inv (cfg : Config) :
    ∀ (ops : List Op) (st : MMState) (es : List MemoryEntry)
      (dls : List (Str × List MemoryEntry)), RepOk st es dls →
      IdxOk st es dls → LenOk cfg es →
      safeTraceStrong cfg st ops = true →
      ∃ es2 dls2, RepOk (runOps cfg st ops) es2 dls2 ∧
        IdxOk (runOps cfg st ops) es2 dls2 ∧ LenOk cfg es2 := by
  intro ops
  induction ops with
  | nil =>
    intro st es dls hrep hidx hlen _
    exact ⟨es, dls, hrep, hidx, hlen⟩
  | cons op ops ih =>
    intro st es dls hrep hidx hlen hsafe
    simp only [safeTraceStrong, Bool.and_eq_true] at hsafe
    have hstep : ∃ es2 dls2, RepOk (step cfg st op) es2 dls2 ∧
        IdxOk (step cfg st op) es2 dls2 ∧ LenOk cfg es2 := by
      cases op with
      | opSave a =>
        have hs : safeSaveStrong cfg st a = true := hsafe.1
        have hs0 : safeSave st a = true := by
          have h := hs
          unfold safeSaveStrong at h
          simp only [Bool.and_eq_true] at h
          exact h.1
        by_cases hlog : a.rtype = str "log"
        · exact ⟨es, _, saveLog_repOk hrep hs0 hlog,
            saveLog_idxOk hrep hidx hs0 hlog, hlen⟩
        · exact ⟨_, dls, saveFact_repOk hrep hs0 hlog,
            saveFact_idxOk hrep hidx hs hlog hlen,
            lenOk_newLTof cfg es (saveEntry st a)⟩
      | opForget id now =>
        have hn : wfValue now = true := hsafe.1
        exact ⟨_, dls, forget_repOk hrep id hn,
          forget_idxOk hrep hidx id now, lenOk_filter hlen _⟩
      | opFlush s g n t =>
        exact ⟨es, _, flush_repOk hrep hsafe.1,
          flush_idxOk hrep hidx hsafe.1, hlen⟩
      | opAddShort m =>
        exact ⟨es, dls, (repOk_setShort st _ es dls).mpr hrep,
          (idxOk_setShort st _ es dls).mpr hidx, hlen⟩
    obtain ⟨es2, dls2, h2, h3, h4⟩ := hstep
    exact ih (step cfg st op) es2 dls2 h2 h3 h4 hsafe.2

/-! ### Claims C1 and C2 -/

/-- Claim C2 as frozen is refuted: saving a log-kind entry twice with the
same explicit id appends two blocks with that id to today's daily file, so
`readAllEntries` of the reachable state holds two records with equal ids. -/
theorem c2_counterexample :
    ¬ (allIds (str "q") (runOps defaultConfig
        (initState (str "C") (str "p"))
        [Op.opSave
            { content := str "x", id? := some (str "i"),
              type? := some (str "log"), tags? := some [str "t"],
              source? := none, genId := str "g", now := str "n",
              today := str "d" },
         Op.opSave
            { content := str "x", id? := some (str "i"),
              type? := some (str "log"), tags? := some [str "t"],
              source? := none, genId := str "g", now := str "n",
              today := str "d" }])).Nodup := by
  decide

/-- Claim C2 (amended): along any trace of save, forget, flushSession and
short-term operations from the `init()` state in which every save of a
log-kind entry uses an id that is not already persisted anywhere (and every
non-log save an id not persisted in a daily file), and the well-formedness
side conditions of `safeTrace` hold, the ids returned by `readAllEntries()`
stay pairwise distinct across the long-term partition and all daily-log
partitions. -/
theorem c2_ids_pairwise_distinct (cfg : Config) {created : Str}
    (pnow : Str) (hc : wfValue created = true) (ops : List Op)
    (hsafe : safeTrace cfg (initState created pnow) ops = true)
    (qnow : Str) :
    (allIds qnow (runOps cfg (initState created pnow) ops)).Nodup := by
  obtain ⟨es2, dls2, hrep⟩ := safeTrace_rep cfg ops _ [] []
    (repOk_init created pnow hc) hsafe
  rw [allIds_of_repOk hrep qnow]
  exact hrep.2.2.2.2.1

/-- Witness for the amended C2 at a concrete one-save trace. -/
theorem c2_witness :
    wfValue (str "C") = true ∧
    safeTrace defaultConfig (initState (str "C") (str "p"))
      [Op.opSave
          { content := str "x", id? := none,
            type? := some (str "fact"), tags? := some [str "t"],
            source? := none, genId := str "g", now := str "n",
            today := str "d" }] = true ∧
    (allIds (str "q") (runOps defaultConfig
        (initState (str "C") (str "p"))
        [Op.opSave
            { content := str "x", id? := none,
              type? := some (str "fact"), tags? := some [str "t"],
              source? := none, genId := str "g", now := str "n",
              today := str "d" }])).Nodup :=
  ⟨by decide, by decide,
    c2_ids_pairwise_distinct defaultConfig (str "p") (by decide) _
      (by decide) (str "q")⟩

/-- Claim C1 as frozen is refuted: after the duplicate-id log save trace the
incrementally maintained index holds one row for the id (delete-then-insert)
while the store holds two records, so the index differs from a rebuild over
`readAllEntries()`. -/
theorem c1_counterexample :
    ¬ ((runOps defaultConfig (initState (str "C") (str "p"))
        [Op.opSave
            { content := str "y", id? := some (str "j"),
              type? := some (str "log"), tags? := some [str "u"],
              source? := none, genId := str "h", now := str "m",
              today := str "e" },
         Op.opSave
            { content := str "y", id? := some (str "j"),
              type? := some (str "log"), tags? := some [str "u"],
              source? := none, genId := str "h", now := str "m",
              today := str "e" }]).index).Perm
      ((rebuildIndex (str "q") (runOps defaultConfig
        (initState (str "C") (str "p"))
        [Op.opSave
            { content := str "y", id? := some (str "j"),
              type? := some (str "log"), tags? := some [str "u"],
              source? := none, genId := str "h", now := str "m",
              today := str "e" },
         Op.opSave
            { content := str "y", id? := some (str "j"),
              type? := some (str "log"), tags? := some [str "u"],
              source? := none, genId := str "h", now := str "m",
              today := str "e" }])).index) := by
  decide

/-- Claim C1 (amended): along any trace from the `init()` state whose
operations satisfy `safeTraceStrong` — fresh ids as in the amended C2, and
no save overflowing `MAX_FACTS` (so the silent `slice(-MAX_FACTS)` trim
drops nothing) — the incrementally maintained full-text index equals, as a
multiset of rows, the index a full rebuild over `readAllEntries()` would
produce. -/
theorem c1_index_matches_rebuild (cfg : Config) {created : Str}
    (pnow : Str) (hc : wfValue created = true) (ops : List Op)
    (hsafe : safeTraceStrong cfg (initState created pnow) ops = true)
    (qnow : Str) :
    ((runOps cfg (initState created pnow) ops).index).Perm
      ((rebuildIndex qnow (runOps cfg (initState created pnow) ops)).index)
    := by
  obtain ⟨es2, dls2, hrep, hidx, _⟩ := safeTraceStrong_inv cfg ops _ [] []
    (repOk_init created pnow hc) (idxOk_init created pnow hc)
    (Or.inr (by simp)) hsafe
  rw [show (rebuildIndex qnow (runOps cfg (initState created pnow)
        ops)).index
      = (readAllEntries qnow (runOps cfg (initState created pnow)
          ops)).map rowOf from rfl,
    readAll_of_repOk hrep qnow]
  exact hidx

/-- Witness for the amended C1 at a concrete one-save trace. -/
theorem c1_witness :
    wfValue (str "C") = true ∧
    safeTraceStrong defaultConfig (initState (str "C") (str "p"))
      [Op.opSave
          { content := str "y", id? := none,
            type? := some (str "fact"), tags? := some [str "u"],
            source? := none, genId := str "h", now := str "m",
            today := str "e" }] = true ∧
    ((runOps defaultConfig (initState (str "C") (str "p"))
        [Op.opSave
            { content := str "y", id? := none,
              type? := some (str "fact"), tags? := some [str "u"],
              source? := none, genId := str "h", now := str "m",
              today := str "e" }]).index).Perm
      ((rebuildIndex (str "q") (runOps defaultConfig
        (initState (str "C") (str "p"))
        [Op.opSave
            { content := str "y", id? := none,
              type? := some (str "fact"), tags? := some [str "u"],
              source? := none, genId := str "h", now := str "m",
              today := str "e" }])).index) :=
  ⟨by decide, by decide,
    c1_index_matches_rebuild defaultConfig (str "p") (by decide) _
      (by decide) (str "q")⟩

/-! ### Claim C9 -/

/-- Claim C9: over any state representing long-term partition `es` and daily
partitions `dls`, `forget(id)` returns `true` iff an entry with that id is in
the long-term partition; the resulting store holds exactly the long-term
entries with a different id plus every daily entry untouched (so daily
entries are never removed, whatever id is supplied); and on a `false` return
the state is completely unchanged. -/
theorem c9_forget_spec {st : MMState} {es : List MemoryEntry}
    {dls : List (Str × List MemoryEntry)} (hrep : RepOk st es dls)
    (id : Str) {now : Str} (hn : wfValue now = true) (qnow : Str) :
    readAllEntries qnow st = es ++ (dls.map (fun p => p.2)).flatten ∧
    ((forget st id now).1 = true ↔ id ∈ es.map (fun e => e.id)) ∧
    readAllEntries qnow (forget st id now).2
      = es.filter (fun e => !(e.id == id))
        ++ (dls.map (fun p => p.2)).flatten ∧
    ((forget st id now).1 = false → (forget st id now).2 = st) := by
  have hparse := parseMd_of_repOk hrep now
  refine ⟨readAll_of_repOk hrep qnow, ?_, ?_, ?_⟩
  · by_cases hlen : ((parseMemoryMd now st.memoryMd).filter
        (fun e => !(e.id == id))).length
        = (parseMemoryMd now st.memoryMd).length
    · rw [forget_not_found hlen]
      simp only [Bool.false_eq_true, false_iff]
      rw [hparse] at hlen
      have heq : es.filter (fun e => !(e.id == id)) = es :=
        (List.filter_sublist es).eq_of_length hlen
      intro hmem
      rw [List.mem_map] at hmem
      obtain ⟨x, hx, hxid⟩ := hmem
      have hx2 : x ∈ es.filter (fun e => !(e.id == id)) := by
        rw [heq]
        exact hx
      rw [List.mem_filter] at hx2
      rw [hxid] at hx2
      simp at hx2
    · rw [forget_found hlen]
      simp only [true_iff]
      rw [hparse] at hlen
      obtain ⟨x, hx, hxid⟩ := exists_of_filter_length_ne hlen
      exact hxid ▸ List.mem_map_of_mem (fun e => e.id) hx
  · exact readAll_of_repOk (forget_repOk hrep id hn) qnow
  · intro hfalse
    by_cases hlen : ((parseMemoryMd now st.memoryMd).filter
        (fun e => !(e.id == id))).length
        = (parseMemoryMd now st.memoryMd).length
    · rw [forget_not_found hlen]
    · rw [forget_found hlen] at hfalse
      simp at hfalse

/-- Witness for C9: a concrete store holding exactly one long-term entry,
forgetting its id. -/
theorem c9_witness :
    ((forget c9St (str "a") (str "T")).1 = true
      ↔ str "a" ∈ ([c9E].map (fun e => e.id))) ∧
    readAllEntries (str "q") (forget c9St (str "a") (str "T")).2
      = [c9E].filter (fun e => !(e.id == str "a"))
        ++ ((([] : List (Str × List MemoryEntry)).map
            (fun p => p.2)).flatten) := by
  have hrep : RepOk c9St [c9E] [] := by
    refine ⟨by decide, by decide, ⟨str "T", by decide, Or.inl rfl⟩, rfl,
      by decide, by decide⟩
  have h := c9_forget_spec hrep (str "a")
    (show wfValue (str "T") = true from by decide) (str "q")
  exact ⟨h.2.1, h.2.2.1⟩

/-! ### Claim C7 -/

theorem saveEntry_of_id_none {st : MMState} {a : SaveArgs}
    (h : a.id? = none) : saveEntry st a = freshEntry a := by
  unfold saveEntry freshEntry saveExisting SaveArgs.rid
  rw [h]
  rfl

/-- Claim C7 as frozen is refuted: `flushSession(some "")` keeps the empty
summary (`??` only replaces null/undefined), writes a block whose content is
blank, and the parser skips blank-content blocks — so `readAllEntries()` of
the resulting store gains no entry at all, not exactly one. -/
theorem c7_counterexample :
    readAllEntries (str "q") (flushSession defaultConfig
        (initState (str "C") (str "p")) (some (str "")) (str "g")
        (str "n") (str "d"))
      = ([] : List MemoryEntry) := by
  decide

/-- Claim C7 (amended): over any state representing partitions `es`/`dls`,
when the flush is safe — well-formed clock and id reads, a comma-free date
and a summary whose trimmed text is non-blank (which rules out the empty
string but holds for every synthesized summary, including "Empty session."
on an empty window) — `flushSession` adds exactly one new entry to the
store: a log-kind entry tagged `session-summary` and today's date, sourced
`system`, holding the trimmed summary, and it empties the short-term
window; with no summary argument and an empty window the entry reads
"Empty session.". -/
theorem c7_flush_adds_summary {cfg : Config} {st : MMState}
    {es : List MemoryEntry} {dls : List (Str × List MemoryEntry)}
    (hrep : RepOk st es dls) {s : Option Str} {g n t : Str}
    (hf : safeFlush st s g n t = true) (qnow : Str) :
    (readAllEntries qnow (flushSession cfg st s g n t)).Perm
      (readAllEntries qnow st ++ [freshEntry (flushArgs st s g n t)]) ∧
    (freshEntry (flushArgs st s g n t)).type = str "log" ∧
    (freshEntry (flushArgs st s g n t)).tags
      = [str "session-summary", t] ∧
    (freshEntry (flushArgs st s g n t)).source = str "system" ∧
    (freshEntry (flushArgs st s g n t)).content
      = jsTrim (s.getD (synthSummary st.shortTerm)) ∧
    (flushSession cfg st s g n t).shortTerm = [] ∧
    (s = none → st.shortTerm = [] →
      (freshEntry (flushArgs st s g n t)).content
        = str "Empty session.") := by
  have hrep2 := @flush_repOk cfg st es dls hrep s g n t hf
  rw [saveEntry_of_id_none (rfl : (flushArgs st s g n t).id? = none)]
    at hrep2
  refine ⟨?_, rfl, rfl, rfl, rfl, rfl, ?_⟩
  · rw [readAll_of_repOk hrep2 qnow, readAll_of_repOk hrep qnow]
    have hfl := flatten_dlsAfterLog hrep.2.2.2.2.2 t
      (freshEntry (flushArgs st s g n t))
    have := List.Perm.append_left es hfl
    rw [← List.append_assoc] at this
    exact this
  · intro hs hw
    show jsTrim (flushArgs st s g n t).content = str "Empty session."
    show jsTrim (s.getD (synthSummary st.shortTerm)) = str "Empty session."
    rw [hs, hw]
    decide

/-- Witness for the amended C7: flushing the pristine `init()` state with no
summary argument and an empty window. -/
theorem c7_witness :
    safeFlush (initState (str "C") (str "p")) none (str "g") (str "n")
      (str "d") = true ∧
    (readAllEntries (str "q") (flushSession defaultConfig
        (initState (str "C") (str "p")) none (str "g") (str "n")
        (str "d"))).Perm
      (readAllEntries (str "q") (initState (str "C") (str "p"))
        ++ [freshEntry (flushArgs (initState (str "C") (str "p")) none
              (str "g") (str "n") (str "d"))]) ∧
    (freshEntry (flushArgs (initState (str "C") (str "p")) none (str "g")
        (str "n") (str "d"))).content = str "Empty session." := by
  have hrep : RepOk (initState (str "C") (str "p")) [] [] :=
    repOk_init (str "C") (str "p") (by decide)
  have h := @c7_flush_adds_summary defaultConfig
    (initState (str "C") (str "p")) [] [] hrep none (str "g") (str "n")
    (str "d")
    (show safeFlush (initState (str "C") (str "p")) none (str "g")
        (str "n") (str "d") = true from by decide) (str "q")
  exact ⟨by decide, h.1, h.2.2.2.2.2.2 rfl rfl⟩

/-! ### Claim C5 -/

theorem rid_of_some {a : SaveArgs} {i : Str} (h : a.id? = some i) :
    a.rid = i := by
  unfold SaveArgs.rid
  rw [h]
  rfl

theorem find?_unique_id {l : List MemoryEntry} {x : MemoryEntry}
    (hnd : (l.map (fun e => e.id)).Nodup) (hx : x ∈ l) {i : Str}
    (hxi : x.id = i) : l.find? (fun e => e.id == i) = some x := by
  induction l with
  | nil => simp at hx
  | cons y l ih =>
    rw [List.map_cons, List.nodup_cons] at hnd
    rcases List.mem_cons.mp hx with h | h
    · subst h
      exact List.find?_cons_of_pos l (by simp [hxi])
    · have hyne : (y.id == i) = false := by
        rw [beq_eq_false_iff_ne]
        intro hyi
        exact hnd.1 (hyi ▸ hxi ▸ List.mem_map_of_mem (fun e => e.id) h)
      rw [List.find?_cons_of_neg l (by simp [hyne])]
      exact ih hnd.2 h

theorem filter_unique_id {l : List MemoryEntry} {x : MemoryEntry}
    (hnd : (l.map (fun e => e.id)).Nodup) (hx : x ∈ l) {i : Str}
    (hxi : x.id = i) : l.filter (fun e => e.id == i) = [x] := by
  induction l with
  | nil => simp at hx
  | cons y l ih =>
    rw [List.map_cons, List.nodup_cons] at hnd
    rw [List.filter_cons]
    rcases List.mem_cons.mp hx with h | h
    · subst h
      rw [if_pos (by simp [hxi])]
      have hrest : l.filter (fun e => e.id == i) = [] := by
        rw [List.filter_eq_nil_iff]
        intro y hy
        simp only [beq_iff_eq]
        intro hyi
        exact hnd.1 (hxi ▸ hyi ▸ List.mem_map_of_mem (fun e => e.id) hy)
      rw [hrest]
    · have hyne : (y.id == i) = false := by
        rw [beq_eq_false_iff_ne]
        intro hyi
        exact hnd.1 (hyi ▸ hxi ▸ List.mem_map_of_mem (fun e => e.id) h)
      rw [hyne]
      simp only [Bool.false_eq_true, if_false]
      exact ih hnd.2 h

theorem save_fact_daily {cfg : Config} {st : MMState} {a : SaveArgs}
    (h : ¬ a.rtype = str "log") : (save cfg st a).2.daily = st.daily := by
  rw [save_fact_case cfg st a h]
  rfl

theorem mem_newLTof_self {cfg : Config} {st : MMState}
    {es : List MemoryEntry} {dls : List (Str × List MemoryEntry)}
    (hrep : RepOk st es dls) {a : SaveArgs}
    (hs : safeSaveStrong cfg st a = true) (hlog : ¬ a.rtype = str "log")
    (hlen : LenOk cfg es) :
    saveEntry st a ∈ newLTof cfg es (saveEntry st a) := by
  rw [saveFact_noDrop hrep hs hlog hlen]
  have hndL : (es.map (fun x => x.id)).Nodup := by
    have hnd := hrep.2.2.2.2.1
    rw [List.map_append, List.nodup_append] at hnd
    exact hnd.1
  rw [(List.perm_insertionSort updRel
      (upsertList es (saveEntry st a))).mem_iff,
    (upsertList_perm hndL (saveEntry st a)).mem_iff]
  exact List.mem_append.mpr (Or.inr (List.mem_singleton.mpr rfl))

/-- Claim C5 (amended): over any represented store, saving twice with the
same explicit id and the same content — the first save fresh and within the
`MAX_FACTS` budget, both saves non-log with well-formed fields (in
particular a non-empty tag list, since the empty default corrupts the block
on disk, see C3) — leaves exactly one entry with that id in
`readAllEntries()`; its `createdAt` is the one the first save assigned, its
content is the trimmed common content, and `updatedAt` follows the clock
monotonically across the two calls. -/
theorem c5_save_twice {cfg : Config} {st : MMState} {es : List MemoryEntry}
    {dls : List (Str × List MemoryEntry)} (hrep : RepOk st es dls)
    (hlen : LenOk cfg es) {i : Str} (hne : i ≠ [])
    {a1 a2 : SaveArgs} (ha1 : a1.id? = some i) (ha2 : a2.id? = some i)
    (hlog1 : ¬ a1.rtype = str "log") (hlog2 : ¬ a2.rtype = str "log")
    (hs1 : safeSaveStrong cfg st a1 = true) (hs2 : safeSave st a2 = true)
    (hfresh : i ∉ (es ++ (dls.map (fun p => p.2)).flatten).map
        (fun e => e.id))
    (hcont : a2.content = a1.content) (hmono : a1.now ≤ a2.now)
    (qnow : Str) :
    (readAllEntries qnow (save cfg (save cfg st a1).2 a2).2).filter
        (fun e => e.id == i)
      = [(save cfg (save cfg st a1).2 a2).1] ∧
    (save cfg (save cfg st a1).2 a2).1.createdAt = a1.now ∧
    (save cfg (save cfg st a1).2 a2).1.content = jsTrim a1.content ∧
    (save cfg st a1).1.updatedAt = a1.now ∧
    (save cfg (save cfg st a1).2 a2).1.updatedAt = a2.now ∧
    (save cfg st a1).1.updatedAt
      ≤ (save cfg (save cfg st a1).2 a2).1.updatedAt := by
  have hs1' : safeSave st a1 = true := by
    have h := hs1
    unfold safeSaveStrong at h
    simp only [Bool.and_eq_true] at h
    exact h.1
  have hex1 : saveExisting st a1 = none := by
    have hge : getEntry a1.now st i = none := by
      unfold getEntry
      rw [List.find?_eq_none]
      intro x hx
      simp only [beq_iff_eq]
      intro hxi
      apply hfresh
      rw [readAll_of_repOk hrep a1.now] at hx
      exact hxi ▸ List.mem_map_of_mem (fun e => e.id) hx
    show (match a1.id? with
      | some j => if j ≠ [] then getEntry a1.now st j else none
      | none => none) = none
    rw [ha1]
    simp [hne, hge]
  have hcre1 : (saveEntry st a1).createdAt = a1.now := by
    show ((saveExisting st a1).map (fun e => e.createdAt)).getD a1.now
      = a1.now
    rw [hex1]
    rfl
  have hid1 : (saveEntry st a1).id = i := by
    rw [saveEntry_id, rid_of_some ha1]
  have hrep1 := @saveFact_repOk cfg st es dls hrep a1 hs1' hlog1
  have hlen1 : LenOk cfg (newLTof cfg es (saveEntry st a1)) :=
    lenOk_newLTof cfg es (saveEntry st a1)
  have hmem1 : saveEntry st a1 ∈ newLTof cfg es (saveEntry st a1) :=
    mem_newLTof_self hrep hs1 hlog1 hlen
  have hdaily1 : (save cfg st a1).2.daily = st.daily := save_fact_daily hlog1
  have hs2' : safeSave (save cfg st a1).2 a2 = true := by
    unfold safeSave at hs2 ⊢
    simp only [Bool.and_eq_true] at hs2 ⊢
    refine ⟨hs2.1, ?_⟩
    have h8 := hs2.2
    rw [show (a2.rtype == str "log") = false from
      beq_eq_false_iff_ne.mpr hlog2] at h8 ⊢
    simp only [Bool.false_eq_true, if_false] at h8 ⊢
    have hd : dailyIds a2.now (save cfg st a1).2 = dailyIds a2.now st := by
      unfold dailyIds
      rw [hdaily1]
    rw [hd]
    exact h8
  have hcontains : (ltIds a2.now (save cfg st a1).2).contains a2.rid
      = true := by
    rw [ltIds_of_repOk hrep1 a2.now]
    have : a2.rid ∈ (newLTof cfg es (saveEntry st a1)).map
        (fun e => e.id) := by
      rw [rid_of_some ha2, ← hid1]
      exact List.mem_map_of_mem (fun e => e.id) hmem1
    simpa using this
  have hstrong2 : safeSaveStrong cfg (save cfg st a1).2 a2 = true := by
    unfold safeSaveStrong
    simp only [Bool.and_eq_true, Bool.or_eq_true]
    exact ⟨hs2', Or.inl (Or.inl (Or.inr hcontains))⟩
  have hex2 : saveExisting (save cfg st a1).2 a2 = some (saveEntry st a1)
      := by
    have hge : getEntry a2.now (save cfg st a1).2 i
        = some (saveEntry st a1) := by
      unfold getEntry
      rw [readAll_of_repOk hrep1 a2.now]
      exact find?_unique_id hrep1.2.2.2.2.1
        (List.mem_append.mpr (Or.inl hmem1)) hid1
    show (match a2.id? with
      | some j => if j ≠ [] then getEntry a2.now (save cfg st a1).2 j
                  else none
      | none => none) = some (saveEntry st a1)
    rw [ha2]
    simp [hne, hge]
  have hcre2 : (saveEntry (save cfg st a1).2 a2).createdAt = a1.now := by
    show ((saveExisting (save cfg st a1).2 a2).map
        (fun e => e.createdAt)).getD a2.now = a1.now
    rw [hex2]
    show (saveEntry st a1).createdAt = a1.now
    exact hcre1
  have hid2 : (saveEntry (save cfg st a1).2 a2).id = i := by
    rw [saveEntry_id, rid_of_some ha2]
  have hrep2 := @saveFact_repOk cfg (save cfg st a1).2
    (newLTof cfg es (saveEntry st a1)) dls hrep1 a2 hs2' hlog2
  have hmem2 : saveEntry (save cfg st a1).2 a2
      ∈ newLTof cfg (newLTof cfg es (saveEntry st a1))
          (saveEntry (save cfg st a1).2 a2) :=
    mem_newLTof_self hrep1 hstrong2 hlog2 hlen1
  refine ⟨?_, hcre2, ?_, rfl, rfl, hmono⟩
  · rw [readAll_of_repOk hrep2 qnow]
    exact filter_unique_id hrep2.2.2.2.2.1
      (List.mem_append.mpr (Or.inl hmem2)) hid2
  · show jsTrim a2.content = jsTrim a1.content
    rw [hcont]

/-- Claim C5 as frozen is refuted: with the default empty tag list the first
save writes a `tags: ` line the parser rejects, the block degenerates to
content, and the re-parsed entry's `createdAt` re-defaults to the second
call's clock — the first save assigns `createdAt = A`, yet after the second
save (same id, same content) the stored `createdAt` is no longer `A`. -/
theorem c5_counterexample :
    (save defaultConfig (initState (str "C") (str "p")) c5B1).1.createdAt
      = str "A" ∧
    ¬ ((save defaultConfig
          (save defaultConfig (initState (str "C") (str "p")) c5B1).2
          c5B2).1.createdAt = str "A") := by
  constructor
  · decide
  · decide

/-- Witness for the amended C5 at the concrete well-tagged double save. -/
theorem c5_witness :
    safeSaveStrong defaultConfig (initState (str "C") (str "p")) c5A1
      = true ∧
    ((readAllEntries (str "q") (save defaultConfig
          (save defaultConfig (initState (str "C") (str "p")) c5A1).2
          c5A2).2).filter (fun e => e.id == str "x")
        = [(save defaultConfig
            (save defaultConfig (initState (str "C") (str "p")) c5A1).2
            c5A2).1] ∧
      (save defaultConfig
          (save defaultConfig (initState (str "C") (str "p")) c5A1).2
          c5A2).1.createdAt = c5A1.now ∧
      (save defaultConfig
          (save defaultConfig (initState (str "C") (str "p")) c5A1).2
          c5A2).1.content = jsTrim c5A1.content ∧
      (save defaultConfig (initState (str "C") (str "p")) c5A1).1.updatedAt
        = c5A1.now ∧
      (save defaultConfig
          (save defaultConfig (initState (str "C") (str "p")) c5A1).2
          c5A2).1.updatedAt = c5A2.now ∧
      (save defaultConfig (initState (str "C") (str "p")) c5A1).1.updatedAt
        ≤ (save defaultConfig
            (save defaultConfig (initState (str "C") (str "p")) c5A1).2
            c5A2).1.updatedAt) :=
  ⟨by decide,
    @c5_save_twice defaultConfig (initState (str "C") (str "p")) [] []
      (repOk_init (str "C") (str "p") (by decide)) (Or.inr (by decide))
      (str "x") (by decide) c5A1 c5A2 rfl rfl (by decide) (by decide)
      (by decide) (by decide) (by decide) rfl (by decide) (str "q")⟩

/-! ### Claim C4 -/

theorem upsertList_append_of_not_mem {es : List MemoryEntry}
    {e : MemoryEntry} (h : e.id ∉ es.map (fun x => x.id)) :
    upsertList es e = es ++ [e] := by
  induction es with
  | nil => exact upsertList_nil e
  | cons y es ih =>
    rw [List.map_cons, List.mem_cons] at h
    push_neg at h
    rw [upsertList_cons, if_neg (fun hy => h.1 hy.symm), ih h.2,
      List.cons_append]

theorem suffix_eq_drop {α : Type} {s X : List α} (h : s <:+ X) :
    s = X.drop (X.length - s.length) := by
  obtain ⟨t, rfl⟩ := h
  rw [List.length_append, show t.length + s.length - s.length = t.length
    from by omega, List.drop_left]

theorem jsSliceNeg_suffix {α : Type} (k : Nat) (l : List α) :
    (jsSliceNeg k l) <:+ l := by
  unfold jsSliceNeg
  by_cases hk : k = 0
  · simp [hk]
  · rw [if_neg hk]
    exact List.drop_suffix _ l

theorem jsSliceNeg_length {α : Type} {k : Nat} (hk : ¬ k = 0)
    (l : List α) : (jsSliceNeg k l).length = min k l.length := by
  unfold jsSliceNeg
  rw [if_neg hk, List.length_drop]
  omega

theorem jsSliceNeg_append_absorb {α : Type} (k : Nat) (A B : List α) :
    jsSliceNeg k (jsSliceNeg k A ++ B) = jsSliceNeg k (A ++ B) := by
  by_cases hk : k = 0
  · subst hk
    show jsSliceNeg 0 (jsSliceNeg 0 A ++ B) = _
    unfold jsSliceNeg
    simp
  · have h1 : (jsSliceNeg k (jsSliceNeg k A ++ B)) <:+ (A ++ B) := by
      refine (jsSliceNeg_suffix k _).trans ?_
      obtain ⟨t, ht⟩ := jsSliceNeg_suffix k A
      exact ⟨t, by rw [← List.append_assoc, ht]⟩
    have h2 := suffix_eq_drop h1
    have h3 := suffix_eq_drop (jsSliceNeg_suffix k (A ++ B))
    have hlen : (jsSliceNeg k (jsSliceNeg k A ++ B)).length
        = (jsSliceNeg k (A ++ B)).length := by
      rw [jsSliceNeg_length hk, jsSliceNeg_length hk, List.length_append,
        List.length_append, jsSliceNeg_length hk]
      omega
    rw [h2, h3, hlen]

theorem jsSliceNeg_idem {α : Type} (k : Nat) (l : List α) :
    jsSliceNeg k (jsSliceNeg k l) = jsSliceNeg k l := by
  have h := jsSliceNeg_append_absorb k l []
  rwa [List.append_nil, List.append_nil] at h

theorem factArgs_spec {a : SaveArgs} (h : factArgs a = true) :
    a.id? = none ∧ ¬ a.rtype = str "log" ∧ wfValue a.genId = true ∧
    wfValue a.rtype = true ∧ wfTags a.rtags = true ∧
    wfValue a.rsource = true ∧ wfValue a.now = true ∧
    wfContent (jsTrim a.content) = true := by
  unfold factArgs at h
  simp only [Bool.and_eq_true] at h
  refine ⟨?_, ?_, h.1.1.1.1.1.2, h.1.1.1.1.2, h.1.1.1.2, h.1.1.2, h.1.2,
    h.2⟩
  · have := h.1.1.1.1.1.1.1
    simpa using this
  · have := h.1.1.1.1.1.1.2
    simp only [Bool.not_eq_true'] at this
    exact beq_eq_false_iff_ne.mp this

theorem freshEntry_wf {a : SaveArgs} (h : factArgs a = true) :
    wfEntry (freshEntry a) = true := by
  obtain ⟨_, _, h3, h4, h5, h6, h7, h8⟩ := factArgs_spec h
  unfold wfEntry wfEntryCore
  simp only [Bool.and_eq_true]
  exact ⟨⟨⟨⟨⟨⟨⟨h3, h4⟩, h5⟩, h7⟩, h7⟩, h6⟩, h8⟩, trimStable_jsTrim _⟩

theorem runFactSaves (cfg : Config) :
    ∀ (L : List SaveArgs) (st : MMState) (es : List MemoryEntry),
      (∀ r, parseMemoryMd r st.memoryMd = es) →
      (∀ e ∈ es, wfEntry e = true) →
      List.Sorted updRel es →
      jsSliceNeg cfg.maxFacts es = es →
      (∀ a ∈ L, factArgs a = true) →
      ((es.map (fun e => e.id)) ++ (L.map (fun a => a.genId))).Nodup →
      (∀ e ∈ es, ∀ a ∈ L, e.updatedAt ≤ a.now) →
      List.Pairwise (fun x y : SaveArgs => x.now ≤ y.now) L →
      (∀ r, parseMemoryMd r
          (runOps cfg st (L.map Op.opSave)).memoryMd
        = jsSliceNeg cfg.maxFacts (es ++ L.map freshEntry)) := by
  intro L
  induction L with
  | nil =>
    intro st es hparse hwf hsort hfit _ _ _ _ r
    simp only [List.map_nil, List.append_nil]
    show parseMemoryMd r st.memoryMd = _
    rw [hparse r, hfit]
  | cons a L ih =>
    intro st es hparse hwf hsort hfit hargs hnd hle hpair
    obtain ⟨ha1, ha2, ha3, ha4, ha5, ha6, ha7, ha8⟩ :=
      factArgs_spec (hargs a (List.mem_cons_self a L))
    have hse : saveEntry st a = freshEntry a := saveEntry_of_id_none ha1
    have hfreshid : (freshEntry a).id ∉ es.map (fun x => x.id) := by
      intro hmem
      have hnd2 := hnd
      rw [List.map_cons, List.nodup_append] at hnd2
      exact hnd2.2.2 hmem (List.mem_cons_self _ _)
    have hup : upsertList es (freshEntry a) = es ++ [freshEntry a] :=
      upsertList_append_of_not_mem hfreshid
    have hsorted2 : List.Sorted updRel (es ++ [freshEntry a]) := by
      rw [List.Sorted, List.pairwise_append]
      refine ⟨hsort, List.pairwise_singleton _ _, ?_⟩
      intro x hx y hy
      rw [List.mem_singleton] at hy
      subst hy
      exact hle x hx a (List.mem_cons_self a L)
    have hlt : newLTof cfg es (freshEntry a)
        = jsSliceNeg cfg.maxFacts (es ++ [freshEntry a]) := by
      unfold newLTof
      rw [hup, hsorted2.insertionSort_eq]
    have hmd : (runOps cfg st ((a :: L).map Op.opSave)).memoryMd
        = (runOps cfg ((save cfg st a).2) (L.map Op.opSave)).memoryMd
        := rfl
    have hmd2 : (save cfg st a).2.memoryMd
        = memoryMdStr a.now (jsSliceNeg cfg.maxFacts
            (es ++ [freshEntry a])) := by
      rw [save_fact_case cfg st a ha2, indexUpsert_memoryMd]
      show memoryMdStr a.now
          (newLTof cfg (parseMemoryMd a.now st.memoryMd) (saveEntry st a))
        = _
      rw [hparse a.now, hse, hlt]
    have hwf2 : ∀ e ∈ jsSliceNeg cfg.maxFacts (es ++ [freshEntry a]),
        wfEntry e = true := by
      intro e he
      have hmem := (jsSliceNeg_sublist _ _).subset he
      rcases List.mem_append.mp hmem with h | h
      · exact hwf e h
      · rw [List.mem_singleton] at h
        exact h ▸ freshEntry_wf (hargs a (List.mem_cons_self a L))
    have hparse2 : ∀ r2, parseMemoryMd r2 (save cfg st a).2.memoryMd
        = jsSliceNeg cfg.maxFacts (es ++ [freshEntry a]) := by
      intro r2
      rw [hmd2]
      exact parse_memoryMdStr r2 a.now ha7 _ hwf2
    have hresult := ih ((save cfg st a).2)
      (jsSliceNeg cfg.maxFacts (es ++ [freshEntry a])) hparse2 hwf2
      (hsorted2.sublist (jsSliceNeg_sublist _ _))
      (jsSliceNeg_idem _ _)
      (fun b hb => hargs b (List.mem_cons_of_mem a hb))
      (by
        have hsub : ((jsSliceNeg cfg.maxFacts
              (es ++ [freshEntry a])).map (fun e => e.id)
              ++ L.map (fun b => b.genId)).Sublist
            (((es ++ [freshEntry a]).map (fun e => e.id))
              ++ L.map (fun b => b.genId)) :=
          List.Sublist.append ((jsSliceNeg_sublist _ _).map _)
            (List.Sublist.refl _)
        apply hsub.nodup
        rw [List.map_append, List.map_singleton, List.append_assoc]
        show ((es.map (fun e => e.id))
            ++ ([(freshEntry a).id] ++ L.map (fun b => b.genId))).Nodup
        rw [List.singleton_append]
        exact hnd)
      (by
        intro e he b hb
        have hmem := (jsSliceNeg_sublist _ _).subset he
        rcases List.mem_append.mp hmem with h | h
        · exact hle e h b (List.mem_cons_of_mem a hb)
        · rw [List.mem_singleton] at h
          subst h
          show a.now ≤ b.now
          exact (List.pairwise_cons.mp hpair).1 b hb)
      ((List.pairwise_cons.mp hpair).2)
    intro r2
    rw [hmd, hresult r2, jsSliceNeg_append_absorb, List.append_assoc,
      List.singleton_append, List.map_cons]

/-- Claim C4 as frozen is refuted at the configurable bound `MAX_FACTS = 0`:
JavaScript's `slice(-0)` is `slice(0)` and keeps the whole array, so after
`N = 1 > 0` saves the long-term partition holds one entry, not
`MAX_FACTS = 0` entries. -/
theorem c4_counterexample :
    ¬ ((parseMemoryMd (str "q") (runOps
          { maxShortTerm := 20, maxFacts := 0 }
          (initState (str "C") (str "p"))
          [Op.opSave c4B1]).memoryMd).length
        = ({ maxShortTerm := 20, maxFacts := 0 } : Config).maxFacts) := by
  decide

/-- Claim C4 (amended, and confirmed for every positive `MAX_FACTS`): after
`N > MAX_FACTS ≥ 1` saves of fresh non-log entries with distinct generated
ids and strictly increasing clock reads into the empty long-term partition,
the partition holds exactly the last `MAX_FACTS` of the saved entries —
`MAX_FACTS` many, and every silently dropped entry has a strictly smaller
`updatedAt` than every kept one. -/
theorem c4_capacity_bound (cfg : Config) (hk : 1 ≤ cfg.maxFacts)
    (created pnow : Str) (hc : wfValue created = true)
    (L : List SaveArgs) (hargs : ∀ a ∈ L, factArgs a = true)
    (hids : (L.map (fun a => a.genId)).Nodup)
    (hmono : List.Pairwise (fun x y : SaveArgs => x.now < y.now) L)
    (hlen : cfg.maxFacts < L.length) (qnow : Str) :
    parseMemoryMd qnow (runOps cfg (initState created pnow)
        (L.map Op.opSave)).memoryMd
      = (L.map freshEntry).drop (L.length - cfg.maxFacts) ∧
    (parseMemoryMd qnow (runOps cfg (initState created pnow)
        (L.map Op.opSave)).memoryMd).length = cfg.maxFacts ∧
    (∀ x ∈ (L.map freshEntry).take (L.length - cfg.maxFacts),
     ∀ y ∈ parseMemoryMd qnow (runOps cfg (initState created pnow)
        (L.map Op.opSave)).memoryMd,
     x.updatedAt < y.updatedAt) := by
  have hk0 : ¬ cfg.maxFacts = 0 := by omega
  have hrun := runFactSaves cfg L (initState created pnow) []
    (fun r => parse_initialMemoryMd r created hc)
    (by simp) (List.sorted_nil) (by
      unfold jsSliceNeg
      by_cases h : cfg.maxFacts = 0
      · simp [h]
      · simp [h])
    hargs (by simpa using hids) (by simp)
    (hmono.imp (fun h => le_of_lt h))
  have hmain : parseMemoryMd qnow (runOps cfg (initState created pnow)
      (L.map Op.opSave)).memoryMd
      = (L.map freshEntry).drop (L.length - cfg.maxFacts) := by
    rw [hrun qnow, List.nil_append]
    unfold jsSliceNeg
    rw [if_neg hk0, List.length_map]
  have hpw : List.Pairwise (fun x y : MemoryEntry =>
      x.updatedAt < y.updatedAt) (L.map freshEntry) := by
    rw [List.pairwise_map]
    exact hmono
  refine ⟨hmain, ?_, ?_⟩
  · rw [hmain, List.length_drop, List.length_map]
    omega
  · intro x hx y hy
    rw [hmain] at hy
    have hsplit := List.take_append_drop (L.length - cfg.maxFacts)
      (L.map freshEntry)
    have hpw2 := hpw
    rw [← hsplit, List.pairwise_append] at hpw2
    exact hpw2.2.2 x hx y hy

/-- Witness for C4: `MAX_FACTS = 1`, two fresh saves with clocks `A < B`;
only the `B` entry survives. -/
theorem c4_witness :
    (∀ a ∈ [c4B1, c4B2], factArgs a = true) ∧
    (parseMemoryMd (str "q") (runOps c4Cfg
        (initState (str "C") (str "p"))
        ([c4B1, c4B2].map Op.opSave)).memoryMd
      = ([c4B1, c4B2].map freshEntry).drop (2 - 1) ∧
    (parseMemoryMd (str "q") (runOps c4Cfg
        (initState (str "C") (str "p"))
        ([c4B1, c4B2].map Op.opSave)).memoryMd).length = 1) := by
  have h := @c4_capacity_bound c4Cfg (by decide) (str "C") (str "p")
    (by decide) [c4B1, c4B2] (by decide) (by decide) (by decide)
    (by decide) (str "q")
  exact ⟨by decide, h.1, h.2.1⟩
